import Mathlib

/-!
# Binding extraction and disjunction constraints of the optimizer core

A shallow embedding of `CBinding.cpp` (extraction of expressions from the memo
according to a pattern) and of `CConstraintDisjunction.cpp`, with the
properties of the specification stated and proved over the embedding.

Conventions of the embedding:

* a `CGroupExpression *` is a `PGroupExpression`: the owning group and the
  position of the group expression in the group's list;
* the recursion of `PexprExtract` through the memo is bounded by a fuel counter
  that is decremented at every entry of the group-level `PexprExtract`
  (the place of `GPOS_CHECK_STACK_SIZE`);
* dereferencing a null pointer or indexing an array out of range is the
  outcome `Err.undefined`;
* `GPOS_ASSERT` is compiled out (release build), except for the assertion that
  a reset child cursor is not null, whose failure is the outcome
  `Err.nullChild` because an expression array of the embedding holds no null;
* the functions whose name ends in `Debug` are those of a debug build with the
  two assertions on the previous result, whose failure is the outcome
  `Err.assertion`.
-/

namespace gpopt

/-- Modelled from the spec: the enumeration `COperator::EOperatorId` is absent
from the sources at hand.  `CBinding.cpp` only compares against the two tree
pattern identifiers; every other identifier is `EopOther n`. -/
inductive EOperatorId
  | EopPatternTree
  | EopPatternMultiTree
  | EopOther (n : Nat)
  deriving DecidableEq, Repr

/-- Modelled from the spec: the classes `COperator` and `CPattern` are absent
from the sources at hand; an operator is recorded by the observations that
`CBinding.cpp` makes of it: `Eopid()`, `FPattern()`, `CPattern::FLeaf()`,
`CPattern::FMultiNode(pop)` and `FLogical()`. -/
structure COperator where
  Eopid : EOperatorId
  FPattern : Bool
  FLeaf : Bool
  FMultiNode : Bool
  FLogical : Bool
  deriving DecidableEq, Repr

/-- Modelled from the spec: the class `CGroupExpression` is absent from the
sources at hand.  A group expression is an operator label plus an ordered
sequence of child group references. -/
structure CGroupExpression where
  Pop : COperator
  m_pdrgpgroup : List Nat
  deriving DecidableEq, Repr

/-- Number of child groups, `CGroupExpression::Arity`. -/
def CGroupExpression.Arity (gexpr : CGroupExpression) : Nat :=
  gexpr.m_pdrgpgroup.length

/-- Modelled from the spec: a pointer `CGroupExpression *`, as the
index-based reference of the design notes: the owning group and the position
of the group expression in the list of that group. -/
structure PGroupExpression where
  Pgroup : Nat
  idx : Nat
  deriving DecidableEq, Repr

/-- Modelled from the spec: the class `CGroup` is absent from the sources at
hand.  A group owns an ordered list of group expressions (insertion order
defines cursor order) plus a flag distinguishing scalar groups. -/
structure CGroup where
  FScalar : Bool
  m_listGExprs : List CGroupExpression
  deriving DecidableEq, Repr

/-- Modelled from the spec: the memo, as the group behind every group
reference (`CMemo` is absent from the sources at hand). -/
abbrev CMemo := Nat → CGroup

/-- The group expression a pointer refers to, when the pointer is valid. -/
def CMemo.deref (memo : CMemo) (pgexpr : PGroupExpression) : Option CGroupExpression :=
  (memo pgexpr.Pgroup).m_listGExprs.get? pgexpr.idx

/-- Modelled from the spec: the class `CExpression` is absent from the
sources at hand.  An expression is a materialized tree: an operator, the
group expression chosen at the root (null for a pattern) and one child
expression per child.  Patterns are expressions too. -/
inductive CExpression
  | mk (Pop : COperator) (Pgexpr : Option PGroupExpression) (m_pdrgpexpr : List CExpression)

namespace CExpression

/-- Root operator of an expression. -/
def Pop : CExpression → COperator
  | mk pop _ _ => pop

/-- Group expression the expression was extracted from. -/
def Pgexpr : CExpression → Option PGroupExpression
  | mk _ pgexpr _ => pgexpr

/-- Child expressions. -/
def m_pdrgpexpr : CExpression → List CExpression
  | mk _ _ children => children

/-- Number of children, `CExpression::Arity`. -/
def Arity (pexpr : CExpression) : Nat :=
  pexpr.m_pdrgpexpr.length

end CExpression

/-- Outcomes that are not a return value. -/
inductive Err
  | outOfFuel
  | undefined
  | nullChild
  | assertion
  deriving DecidableEq, Repr

/-- Array access `(*pexpr)[ul]`; out of range is undefined. -/
def CExpression.child (pexpr : CExpression) (ul : Nat) : Except Err CExpression :=
  match pexpr.m_pdrgpexpr.get? ul with
  | some c => .ok c
  | none => .error .undefined

/-- The test `popPattern->FPattern() && CPattern::PopConvert(popPattern)->FLeaf()`. -/
def CExpression.FLeafPattern (pexprPattern : CExpression) : Bool :=
  pexprPattern.Pop.FPattern && pexprPattern.Pop.FLeaf

/-- The `ULONG` value of `arity - 1`: it wraps around at zero. -/
def ulongPred (arity : Nat) : Nat :=
  if arity = 0 then 4294967295 else arity - 1

/-- A cursor over the bindings of groups: group, pattern, previous result. -/
abbrev GroupCursor := Nat → CExpression → Option CExpression → Except Err (Option CExpression)

namespace CGroupProxy

/-- Modelled from the spec: `CGroupProxy` is absent from the sources at hand.
Pointers to the group expressions of `gexprs` (which starts at position `i` of
group `pgroup`) that a binding cursor visits, in insertion order: all of them
when `fAll` holds (scalar group), only those with a logical operator
otherwise. -/
def visited (pgroup : Nat) (fAll : Bool) : Nat → List CGroupExpression → List PGroupExpression
  | _, [] => []
  | i, gexpr :: rest =>
    if fAll || gexpr.Pop.FLogical then
      ⟨pgroup, i⟩ :: visited pgroup fAll (i + 1) rest
    else
      visited pgroup fAll (i + 1) rest

end CGroupProxy

namespace CBinding

/-- Modelled from the spec: `CGroupProxy` (`PgexprFirst`, `PgexprNext`,
`PgexprNextLogical`) is absent from the sources at hand.  The group owns an
ordered list of group expressions and insertion order is cursor order; a
scalar group considers all members, a non-scalar group skips the members whose
operator is not logical.  `cursorAfter memo pgroup pgexpr` lists the successive
values of `PgexprNext(pgroup, ·)` starting after `pgexpr`: from the head of the
list of `pgroup` for the null pointer, and otherwise along the list that
`pgexpr` is linked in (the list of its own group); whether non-logical members
are skipped is decided by `pgroup->FScalar()`. -/
def cursorAfter (memo : CMemo) (pgroup : Nat) (pgexpr : Option PGroupExpression) :
    List PGroupExpression :=
  match pgexpr with
  | none => CGroupProxy.visited pgroup (memo pgroup).FScalar 0 (memo pgroup).m_listGExprs
  | some p =>
    CGroupProxy.visited p.Pgroup (memo pgroup).FScalar (p.idx + 1)
      ((memo p.Pgroup).m_listGExprs.drop (p.idx + 1))

/-- Move cursor within a group (initialize if null), `CBinding::PgexprNext`. -/
def PgexprNext (memo : CMemo) (pgroup : Nat) (pgexpr : Option PGroupExpression) :
    Option PGroupExpression :=
  (cursorAfter memo pgroup pgexpr).head?

/-- Pattern operators which match more than one operator are passed around,
`CBinding::PexprExpandPattern`. -/
def PexprExpandPattern (pexprPattern : CExpression) (ulPos arity : Nat) :
    Except Err CExpression :=
  if pexprPattern.Pop.Eopid = .EopPatternTree ∨
      pexprPattern.Pop.Eopid = .EopPatternMultiTree then
    .ok pexprPattern
  else
    match pexprPattern.m_pdrgpexpr.head? with
    | some first =>
      if first.Pop.FMultiNode then
        if ulPos = ulongPred arity then
          pexprPattern.child (pexprPattern.Arity - 1)
        else
          .ok first
      else
        pexprPattern.child ulPos
    | none => pexprPattern.child ulPos

/-- Assemble expression, `CBinding::PexprFinalize`. -/
def PexprFinalize (pgexpr : PGroupExpression) (gexpr : CGroupExpression)
    (pdrgpexpr : List CExpression) : CExpression :=
  .mk gexpr.Pop (some pgexpr) pdrgpexpr

/-- The loop of `CBinding::FInitChildCursors` from position `ul` on, over the
remaining child groups, appending to `pdrgpexpr`. -/
def FInitChildCursors.loop (extract : GroupCursor) (pexprPattern : CExpression) (arity : Nat) :
    List Nat → Nat → List CExpression → Except Err (Bool × List CExpression)
  | [], _, pdrgpexpr => .ok (true, pdrgpexpr)
  | pgroup :: rest, ul, pdrgpexpr =>
    match PexprExpandPattern pexprPattern ul arity with
    | .error e => .error e
    | .ok pexprPatternChild =>
      match extract pgroup pexprPatternChild none with
      | .error e => .error e
      | .ok none => .ok (false, pdrgpexpr)
      | .ok (some pexprNewChild) =>
        FInitChildCursors.loop extract pexprPattern arity rest (ul + 1)
          (pdrgpexpr ++ [pexprNewChild])

/-- Initialize cursors of child expressions, `CBinding::FInitChildCursors`. -/
def FInitChildCursors (extract : GroupCursor) (gexpr : CGroupExpression)
    (pexprPattern : CExpression) (pdrgpexpr : List CExpression) :
    Except Err (Bool × List CExpression) :=
  FInitChildCursors.loop extract pexprPattern gexpr.Arity gexpr.m_pdrgpgroup 0 pdrgpexpr

/-- The loop of `CBinding::FAdvanceChildCursors` from position `ul` on; the
state is `fCursorAdvanced`, `ulExhaustedCursors` and the array `pdrgpexpr`. -/
def FAdvanceChildCursors.loop (extract : GroupCursor) (pexprPattern pexprLast : CExpression)
    (arity : Nat) :
    List Nat → Nat → Bool → Nat → List CExpression → Except Err (Nat × List CExpression)
  | [], _, _, ulExhaustedCursors, pdrgpexpr => .ok (ulExhaustedCursors, pdrgpexpr)
  | pgroup :: rest, ul, fCursorAdvanced, ulExhaustedCursors, pdrgpexpr =>
    match PexprExpandPattern pexprPattern ul arity with
    | .error e => .error e
    | .ok pexprPatternChild =>
      match pexprLast.child ul with
      | .error e => .error e
      | .ok pexprLastChild =>
        if fCursorAdvanced then
          FAdvanceChildCursors.loop extract pexprPattern pexprLast arity rest (ul + 1)
            true ulExhaustedCursors (pdrgpexpr ++ [pexprLastChild])
        else
          match extract pgroup pexprPatternChild (some pexprLastChild) with
          | .error e => .error e
          | .ok (some pexprNewChild) =>
            FAdvanceChildCursors.loop extract pexprPattern pexprLast arity rest (ul + 1)
              true ulExhaustedCursors (pdrgpexpr ++ [pexprNewChild])
          | .ok none =>
            match extract pgroup pexprPatternChild none with
            | .error e => .error e
            | .ok none => .error .nullChild
            | .ok (some pexprNewChild) =>
              FAdvanceChildCursors.loop extract pexprPattern pexprLast arity rest (ul + 1)
                false (ulExhaustedCursors + 1) (pdrgpexpr ++ [pexprNewChild])

/-- Advance cursors of child expressions and populate the given array with the
next child expressions, `CBinding::FAdvanceChildCursors`. -/
def FAdvanceChildCursors (extract : GroupCursor) (gexpr : CGroupExpression)
    (pexprPattern : CExpression) (pexprLast : Option CExpression)
    (pdrgpexpr : List CExpression) : Except Err (Bool × List CExpression) :=
  match pexprLast with
  | none => FInitChildCursors extract gexpr pexprPattern pdrgpexpr
  | some last =>
    match FAdvanceChildCursors.loop extract pexprPattern last gexpr.Arity
        gexpr.m_pdrgpgroup 0 false 0 pdrgpexpr with
    | .error e => .error e
    | .ok (ulExhaustedCursors, children) =>
      .ok (decide (ulExhaustedCursors < gexpr.Arity), children)

/-- For a given root, extract children into a dynamic array,
`CBinding::FExtractChildren`. -/
def FExtractChildren (extract : GroupCursor) (gexpr : CGroupExpression)
    (pexprPattern : CExpression) (pexprLast : Option CExpression)
    (pdrgpexpr : List CExpression) : Except Err (Bool × List CExpression) :=
  if gexpr.Arity < pexprPattern.Arity then
    .ok (false, pdrgpexpr)
  else if gexpr.Arity = 0 then
    .ok (true, pdrgpexpr)
  else
    FAdvanceChildCursors extract gexpr pexprPattern pexprLast pdrgpexpr

/-- Extract a binding according to a given pattern, keeping the root node
fixed: `CBinding::PexprExtract(mp, pgexpr, pexprPattern, pexprLast)`, with the
group-level extraction it calls for the children passed as `extract`. -/
def PexprExtractRoot (FMatchPattern : CExpression → CGroupExpression → Bool) (memo : CMemo)
    (extract : GroupCursor) (pgexpr : PGroupExpression) (pexprPattern : CExpression)
    (pexprLast : Option CExpression) : Except Err (Option CExpression) :=
  match memo.deref pgexpr with
  | none => .error .undefined
  | some gexpr =>
    if !FMatchPattern pexprPattern gexpr then
      .ok none
    else if pexprPattern.FLeafPattern then
      .ok (some (.mk gexpr.Pop (some pgexpr) []))
    else if pexprLast.isSome && (memo pgexpr.Pgroup).FScalar then
      .ok none
    else if gexpr.Arity = 0 ∧ pexprLast.isSome then
      .ok none
    else
      match FExtractChildren extract gexpr pexprPattern pexprLast [] with
      | .error e => .error e
      | .ok (false, _) => .ok none
      | .ok (true, pdrgpexpr) => .ok (some (PexprFinalize pgexpr gexpr pdrgpexpr))

/-- One round of the `do`/`while` loop of the group-level `PexprExtract`
before the cursor moves: shallow match, then extraction at the root. -/
def PexprExtractGroup.step (FMatchPattern : CExpression → CGroupExpression → Bool)
    (memo : CMemo) (extract : GroupCursor) (pexprPattern : CExpression)
    (pgexpr : PGroupExpression) (pexprStart : Option CExpression) :
    Except Err (Option CExpression) :=
  match memo.deref pgexpr with
  | none => .error .undefined
  | some gexpr =>
    if FMatchPattern pexprPattern gexpr then
      PexprExtractRoot FMatchPattern memo extract pgexpr pexprPattern pexprStart
    else
      .ok none

/-- The `do`/`while` loop of the group-level `PexprExtract`: `pgexpr` is the
cursor, `pexprStart` the start position, and the list holds the successive
values of `PgexprNext` after `pgexpr` (empty when `PgexprNext` is null). -/
def PexprExtractGroup.loop (step : PGroupExpression → Option CExpression →
      Except Err (Option CExpression)) :
    PGroupExpression → Option CExpression → List PGroupExpression →
      Except Err (Option CExpression)
  | pgexpr, pexprStart, [] =>
    match step pgexpr pexprStart with
    | .error e => .error e
    | .ok (some pexprResult) => .ok (some pexprResult)
    | .ok none => .ok none
  | pgexpr, pexprStart, pgexprNext :: rest =>
    match step pgexpr pexprStart with
    | .error e => .error e
    | .ok (some pexprResult) => .ok (some pexprResult)
    | .ok none => PexprExtractGroup.loop step pgexprNext none rest

/-- Extract a binding according to a given pattern; if no appropriate child
pattern can be matched advance the root node until the group is exhausted:
`CBinding::PexprExtract(mp, pgroup, pexprPattern, pexprLast)`. -/
def PexprExtractGroup (FMatchPattern : CExpression → CGroupExpression → Bool) (memo : CMemo) :
    Nat → GroupCursor
  | 0, _, _, _ => .error .outOfFuel
  | fuel + 1, pgroup, pexprPattern, pexprLast =>
    let pgexpr : Option PGroupExpression :=
      match pexprLast with
      | some last => last.Pgexpr
      | none => PgexprNext memo pgroup none
    if pexprPattern.FLeafPattern then
      if pexprLast.isSome then
        .ok none
      else
        match pgexpr with
        | none => .error .undefined
        | some p =>
          PexprExtractRoot FMatchPattern memo (PexprExtractGroup FMatchPattern memo fuel)
            p pexprPattern pexprLast
    else
      match pgexpr with
      | none => .error .undefined
      | some p =>
        PexprExtractGroup.loop
          (PexprExtractGroup.step FMatchPattern memo
            (PexprExtractGroup FMatchPattern memo fuel) pexprPattern)
          p pexprLast (cursorAfter memo pgroup (some p))

/-- The public entry point `CBinding::PexprExtract(mp, pgexpr, pexprPattern,
pexprLast)`; `fuel` bounds the depth of the recursion into child groups. -/
def PexprExtract (FMatchPattern : CExpression → CGroupExpression → Bool) (memo : CMemo)
    (fuel : Nat) (pgexpr : PGroupExpression) (pexprPattern : CExpression)
    (pexprLast : Option CExpression) : Except Err (Option CExpression) :=
  PexprExtractRoot FMatchPattern memo (PexprExtractGroup FMatchPattern memo fuel)
    pgexpr pexprPattern pexprLast

/-- Repeated extraction: the results of calling `next` first with no previous
result and then with the result before, until it returns end; at most `n`
calls are made, and running out of calls is `Err.outOfFuel`. -/
def enumerate (next : Option CExpression → Except Err (Option CExpression)) :
    Nat → Option CExpression → Except Err (List CExpression)
  | 0, _ => .error .outOfFuel
  | n + 1, pexprLast =>
    match next pexprLast with
    | .error e => .error e
    | .ok none => .ok []
    | .ok (some pexpr) =>
      match enumerate next n (some pexpr) with
      | .error e => .error e
      | .ok rest => .ok (pexpr :: rest)

/-- The function `next` is a restartable cursor over the list `L`: with no
previous result it returns the head of `L`, and with a previous result that
stands somewhere in `L` it returns the element that follows, or end. -/
def IsCursorOf (next : Option CExpression → Except Err (Option CExpression))
    (L : List CExpression) : Prop :=
  next none = .ok L.head? ∧
    ∀ l₁ e l₂, L = l₁ ++ e :: l₂ → next (some e) = .ok l₂.head?

/-- The child cursors of a group expression from position `ul` on (child
groups `gs`, each with its expanded child pattern) are cursors over the
lists `Ls`. -/
def ChildCursors (extract : GroupCursor) (pexprPattern : CExpression) (arity : Nat) :
    Nat → List Nat → List (List CExpression) → Prop
  | _, [], [] => True
  | ul, pgroup :: gs, L :: Ls =>
    (∃ pexprPatternChild, PexprExpandPattern pexprPattern ul arity = .ok pexprPatternChild ∧
        IsCursorOf (extract pgroup pexprPatternChild) L) ∧
      ChildCursors extract pexprPattern arity (ul + 1) gs Ls
  | _, [], _ :: _ => False
  | _, _ :: _, [] => False

/-- The bindings of the child groups `gs` from position `ul` on, each against
its expanded child pattern, as given by `bind`. -/
def childBindings (bind : Nat → CExpression → Except Err (List CExpression))
    (pexprPattern : CExpression) (arity : Nat) :
    List Nat → Nat → Except Err (List (List CExpression))
  | [], _ => .ok []
  | pgroup :: rest, ul =>
    match PexprExpandPattern pexprPattern ul arity with
    | .error e => .error e
    | .ok pexprPatternChild =>
      match bind pgroup pexprPatternChild with
      | .error e => .error e
      | .ok L =>
        match childBindings bind pexprPattern arity rest (ul + 1) with
        | .error e => .error e
        | .ok Ls => .ok (L :: Ls)

/-- All bindings of a non-leaf pattern rooted at one group expression, in the
order of extraction: the root with every combination of child bindings, the
leftmost child varying fastest; a group expression of a scalar group keeps
the first combination only. -/
def bindingsRoot (FMatchPattern : CExpression → CGroupExpression → Bool) (memo : CMemo)
    (bind : Nat → CExpression → Except Err (List CExpression)) (pgexpr : PGroupExpression)
    (pexprPattern : CExpression) : Except Err (List CExpression) :=
  match memo.deref pgexpr with
  | none => .error .undefined
  | some gexpr =>
    if !FMatchPattern pexprPattern gexpr then
      .ok []
    else if gexpr.Arity < pexprPattern.Arity then
      .ok []
    else
      match childBindings bind pexprPattern gexpr.Arity gexpr.m_pdrgpgroup 0 with
      | .error e => .error e
      | .ok Ls =>
        if (memo pgexpr.Pgroup).FScalar then
          .ok ((Ls.sections.take 1).map (PexprFinalize pgexpr gexpr))
        else
          .ok (Ls.sections.map (PexprFinalize pgexpr gexpr))

/-- The bindings rooted at each of the group expressions `ps`, concatenated. -/
def bindingsOver (root : PGroupExpression → Except Err (List CExpression)) :
    List PGroupExpression → Except Err (List CExpression)
  | [] => .ok []
  | p :: rest =>
    match root p with
    | .error e => .error e
    | .ok L =>
      match bindingsOver root rest with
      | .error e => .error e
      | .ok L' => .ok (L ++ L')

/-- All bindings of a pattern in a group, in the order of extraction.  A leaf
pattern binds the group once, to the first group expression of the cursor; any
other pattern binds every group expression the cursor visits. -/
def bindingsGroup (FMatchPattern : CExpression → CGroupExpression → Bool) (memo : CMemo) :
    Nat → Nat → CExpression → Except Err (List CExpression)
  | 0, _, _ => .error .outOfFuel
  | fuel + 1, pgroup, pexprPattern =>
    match cursorAfter memo pgroup none with
    | [] => .error .undefined
    | p :: rest =>
      if pexprPattern.FLeafPattern then
        match memo.deref p with
        | none => .error .undefined
        | some gexpr =>
          if FMatchPattern pexprPattern gexpr then
            .ok [.mk gexpr.Pop (some p) []]
          else
            .ok []
      else
        bindingsOver
          (fun q => bindingsRoot FMatchPattern memo (bindingsGroup FMatchPattern memo fuel)
            q pexprPattern)
          (p :: rest)

end CBinding

end gpopt

/-! ## Fixtures: a shallow matcher and a small memo -/

namespace gpopt

/-- Modelled from the spec: `CExpression::FMatchPattern` is absent from the
sources at hand.  The shallow match is operator-compatible and
arity-compatible: a pattern operator matches any group expression, any other
operator matches a group expression with the same operator identifier and the
same number of children. -/
def FMatchPatternSpec (pexprPattern : CExpression) (gexpr : CGroupExpression) : Bool :=
  pexprPattern.Pop.FPattern ||
    (pexprPattern.Pop.Eopid == gexpr.Pop.Eopid && pexprPattern.Arity == gexpr.Arity)

/-- A logical scan of table `n`. -/
def opScan (n : Nat) : COperator := ⟨.EopOther (10 + n), false, false, false, true⟩

/-- A logical join. -/
def opJoin : COperator := ⟨.EopOther 1, false, false, false, true⟩

/-- A scalar operator `n`. -/
def opScalar (n : Nat) : COperator := ⟨.EopOther (100 + n), false, false, false, false⟩

/-- The leaf wildcard. -/
def opPatternLeaf : COperator := ⟨.EopOther 0, true, true, false, false⟩

/-- The tree wildcard. -/
def opPatternTree : COperator := ⟨.EopPatternTree, true, false, false, false⟩

/-- The pattern that is a single leaf wildcard. -/
def patLeaf : CExpression := .mk opPatternLeaf none []

/-- The pattern that is a single tree wildcard. -/
def patTree : CExpression := .mk opPatternTree none []

/-- The pattern `Join(leaf, leaf)`. -/
def patJoinLeaves : CExpression := .mk opJoin none [patLeaf, patLeaf]

/-- The pattern `Join(tree, tree)`. -/
def patJoinTrees : CExpression := .mk opJoin none [patTree, patTree]

/-- The pattern `Join(Join(leaf, leaf), leaf)`. -/
def patJoinNested : CExpression := .mk opJoin none [patJoinLeaves, patLeaf]

/-- A memo: groups 1 and 2 hold one scan each and group 3 their join; groups 4
and 5 hold two and three scans and group 6 their join; group 7 is a scalar
group of two group expressions; group 9 holds two joins, the first over a
scan group and the second over the join group 3. -/
def exampleMemo : CMemo
  | 1 => ⟨false, [⟨opScan 0, []⟩]⟩
  | 2 => ⟨false, [⟨opScan 1, []⟩]⟩
  | 3 => ⟨false, [⟨opJoin, [1, 2]⟩]⟩
  | 4 => ⟨false, [⟨opScan 2, []⟩, ⟨opScan 3, []⟩]⟩
  | 5 => ⟨false, [⟨opScan 4, []⟩, ⟨opScan 5, []⟩, ⟨opScan 6, []⟩]⟩
  | 6 => ⟨false, [⟨opJoin, [4, 5]⟩]⟩
  | 7 => ⟨true, [⟨opScalar 0, []⟩, ⟨opScalar 1, []⟩]⟩
  | 9 => ⟨false, [⟨opJoin, [1, 2]⟩, ⟨opJoin, [3, 2]⟩]⟩
  | _ => ⟨false, []⟩

/-- The expression extracted for the `i`-th group expression of group `g`
when it is the scan of table `n`. -/
def exprScan (n g i : Nat) : CExpression := .mk (opScan n) (some ⟨g, i⟩) []

/-- The join of group 6 over the given children. -/
def exprJoin6 (l r : CExpression) : CExpression := .mk opJoin (some ⟨6, 0⟩) [l, r]

/-- A physical join: an operator that is not logical. -/
def opPhysicalJoin : COperator := ⟨.EopOther 2, false, false, false, false⟩

/-- A memo with a mixed group: groups 1 and 2 hold one scan each, group 3
their join and group 4 two scans; group 8 holds, in insertion order, a scan,
a join over groups 3 and 2, a physical join, a join over the scan groups 1
and 2, a join over groups 3 and 1 and a join over groups 4 and 2. -/
def exampleMemoMixed : CMemo
  | 1 => ⟨false, [⟨opScan 0, []⟩]⟩
  | 2 => ⟨false, [⟨opScan 1, []⟩]⟩
  | 3 => ⟨false, [⟨opJoin, [1, 2]⟩]⟩
  | 4 => ⟨false, [⟨opScan 2, []⟩, ⟨opScan 3, []⟩]⟩
  | 8 => ⟨false, [⟨opScan 7, []⟩, ⟨opJoin, [3, 2]⟩, ⟨opPhysicalJoin, [3, 2]⟩,
      ⟨opJoin, [1, 2]⟩, ⟨opJoin, [3, 1]⟩, ⟨opJoin, [4, 2]⟩]⟩
  | _ => ⟨false, []⟩

/-- The join at position `i` of group 8 of the mixed memo over the given
children. -/
def exprJoin8 (i : Nat) (l r : CExpression) : CExpression := .mk opJoin (some ⟨8, i⟩) [l, r]

/-- The join of group 3 over the scans of groups 1 and 2. -/
def exprJoin3 : CExpression := .mk opJoin (some ⟨3, 0⟩) [exprScan 0 1 0, exprScan 1 2 0]

namespace CBinding

/-- The child groups `gs` from position `ul` on each have a first binding for
their expanded child pattern, the expressions `es`. -/
def FirstBindings (extract : GroupCursor) (pexprPattern : CExpression) (arity : Nat) :
    Nat → List Nat → List CExpression → Prop
  | _, [], [] => True
  | ul, pgroup :: gs, e :: es =>
    (∃ pexprPatternChild, PexprExpandPattern pexprPattern ul arity = .ok pexprPatternChild ∧
        extract pgroup pexprPatternChild none = .ok (some e)) ∧
      FirstBindings extract pexprPattern arity (ul + 1) gs es
  | _, [], _ :: _ => False
  | _, _ :: _, [] => False

end CBinding

end gpopt

/-! ## Disjunction constraints (`CConstraintDisjunction.cpp`) -/

namespace gpopt

/-- A column reference, by its identifier. -/
abbrev CColRef := Nat

/-- A set of column references. -/
abbrev CColRefSet := List CColRef

/-- The test `pcrs->IsDisjoint(pcrsOther)`. -/
def CColRefSet.IsDisjoint (pcrs pcrsOther : CColRefSet) : Bool :=
  pcrs.all fun colref => !pcrsOther.contains colref

/-- A column mapping `UlongToColRefMap`. -/
abbrev UlongToColRefMap := Nat → Option CColRef

/-- Modelled from the spec: the constraint classes other than the disjunction
(`CConstraint`, `CConstraintInterval`, ...) are absent from the sources at
hand.  A constraint is a value of a type `C`, and the operations that
`CConstraintDisjunction.cpp` calls on constraints are the fields of this
record: the virtual methods of a child constraint and the static
constructors `CConstraintInterval::PciUnbounded` (on a column and on a column
set), `CConstraint::PcnstrDisjunction` and `CConstraint::PdrgpcnstrFlatten`. -/
structure CConstraintOps (C : Type) where
  FContradiction : C → Bool
  PcrsUsed : C → CColRefSet
  Pcnstr : C → CColRef → Option C
  PcnstrSet : C → CColRefSet → Option C
  IsConstraintUnbounded : C → Bool
  PcnstrCopyWithRemappedColumns : C → UlongToColRefMap → Bool → C
  PciUnbounded : CColRef → Bool → C
  PciUnboundedSet : CColRefSet → Bool → C
  PcnstrDisjunction : List C → C
  PdrgpcnstrFlatten : List C → List C

/-- A disjunction constraint: the array of child constraints and the index
from a column to the children that mention it (`m_phmcolconstr->Find`). -/
structure CConstraintDisjunction (C : Type) where
  m_pdrgpcnstr : List C
  m_phmcolconstr : CColRef → Option (List C)

namespace CConstraintDisjunction

variable {C : Type}

/-- Modelled from the spec: `CConstraint::Phmcolconstr` is absent from the
sources at hand.  The index built at construction maps a column to the
children that mention it; a column that no child mentions has no entry. -/
def Phmcolconstr (ops : CConstraintOps C) (pdrgpcnstr : List C) (colref : CColRef) :
    Option (List C) :=
  match pdrgpcnstr.filter fun pcnstr => (ops.PcrsUsed pcnstr).contains colref with
  | [] => none
  | pcnstr :: rest => some (pcnstr :: rest)

/-- The constructor `CConstraintDisjunction::CConstraintDisjunction`: the
children are the flattened array and the index is built from them. -/
def ctor (ops : CConstraintOps C) (pdrgpcnstr : List C) : CConstraintDisjunction C :=
  { m_pdrgpcnstr := ops.PdrgpcnstrFlatten pdrgpcnstr
    m_phmcolconstr := Phmcolconstr ops (ops.PdrgpcnstrFlatten pdrgpcnstr) }

/-- The loop of `CConstraintDisjunction::FContradiction` over the remaining
children, with the current value of `fContradiction`. -/
def FContradiction.loop (ops : CConstraintOps C) : List C → Bool → Bool
  | [], fContradiction => fContradiction
  | pcnstr :: rest, fContradiction =>
    if fContradiction then
      FContradiction.loop ops rest (ops.FContradiction pcnstr)
    else
      fContradiction

/-- Check if this constraint is a contradiction,
`CConstraintDisjunction::FContradiction`. -/
def FContradiction (ops : CConstraintOps C) (d : CConstraintDisjunction C) : Bool :=
  FContradiction.loop ops d.m_pdrgpcnstr true

/-- Check if there is a constraint on the given column,
`CConstraintDisjunction::FConstraint`. -/
def FConstraint (d : CConstraintDisjunction C) (colref : CColRef) : Bool :=
  match d.m_phmcolconstr colref with
  | none => false
  | some pdrgpcnstrCol => d.m_pdrgpcnstr.length == pdrgpcnstrCol.length

/-- The loop of `PcnstrCopyWithRemappedColumns` over the remaining children,
appending the copy of each child to `pdrgpcnstr`. -/
def PcnstrCopyWithRemappedColumns.loop (ops : CConstraintOps C)
    (colref_mapping : UlongToColRefMap) (must_exist : Bool) : List C → List C → List C
  | [], pdrgpcnstr => pdrgpcnstr
  | pcnstr :: rest, pdrgpcnstr =>
    PcnstrCopyWithRemappedColumns.loop ops colref_mapping must_exist rest
      (pdrgpcnstr ++ [ops.PcnstrCopyWithRemappedColumns pcnstr colref_mapping must_exist])

/-- Return a copy of the constraint with remapped columns,
`CConstraintDisjunction::PcnstrCopyWithRemappedColumns`. -/
def PcnstrCopyWithRemappedColumns (ops : CConstraintOps C) (d : CConstraintDisjunction C)
    (colref_mapping : UlongToColRefMap) (must_exist : Bool) : CConstraintDisjunction C :=
  ctor ops
    (PcnstrCopyWithRemappedColumns.loop ops colref_mapping must_exist d.m_pdrgpcnstr [])

/-- The loop of `Pcnstr(mp, colref)` over the children that reference the
column, appending to `pdrgpcnstr`.  `pcnstrCol` is the part of the child that
references the column, replaced by the unbounded interval including null when
the child returns the null pointer. -/
def Pcnstr.loop (ops : CConstraintOps C) (colref : CColRef) : List C → List C → C
  | [], pdrgpcnstr => ops.PcnstrDisjunction pdrgpcnstr
  | pcnstr :: rest, pdrgpcnstr =>
    let pcnstrCol : C := (ops.Pcnstr pcnstr colref).getD (ops.PciUnbounded colref true)
    if ops.IsConstraintUnbounded pcnstrCol then
      pcnstrCol
    else
      Pcnstr.loop ops colref rest (pdrgpcnstr ++ [pcnstrCol])

/-- Return constraint on a given column,
`CConstraintDisjunction::Pcnstr(mp, colref)`; `none` is the null pointer. -/
def Pcnstr (ops : CConstraintOps C) (d : CConstraintDisjunction C) (colref : CColRef) :
    Option C :=
  match d.m_phmcolconstr colref with
  | none => none
  | some pdrgpcnstrCol =>
    if pdrgpcnstrCol.length ≠ d.m_pdrgpcnstr.length then
      some (ops.PciUnbounded colref true)
    else
      some (Pcnstr.loop ops colref pdrgpcnstrCol [])

/-- The loop of `Pcnstr(mp, pcrs)` over the children, appending to
`pdrgpcnstr`.  `pcnstrCol` is the part of the child that references the
columns of the set, replaced by the unbounded constraint including null when
the child returns the null pointer. -/
def PcnstrSet.loop (ops : CConstraintOps C) (pcrs : CColRefSet) : List C → List C → C
  | [], pdrgpcnstr => ops.PcnstrDisjunction pdrgpcnstr
  | pcnstr :: rest, pdrgpcnstr =>
    if (ops.PcrsUsed pcnstr).IsDisjoint pcrs then
      ops.PciUnboundedSet pcrs true
    else
      let pcnstrCol : C := (ops.PcnstrSet pcnstr pcrs).getD (ops.PciUnboundedSet pcrs true)
      PcnstrSet.loop ops pcrs rest (pdrgpcnstr ++ [pcnstrCol])

/-- Return constraint on a given column set,
`CConstraintDisjunction::Pcnstr(mp, pcrs)`. -/
def PcnstrSet (ops : CConstraintOps C) (d : CConstraintDisjunction C) (pcrs : CColRefSet) : C :=
  PcnstrSet.loop ops pcrs d.m_pdrgpcnstr []

end CConstraintDisjunction

/-- A constraint for the examples: an interval or a disjunction, recorded by
the columns it uses and by whether it is a contradiction, whether it is
unbounded and whether it includes null. -/
inductive ExampleConstraint
  | interval (pcrs : CColRefSet) (fContradiction fUnbounded fIncludesNull : Bool)
  | disjunction (pcrs : CColRefSet) (fContradiction : Bool)
  deriving DecidableEq, Repr

namespace ExampleConstraint

/-- Columns used by an example constraint. -/
def PcrsUsed : ExampleConstraint → CColRefSet
  | interval pcrs _ _ _ => pcrs
  | disjunction pcrs _ => pcrs

/-- An example constraint is a contradiction by its flag. -/
def FContradiction : ExampleConstraint → Bool
  | interval _ f _ _ => f
  | disjunction _ f => f

/-- An example interval is unbounded by its flag; a disjunction is not. -/
def IsConstraintUnbounded : ExampleConstraint → Bool
  | interval _ _ f _ => f
  | disjunction _ _ => false

/-- The operations on example constraints. -/
def ops : CConstraintOps ExampleConstraint where
  FContradiction := FContradiction
  PcrsUsed := PcrsUsed
  Pcnstr := fun c colref => if (PcrsUsed c).contains colref then some c else none
  PcnstrSet := fun c pcrs => if (PcrsUsed c).IsDisjoint pcrs then none else some c
  IsConstraintUnbounded := IsConstraintUnbounded
  PcnstrCopyWithRemappedColumns := fun c _ _ => c
  PciUnbounded := fun colref fIncludesNull => interval [colref] false true fIncludesNull
  PciUnboundedSet := fun pcrs fIncludesNull => interval pcrs false true fIncludesNull
  PcnstrDisjunction := fun l => disjunction (l.flatMap PcrsUsed) (l.all FContradiction)
  PdrgpcnstrFlatten := fun l => l

/-- The restriction of an example constraint to the columns of a set: an
interval is cut down to the columns of the set that it uses, and a
disjunction has no restriction of its own (the null pointer). -/
def restrict (pcrs : CColRefSet) : ExampleConstraint → Option ExampleConstraint
  | interval used f u n =>
    if used.IsDisjoint pcrs then none
    else some (interval (used.filter fun colref => pcrs.contains colref) f u n)
  | disjunction _ _ => none

/-- Operations on example constraints in which the constraint of a child on a
column or a column set is its restriction, and not the child itself. -/
def opsRestrict : CConstraintOps ExampleConstraint :=
  { ops with
    Pcnstr := fun c colref => restrict [colref] c
    PcnstrSet := fun c pcrs => restrict pcrs c }

end ExampleConstraint

end gpopt

namespace gpopt
namespace CBinding

/-- The memo is acyclic and has no empty child group: `rank` decreases from a
group to every child group of its group expressions, and the cursor of every
child group has a first group expression. -/
def WellFormed (memo : CMemo) (rank : Nat → Nat) : Prop :=
  ∀ g gexpr, gexpr ∈ (memo g).m_listGExprs → ∀ c ∈ gexpr.m_pdrgpgroup,
    rank c < rank g ∧ cursorAfter memo c none ≠ []

/-- The patterns in `S` can be expanded: a non-leaf pattern of `S` that
shallow-matches a group expression with at least as many children has, for
every child position, a child pattern, which is in `S` again. -/
def PatternsClosed (FMatchPattern : CExpression → CGroupExpression → Bool)
    (S : CExpression → Prop) : Prop :=
  ∀ P gexpr ul, S P → FMatchPattern P gexpr = true → P.FLeafPattern = false →
    P.Arity ≤ gexpr.Arity → ul < gexpr.Arity →
    ∃ P', PexprExpandPattern P ul gexpr.Arity = .ok P' ∧ S P'

end CBinding
end gpopt

namespace gpopt

/-- The patterns of the examples over tree wildcards: `Join(tree, tree)` and
the tree wildcard itself. -/
def examplePatterns (P : CExpression) : Prop :=
  P = patJoinTrees ∨ P = patTree

end gpopt

/-! ## Results of extraction: what they are and where they come from -/

namespace gpopt
namespace CBinding

/-- The group-reference graph of the memo is acyclic: `rank` decreases from a
group to every child group of its group expressions. -/
def Acyclic (memo : CMemo) (rank : Nat → Nat) : Prop :=
  ∀ g gexpr, gexpr ∈ (memo g).m_listGExprs → ∀ c ∈ gexpr.m_pdrgpgroup, rank c < rank g

/-- The expression `e` matches the pattern `P` in the group `pgroup`: its root
is a group expression of `pgroup` that passes the shallow match against the
root of `P` and whose operator it carries; for a leaf pattern it has no
children, and otherwise it has one child per child group, the child at
position `ul` matching the expanded pattern `PexprExpandPattern(P, ul, arity)`
in the child group at position `ul`. -/
inductive IsBinding (FMatchPattern : CExpression → CGroupExpression → Bool) (memo : CMemo) :
    Nat → CExpression → CExpression → Prop
  | leaf (pgroup : Nat) (P : CExpression) (q : PGroupExpression) (gexpr : CGroupExpression) :
      q.Pgroup = pgroup → memo.deref q = some gexpr → FMatchPattern P gexpr = true →
      P.FLeafPattern = true →
      IsBinding FMatchPattern memo pgroup P (.mk gexpr.Pop (some q) [])
  | node (pgroup : Nat) (P : CExpression) (q : PGroupExpression) (gexpr : CGroupExpression)
      (cs : List CExpression) :
      q.Pgroup = pgroup → memo.deref q = some gexpr → FMatchPattern P gexpr = true →
      P.FLeafPattern = false → P.Arity ≤ gexpr.Arity → cs.length = gexpr.Arity →
      (∀ ul, ul < gexpr.Arity → ∃ P', PexprExpandPattern P ul gexpr.Arity = .ok P') →
      (∀ (ul : Nat) (c : CExpression) (cg : Nat) (P' : CExpression), cs[ul]? = some c →
        gexpr.m_pdrgpgroup[ul]? = some cg → PexprExpandPattern P ul gexpr.Arity = .ok P' →
        IsBinding FMatchPattern memo cg P' c) →
      IsBinding FMatchPattern memo pgroup P (.mk gexpr.Pop (some q) cs)

/-- The results of repeated extraction from a group: `e` is returned by the
group-level `PexprExtract` called with no previous result, or with a previous
result that is itself a result of repeated extraction from the same group with
the same pattern. -/
inductive Extracted (FMatchPattern : CExpression → CGroupExpression → Bool) (memo : CMemo)
    (fuel : Nat) : Nat → CExpression → CExpression → Prop
  | first (pgroup : Nat) (P e : CExpression) :
      PexprExtractGroup FMatchPattern memo fuel pgroup P none = .ok (some e) →
      Extracted FMatchPattern memo fuel pgroup P e
  | next (pgroup : Nat) (P last e : CExpression) :
      Extracted FMatchPattern memo fuel pgroup P last →
      PexprExtractGroup FMatchPattern memo fuel pgroup P (some last) = .ok (some e) →
      Extracted FMatchPattern memo fuel pgroup P e

/-- The results of repeated extraction at a group expression: `e` is returned
by `PexprExtract` on the group expression called with no previous result, or
with a previous result that is itself a result of repeated extraction at the
same group expression with the same pattern. -/
inductive ExtractedRoot (FMatchPattern : CExpression → CGroupExpression → Bool) (memo : CMemo)
    (fuel : Nat) : PGroupExpression → CExpression → CExpression → Prop
  | first (pgexpr : PGroupExpression) (P e : CExpression) :
      PexprExtract FMatchPattern memo fuel pgexpr P none = .ok (some e) →
      ExtractedRoot FMatchPattern memo fuel pgexpr P e
  | next (pgexpr : PGroupExpression) (P last e : CExpression) :
      ExtractedRoot FMatchPattern memo fuel pgexpr P last →
      PexprExtract FMatchPattern memo fuel pgexpr P (some last) = .ok (some e) →
      ExtractedRoot FMatchPattern memo fuel pgexpr P e

/-- The expression `e` is a binding rooted at the group expression `pgexpr`:
its root is `pgexpr`, it carries the operator of `pgexpr`, `pgexpr` passes the
shallow match against the root of `P`, and, unless `P` is a leaf pattern, it
has exactly one child per child group of `pgexpr`, the child at position `ul`
being related by `G` to the child group at position `ul` and to the expanded
pattern `PexprExpandPattern(P, ul, arity)`. -/
def BoundAt (FMatchPattern : CExpression → CGroupExpression → Bool) (memo : CMemo)
    (G : Nat → CExpression → CExpression → Prop) (pgexpr : PGroupExpression)
    (P e : CExpression) : Prop :=
  ∃ gexpr, memo.deref pgexpr = some gexpr ∧ FMatchPattern P gexpr = true ∧
    e.Pgexpr = some pgexpr ∧ e.Pop = gexpr.Pop ∧
    (P.FLeafPattern = true → e.m_pdrgpexpr = []) ∧
    (P.FLeafPattern = false → P.Arity ≤ gexpr.Arity ∧ e.Arity = gexpr.Arity ∧
      ∀ (ul : Nat) (c : CExpression) (cg : Nat), e.m_pdrgpexpr[ul]? = some c →
        gexpr.m_pdrgpgroup[ul]? = some cg →
        ∃ P', PexprExpandPattern P ul gexpr.Arity = .ok P' ∧ G cg P' c)

/-- The group-level `PexprExtract` as `FAdvanceChildCursors` of a debug build
calls it.  In the loop the assertion `GPOS_ASSERT(pgroup ==
pexprLastChild->Pgexpr()->Pgroup())` stands immediately before the one call
with a previous child, so it is checked when the cursor is entered with a
previous result; the calls that reset or initialize a cursor pass the null
pointer and have no assertion. -/
def assertChildGroup (extract : GroupCursor) : GroupCursor :=
  fun pgroup pexprPatternChild pexprLastChild =>
    match pexprLastChild with
    | none => extract pgroup pexprPatternChild none
    | some lastChild =>
      match lastChild.Pgexpr with
      | none => .error .undefined
      | some p =>
        if p.Pgroup = pgroup then extract pgroup pexprPatternChild (some lastChild)
        else .error .assertion

/-- The function `PexprExtract(mp, pgexpr, pexprPattern, pexprLast)` of a
debug build: after the shallow match, `GPOS_ASSERT_IMP(nullptr != pexprLast,
pexprLast->Pgexpr() == pgexpr)` is checked, and the children are extracted
with the assertion of `FAdvanceChildCursors` in place. -/
def PexprExtractRootDebug (FMatchPattern : CExpression → CGroupExpression → Bool)
    (memo : CMemo) (extract : GroupCursor) (pgexpr : PGroupExpression)
    (pexprPattern : CExpression) (pexprLast : Option CExpression) :
    Except Err (Option CExpression) :=
  match memo.deref pgexpr with
  | none => .error .undefined
  | some gexpr =>
    if !FMatchPattern pexprPattern gexpr then
      .ok none
    else
      match pexprLast with
      | none =>
        PexprExtractRoot FMatchPattern memo (assertChildGroup extract) pgexpr pexprPattern none
      | some last =>
        if last.Pgexpr = some pgexpr then
          PexprExtractRoot FMatchPattern memo (assertChildGroup extract) pgexpr pexprPattern
            (some last)
        else
          .error .assertion

/-- One round of the loop of the group-level `PexprExtract` of a debug
build. -/
def PexprExtractGroup.stepDebug (FMatchPattern : CExpression → CGroupExpression → Bool)
    (memo : CMemo) (extract : GroupCursor) (pexprPattern : CExpression)
    (pgexpr : PGroupExpression) (pexprStart : Option CExpression) :
    Except Err (Option CExpression) :=
  match memo.deref pgexpr with
  | none => .error .undefined
  | some gexpr =>
    if FMatchPattern pexprPattern gexpr then
      PexprExtractRootDebug FMatchPattern memo extract pgexpr pexprPattern pexprStart
    else
      .ok none

/-- The function `PexprExtract(mp, pgroup, pexprPattern, pexprLast)` of a
debug build. -/
def PexprExtractGroupDebug (FMatchPattern : CExpression → CGroupExpression → Bool)
    (memo : CMemo) : Nat → GroupCursor
  | 0, _, _, _ => .error .outOfFuel
  | fuel + 1, pgroup, pexprPattern, pexprLast =>
    let pgexpr : Option PGroupExpression :=
      match pexprLast with
      | some last => last.Pgexpr
      | none => PgexprNext memo pgroup none
    if pexprPattern.FLeafPattern then
      if pexprLast.isSome then
        .ok none
      else
        match pgexpr with
        | none => .error .undefined
        | some p =>
          PexprExtractRootDebug FMatchPattern memo (PexprExtractGroupDebug FMatchPattern memo fuel)
            p pexprPattern pexprLast
    else
      match pgexpr with
      | none => .error .undefined
      | some p =>
        PexprExtractGroup.loop
          (PexprExtractGroup.stepDebug FMatchPattern memo
            (PexprExtractGroupDebug FMatchPattern memo fuel) pexprPattern)
          p pexprLast (cursorAfter memo pgroup (some p))

/-- The public entry point `CBinding::PexprExtract(mp, pgexpr, pexprPattern,
pexprLast)` of a debug build. -/
def PexprExtractDebug (FMatchPattern : CExpression → CGroupExpression → Bool) (memo : CMemo)
    (fuel : Nat) (pgexpr : PGroupExpression) (pexprPattern : CExpression)
    (pexprLast : Option CExpression) : Except Err (Option CExpression) :=
  PexprExtractRootDebug FMatchPattern memo (PexprExtractGroupDebug FMatchPattern memo fuel)
    pgexpr pexprPattern pexprLast

/-- The pattern whose root is the scalar operator `n`, without children. -/
def patScalar (n : Nat) : CExpression := .mk (opScalar n) none []

end CBinding
end gpopt

/-! ## Interval timers of a backend (`cdbtimer.c`) -/

namespace cdbtimer

/-- A time value, `struct timeval`. -/
structure timeval where
  tv_sec : Int
  tv_usec : Int
  deriving DecidableEq, Repr

/-- An interval timer value, `struct itimerval`. -/
structure itimerval where
  it_interval : timeval
  it_value : timeval
  deriving DecidableEq, Repr

/-- The struct `itimers` of `cdb/cdbtimer.h`; the header is absent from the
sources at hand, the fields are the three that `cdbtimer.c` uses. -/
structure itimers where
  rtimer : itimerval
  vtimer : itimerval
  ptimer : itimerval
  deriving DecidableEq, Repr

/-- The three interval timers of a process. -/
inductive Which
  | ITIMER_REAL
  | ITIMER_VIRTUAL
  | ITIMER_PROF
  deriving DecidableEq, Repr

/-- A signal mask: the two masks `BlockSig` and `UnBlockSig` that the code
installs, or any other mask. -/
inductive SigMask
  | BlockSig
  | UnBlockSig
  | other (n : Nat)
  deriving DecidableEq, Repr

/-- The state of the process that `cdbtimer.c` acts on: the current value of
each interval timer and the signal mask. -/
structure Process where
  real : itimerval
  virt : itimerval
  prof : itimerval
  sigmask : SigMask
  deriving DecidableEq, Repr

/-- The macro `timerisset(tvp)`. -/
def timerisset (tvp : timeval) : Bool :=
  tvp.tv_sec != 0 || tvp.tv_usec != 0

/-- The value that `timerclear(tvp)` stores. -/
def timerclear : timeval := ⟨0, 0⟩

/-- The system call `setitimer(which, new_value, old_value)`: the timer
`which` takes the new value; the result holds the new process state and the
previous value of the timer, which the caller stores through `old_value` when
that pointer is not null.  No time passes in the embedding. -/
def setitimer (p : Process) (which : Which) (new_value : itimerval) : Process × itimerval :=
  match which with
  | .ITIMER_REAL => ({ p with real := new_value }, p.real)
  | .ITIMER_VIRTUAL => ({ p with virt := new_value }, p.virt)
  | .ITIMER_PROF => ({ p with prof := new_value }, p.prof)

/-- The macro `PG_SETMASK(mask)`: install a signal mask. -/
def PG_SETMASK (p : Process) (mask : SigMask) : Process :=
  { p with sigmask := mask }

/-- Disable process interval timers, `resetTimers(otimers)`; `otimers` is
`none` for the null pointer, and the second component of the result is the
struct behind `otimers` after the call.  The third call of `setitimer` names
`ITIMER_REAL`, as in the source. -/
def resetTimers (p : Process) (otimers : Option itimers) : Process × Option itimers :=
  let p₀ := PG_SETMASK p .BlockSig
  let xtimer : itimerval := ⟨timerclear, timerclear⟩
  let r₁ := setitimer p₀ .ITIMER_REAL xtimer
  let o₁ := otimers.map fun o => { o with rtimer := r₁.2 }
  let r₂ := setitimer r₁.1 .ITIMER_VIRTUAL xtimer
  let o₂ := o₁.map fun o => { o with vtimer := r₂.2 }
  let r₃ := setitimer r₂.1 .ITIMER_REAL xtimer
  let o₃ := o₂.map fun o => { o with ptimer := r₃.2 }
  (PG_SETMASK r₃.1 .UnBlockSig, o₃)

/-- The outcome of `elog(FATAL, ...)`: the process ends. -/
inductive Failure
  | FATAL
  deriving DecidableEq, Repr

/-- Restore timers from an `itimers` struct, `restoreTimers(timers)`. -/
def restoreTimers (p : Process) (timers : Option itimers) : Except Failure Process :=
  match timers with
  | none => .error .FATAL
  | some t =>
    let p₁ :=
      if timerisset t.rtimer.it_interval || timerisset t.rtimer.it_value then
        (setitimer p .ITIMER_REAL t.rtimer).1
      else p
    let p₂ :=
      if timerisset t.vtimer.it_interval || timerisset t.vtimer.it_value then
        (setitimer p₁ .ITIMER_VIRTUAL t.vtimer).1
      else p₁
    let p₃ :=
      if timerisset t.ptimer.it_interval || timerisset t.ptimer.it_value then
        (setitimer p₂ .ITIMER_PROF t.ptimer).1
      else p₂
    .ok p₃

/-- A process whose three timers are all armed, with different values. -/
def exampleProcess : Process :=
  { real := ⟨⟨1, 0⟩, ⟨1, 0⟩⟩
    virt := ⟨⟨0, 0⟩, ⟨2, 500⟩⟩
    prof := ⟨⟨0, 0⟩, ⟨5, 0⟩⟩
    sigmask := .UnBlockSig }

/-- An `itimers` struct before it is filled in. -/
def exampleItimers : itimers :=
  ⟨⟨⟨9, 9⟩, ⟨9, 9⟩⟩, ⟨⟨9, 9⟩, ⟨9, 9⟩⟩, ⟨⟨9, 9⟩, ⟨9, 9⟩⟩⟩

end cdbtimer

/-! ## Transport states of the interconnect (`ic_common.c`) -/

namespace ic_common

/-- The state of a connection, `MotionConnState`.  The enumeration is declared
in a header that is not among the sources at hand; `mcsNull` is the one member
that the functions embedded here name. -/
inductive MotionConnState
  | mcsNull
  | other (n : Nat)
  deriving DecidableEq, Repr

/-- An `ExecSlice`, of which the code reads `sliceIndex`. -/
structure ExecSlice where
  sliceIndex : Int
  deriving DecidableEq, Repr

/-- A connection `MotionConn`, with the fields that `createChunkTransportState`
and `SendTupleChunkToAMS` touch.  Pointers are `Option`, `none` for `NULL`. -/
structure MotionConn where
  state : MotionConnState
  sockfd : Int
  msgSize : Int
  tupleCount : Int
  stillActive : Bool
  stopRequested : Bool
  wakeup_ms : Int
  cdbProc : Option Nat
  sent_record_typmod : Int
  remapper : Option Nat
  deriving DecidableEq, Repr

/-- A `ChunkTransportStateEntry`.  The array behind `conns` is a list, and the
descriptor set `readSet` is the list of its members. -/
structure ChunkTransportStateEntry where
  valid : Bool
  motNodeId : Int
  numConns : Int
  scanStart : Int
  sendSlice : Option ExecSlice
  recvSlice : Option ExecSlice
  conns : List MotionConn
  readSet : List Nat
  deriving DecidableEq, Repr

/-- The table `ChunkTransportState`: the array `states` is a list, and `size`
is the number of its entries. -/
structure ChunkTransportState where
  activated : Bool
  teardownActive : Bool
  size : Int
  states : List ChunkTransportStateEntry
  deriving DecidableEq, Repr

/-- The ways in which the functions embedded here end without a result:
`ereport(ERROR, errcode(ERRCODE_GP_INTERCONNECTION_ERROR) ...)`,
`elog(FATAL, ...)`, the two errors of the allocator (a request above
`MaxAllocSize`, and memory exhausted), an error raised by a function that is
not in this file, and behaviour that C leaves undefined (a failed `Assert`, an
access outside an array). -/
inductive Err
  | ERRCODE_GP_INTERCONNECTION_ERROR
  | FATAL
  | invalidAllocSize
  | outOfMemory
  | external (n : Nat)
  | undefined
  deriving DecidableEq, Repr

/-- The allocator that `createChunkTransportState` calls and the sizes that it
multiplies with, none of which is in `ic_common.c`:
`sizeof(ChunkTransportStateEntry)`, `sizeof(MotionConn)`, the constant
`MaxAllocSize`, and whether the memory for a request of so many bytes is at
hand. -/
structure Allocator where
  sizeofEntry : Nat
  sizeofConn : Nat
  MaxAllocSize : Nat
  available : Nat → Bool

/-- The number of bytes `count * sizeof(...)` of an array: the `int` count is
converted to `Size`, which is unsigned and 64 bits wide, and the product wraps
around. -/
def arraySize (count : Int) (size : Nat) : Nat :=
  ((count * (size : Int)) % 18446744073709551616).toNat

/-- A request of `size` bytes to `palloc0` or `repalloc`.  The allocator
raises ERROR for a size above `MaxAllocSize` (`invalid memory alloc request
size`) and when the memory is not at hand (`out of memory`). -/
def Allocator.request (alloc : Allocator) (size : Nat) : Except Err Unit :=
  if size > alloc.MaxAllocSize then .error .invalidAllocSize
  else if alloc.available size then .ok ()
  else .error .outOfMemory

/-- An entry of the table after `MemSet(..., 0, ...)`. -/
def ChunkTransportStateEntry.zero : ChunkTransportStateEntry :=
  { valid := false, motNodeId := 0, numConns := 0, scanStart := 0
    sendSlice := none, recvSlice := none, conns := [], readSet := [] }

/-- A connection of an array that `palloc0` returns. -/
def MotionConn.zero : MotionConn :=
  { state := .mcsNull, sockfd := 0, msgSize := 0, tupleCount := 0
    stillActive := false, stopRequested := false, wakeup_ms := 0
    cdbProc := none, sent_record_typmod := 0, remapper := none }

/-- The body of the loop of `createChunkTransportState`: initialize one
`MotionConn` entry. -/
def createChunkTransportState.init (conn : MotionConn) : MotionConn :=
  { conn with
    state := .mcsNull
    sockfd := -1
    msgSize := 0
    tupleCount := 0
    stillActive := false
    stopRequested := false
    wakeup_ms := 0
    cdbProc := none
    sent_record_typmod := 0
    remapper := none }

/-- The loop `for (i = 0; i < pEntry->numConns; i++)` of
`createChunkTransportState`; the first argument counts the iterations that
are left, the second is `i`. -/
def createChunkTransportState.loop : Nat → Nat → List MotionConn → List MotionConn
  | 0, _, conns => conns
  | n + 1, i, conns =>
    match conns[i]? with
    | some conn =>
      createChunkTransportState.loop n (i + 1) (conns.set i (createChunkTransportState.init conn))
    | none => createChunkTransportState.loop n (i + 1) conns

/-- The statement `if (motNodeID > transportStates->size) ...` of
`createChunkTransportState`: increase the size of the table.  `repalloc` keeps
the old entries, and the new piece at the end is zeroed; when `repalloc`
raises an error the table has not been touched. -/
def createChunkTransportState.grow (alloc : Allocator) (transportStates : ChunkTransportState)
    (motNodeID : Int) : Except Err ChunkTransportState :=
  if motNodeID > transportStates.size then
    match alloc.request (arraySize motNodeID alloc.sizeofEntry) with
    | .error e => .error e
    | .ok _ =>
      .ok { transportStates with
            states := transportStates.states ++
              List.replicate (motNodeID - transportStates.size).toNat
                ChunkTransportStateEntry.zero
            size := motNodeID }
  else .ok transportStates

/-- Register the entry of a motion node, `createChunkTransportState`.  The
result is the table after the call, and either the index of the entry that
the returned pointer addresses or the error that the call raises: the table
is an object of the caller, and what the function has written to it before an
error stays written.  The entry is marked valid and its fields are set before
`palloc0` is called for the connections, so that an error of `palloc0` leaves
an entry that is valid and has the connections it had.  The list `conns`
holds the `numConns` connections of the array that `palloc0` returns. -/
def createChunkTransportState (alloc : Allocator) (transportStates : ChunkTransportState)
    (sendSlice recvSlice : ExecSlice) (numConns : Int) :
    ChunkTransportState × Except Err Nat :=
  if ¬ (recvSlice.sliceIndex ≥ 0 ∧ sendSlice.sliceIndex > 0) then
    (transportStates, .error .undefined)
  else
    let motNodeID : Int := sendSlice.sliceIndex
    match createChunkTransportState.grow alloc transportStates motNodeID with
    | .error e => (transportStates, .error e)
    | .ok grown =>
      let idx : Nat := (motNodeID - 1).toNat
      match grown.states[idx]? with
      | none => (grown, .error .undefined)
      | some pEntry =>
        if pEntry.valid then (grown, .error .ERRCODE_GP_INTERCONNECTION_ERROR)
        else
          let pEntry₁ : ChunkTransportStateEntry :=
            { pEntry with
              valid := true
              motNodeId := motNodeID
              numConns := numConns
              scanStart := 0
              sendSlice := some sendSlice
              recvSlice := some recvSlice }
          match alloc.request (arraySize pEntry₁.numConns alloc.sizeofConn) with
          | .error e => ({ grown with states := grown.states.set idx pEntry₁ }, .error e)
          | .ok _ =>
            let pEntry₂ : ChunkTransportStateEntry :=
              { pEntry₁ with conns := List.replicate pEntry₁.numConns.toNat MotionConn.zero }
            let pEntry₃ : ChunkTransportStateEntry :=
              { pEntry₂ with
                conns := createChunkTransportState.loop pEntry₂.numConns.toNat 0 pEntry₂.conns }
            ({ grown with states := grown.states.set idx pEntry₃ }, .ok idx)

/-- The functions and constants that `SendTupleChunkToAMS` uses and that are
not in `ic_common.c`: the macros `ML_CHECK_FOR_INTERRUPTS` and
`getChunkTransportState` (the latter yields the index of the entry it stores
in `pEntry`), the function behind the pointer `transportStates->SendChunk`,
the function `doBroadcast` (which also updates `recount`), and the constant
`BROADCAST_SEGIDX`.  Entries and connections are addressed by their index in
the table and in the array `conns`. -/
structure Env (Chunk : Type) where
  ML_CHECK_FOR_INTERRUPTS : Bool → Except Err Unit
  getChunkTransportState : ChunkTransportState → Int → Except Err Nat
  SendChunk : ChunkTransportState → Nat → Nat → Chunk → Int → Except Err ChunkTransportState
  doBroadcast : ChunkTransportState → Nat → Chunk → Int → Except Err (ChunkTransportState × Int)
  BROADCAST_SEGIDX : Int

/-- The connection `pEntry->conns + route` of the entry at index `pEntry`. -/
def connAt (transportStates : ChunkTransportState) (pEntry route : Nat) : Option MotionConn :=
  match transportStates.states[pEntry]? with
  | none => none
  | some entry => entry.conns[route]?

/-- The loop of `SendTupleChunkToAMS` over the chain of chunks; the chain
`tcItem, tcItem->p_next, ...` is a list.  The result is the table and
`recount` after the loop. -/
def SendTupleChunkToAMS.loop {Chunk : Type} (env : Env Chunk) (pEntry : Nat)
    (motNodeID targetRoute : Int) :
    List Chunk → ChunkTransportState → Int → Except Err (ChunkTransportState × Int)
  | [], transportStates, recount => .ok (transportStates, recount)
  | currItem :: p_next, transportStates, recount =>
    if targetRoute = env.BROADCAST_SEGIDX then
      match env.doBroadcast transportStates pEntry currItem recount with
      | .error e => .error e
      | .ok r => SendTupleChunkToAMS.loop env pEntry motNodeID targetRoute p_next r.1 r.2
    else
      match transportStates.states[pEntry]? with
      | none => .error .undefined
      | some entry =>
        if targetRoute < 0 ∨ targetRoute ≥ entry.numConns then .error .FATAL
        else
          match entry.conns[targetRoute.toNat]? with
          | none => .error .undefined
          | some conn =>
            if conn.stillActive then
              match env.SendChunk transportStates pEntry targetRoute.toNat currItem motNodeID with
              | .error e => .error e
              | .ok sent =>
                match connAt sent pEntry targetRoute.toNat with
                | none => .error .undefined
                | some conn₁ =>
                  SendTupleChunkToAMS.loop env pEntry motNodeID targetRoute p_next sent
                    (if !conn₁.stillActive then 1 else recount)
            else
              SendTupleChunkToAMS.loop env pEntry motNodeID targetRoute p_next transportStates
                recount

/-- The last loop of `SendTupleChunkToAMS`, `for (i = 0; i < pEntry->numConns;
i++)` with its `break`; the first argument counts the iterations that are
left, the second is `i`, and the result is `i` after the loop. -/
def SendTupleChunkToAMS.scan (conns : List MotionConn) : Nat → Nat → Except Err Nat
  | 0, i => .ok i
  | n + 1, i =>
    match conns[i]? with
    | none => .error .undefined
    | some conn =>
      if conn.stillActive then .ok i else SendTupleChunkToAMS.scan conns n (i + 1)

/-- Send a chain of chunks, `SendTupleChunkToAMS`; `transportStates` is `none`
for the null pointer.  The result is the table after the call and the
returned flag. -/
def SendTupleChunkToAMS {Chunk : Type} (env : Env Chunk)
    (transportStates : Option ChunkTransportState) (motNodeID targetRoute : Int)
    (tcItem : List Chunk) : Except Err (ChunkTransportState × Bool) :=
  match transportStates with
  | none => .error .FATAL
  | some ts =>
    if !ts.activated then .error .FATAL
    else
      match env.ML_CHECK_FOR_INTERRUPTS ts.teardownActive with
      | .error e => .error e
      | .ok _ =>
        match env.getChunkTransportState ts motNodeID with
        | .error e => .error e
        | .ok pEntry =>
          match SendTupleChunkToAMS.loop env pEntry motNodeID targetRoute tcItem ts 0 with
          | .error e => .error e
          | .ok r =>
            if r.2 = 0 then .ok (r.1, true)
            else
              match r.1.states[pEntry]? with
              | none => .error .undefined
              | some entry =>
                match SendTupleChunkToAMS.scan entry.conns entry.numConns.toNat 0 with
                | .error e => .error e
                | .ok i => .ok (r.1, decide ((i : Int) < entry.numConns))

/-- Whether some connection of the entry at index `pEntry` is still active. -/
def anyStillActive (transportStates : ChunkTransportState) (pEntry : Nat) : Bool :=
  match transportStates.states[pEntry]? with
  | none => false
  | some entry => entry.conns.any fun conn => conn.stillActive

/-- Whether the connection of a route of the entry at index `pEntry` is still
active. -/
def routeStillActive (transportStates : ChunkTransportState) (pEntry route : Nat) : Bool :=
  match connAt transportStates pEntry route with
  | none => false
  | some conn => conn.stillActive

/-- A route is a valid point-to-point route of the entry at index `pEntry`:
the entry exists, its array `conns` has `numConns` connections, and the route
is one of them. -/
def ValidRoute (transportStates : ChunkTransportState) (pEntry : Nat) (targetRoute : Int) :
    Prop :=
  ∃ entry, transportStates.states[pEntry]? = some entry ∧
    entry.numConns = entry.conns.length ∧ 0 ≤ targetRoute ∧ targetRoute < entry.numConns

/-- A table of one valid entry for motion node 1, with the given connections. -/
def exampleTable (conns : List MotionConn) : ChunkTransportState :=
  { activated := true, teardownActive := false, size := 1
    states := [{ valid := true, motNodeId := 1, numConns := conns.length, scanStart := 0
                 sendSlice := some ⟨1⟩, recvSlice := some ⟨0⟩, conns := conns, readSet := [] }] }

/-- A connection that is set up, active or not. -/
def exampleConn (stillActive : Bool) : MotionConn :=
  { state := .other 6, sockfd := 7, msgSize := 0, tupleCount := 0
    stillActive := stillActive, stopRequested := false, wakeup_ms := 0
    cdbProc := some 1, sent_record_typmod := 0, remapper := none }

/-- An environment for the examples: no interrupt is pending, motion node
`id` has the entry at index `id - 1`, sending a chunk marks the connection
as no longer active (the peer asked to stop), and `-1` is the broadcast
route. -/
def exampleEnv : Env Nat :=
  { ML_CHECK_FOR_INTERRUPTS := fun _ => .ok ()
    getChunkTransportState := fun _ motNodeID => .ok (motNodeID - 1).toNat
    SendChunk := fun ts pEntry route _ _ =>
      match ts.states[pEntry]? with
      | none => .ok ts
      | some entry =>
        match entry.conns[route]? with
        | none => .ok ts
        | some conn =>
          .ok { ts with
                states := ts.states.set pEntry
                  { entry with conns := entry.conns.set route { conn with stillActive := false } } }
    doBroadcast := fun ts _ _ recount => .ok (ts, recount)
    BROADCAST_SEGIDX := -1 }

end ic_common

/-!
# Theorems

Everything above is the embedding; the lemmas and the theorems of the claims
follow.
-/

namespace gpopt
namespace CBinding

/-! ## Lists: splitting at an element -/

theorem flatMap_eq_append_cons {α β : Type} (f : α → List β) :
    ∀ (X : List α) (A B : List β) (t : β), X.flatMap f = A ++ t :: B →
      ∃ X₁ s X₂ a b, X = X₁ ++ s :: X₂ ∧ f s = a ++ t :: b ∧
        A = X₁.flatMap f ++ a ∧ B = b ++ X₂.flatMap f
  | [], A, B, t, h => by simp at h
  | x :: X, A, B, t, h => by
    rw [List.flatMap_cons, List.append_eq_append_iff] at h
    rcases h with ⟨a', hA, hX⟩ | ⟨c', hx, hc⟩
    · obtain ⟨X₁, s, X₂, a, b, h1, h2, h3, h4⟩ := flatMap_eq_append_cons f X a' B t hX
      exact ⟨x :: X₁, s, X₂, a, b, by simp [h1], h2, by simp [hA, h3], h4⟩
    · cases c' with
      | nil =>
        simp at hx hc
        obtain ⟨X₁, s, X₂, a, b, h1, h2, h3, h4⟩ := flatMap_eq_append_cons f X [] B t hc.symm
        refine ⟨x :: X₁, s, X₂, a, b, by simp [h1], h2, ?_, h4⟩
        rw [List.flatMap_cons, List.append_assoc, ← h3, hx]
        simp
      | cons c c'' =>
        simp at hc
        exact ⟨[], x, X, A, c'', by simp, by simp [hx, hc.1], by simp, hc.2⟩

theorem map_eq_append_cons {α β : Type} (f : α → β) (L : List α) (a b : List β) (t : β)
    (h : L.map f = a ++ t :: b) :
    ∃ a₀ c b₀, L = a₀ ++ c :: b₀ ∧ a = a₀.map f ∧ t = f c ∧ b = b₀.map f := by
  rw [List.map_eq_append_iff] at h
  obtain ⟨l₁, l₂, hL, h1, h2⟩ := h
  rw [List.map_eq_cons_iff] at h2
  obtain ⟨c, b₀, hl₂, hc, hb⟩ := h2
  exact ⟨l₁, c, b₀, by rw [hL, hl₂], h1.symm, hc.symm, hb.symm⟩

theorem child_append (pexpr : CExpression) (pre : List CExpression) (c : CExpression)
    (s : List CExpression) (h : pexpr.m_pdrgpexpr = pre ++ c :: s) :
    pexpr.child pre.length = .ok c := by
  have h1 : (pre ++ c :: s).get? pre.length = some c := by
    rw [List.get?_eq_getElem?, List.getElem?_append_right (Nat.le_refl _)]
    simp
  simp only [CExpression.child, h, h1]

/-! ## Repeated extraction over a cursor -/

theorem enumerate_suffix (next : Option CExpression → Except Err (Option CExpression))
    (L : List CExpression)
    (h : ∀ l₁ e l₂, L = l₁ ++ e :: l₂ → next (some e) = .ok l₂.head?) :
    ∀ (l₂ l₁ : List CExpression) (e : CExpression) (n : Nat),
      L = l₁ ++ e :: l₂ → l₂.length < n → enumerate next n (some e) = .ok l₂
  | _, _, _, 0, _, hn => absurd hn (Nat.not_lt_zero _)
  | [], l₁, e, n + 1, hL, _ => by
    have h1 := h l₁ e [] hL
    simp [enumerate, h1]
  | e' :: l₂, l₁, e, n + 1, hL, hn => by
    have h1 := h l₁ e (e' :: l₂) hL
    have h2 := enumerate_suffix next L h l₂ (l₁ ++ [e]) e' n (by simp [hL])
      (by simpa using hn)
    simp [enumerate, h1, h2]

theorem enumerate_of_isCursorOf (next : Option CExpression → Except Err (Option CExpression))
    (L : List CExpression) (h : IsCursorOf next L) (n : Nat) (hn : L.length < n) :
    enumerate next n none = .ok L := by
  cases n with
  | zero => exact absurd hn (Nat.not_lt_zero _)
  | succ n =>
    cases L with
    | nil => simp [enumerate, h.1]
    | cons e l =>
      have h2 := enumerate_suffix next (e :: l) h.2 l [] e n (by simp) (by simpa using hn)
      simp [enumerate, h.1, h2]

end CBinding
end gpopt

namespace gpopt
namespace CBinding

/-! ## The child cursors -/

theorem childCursors_length (extract : GroupCursor) (P : CExpression) (arity : Nat) :
    ∀ (gs : List Nat) (Ls : List (List CExpression)) (ul : Nat),
      ChildCursors extract P arity ul gs Ls → gs.length = Ls.length
  | [], [], _, _ => rfl
  | [], _ :: _, _, h => by simp [ChildCursors] at h
  | _ :: _, [], _, h => by simp [ChildCursors] at h
  | _ :: gs, _ :: Ls, ul, h => by
    simp only [ChildCursors] at h
    simp [childCursors_length extract P arity gs Ls (ul + 1) h.2]

theorem init_loop (extract : GroupCursor) (P : CExpression) (arity : Nat) :
    ∀ (gs : List Nat) (Ls : List (List CExpression)) (ul : Nat) (acc : List CExpression),
      ChildCursors extract P arity ul gs Ls →
      ∃ b t, FInitChildCursors.loop extract P arity gs ul acc = .ok (b, acc ++ t) ∧
        (b = true → Ls.sections.head? = some t) ∧ (b = false → Ls.sections = [])
  | [], [], ul, acc, _ =>
    ⟨true, [], by simp [FInitChildCursors.loop], by simp [List.sections], by simp⟩
  | [], _ :: _, _, _, h => by simp [ChildCursors] at h
  | _ :: _, [], _, _, h => by simp [ChildCursors] at h
  | g :: gs, L :: Ls, ul, acc, h => by
    simp only [ChildCursors] at h
    obtain ⟨⟨P', hexp, hcur⟩, hrest⟩ := h
    cases L with
    | nil =>
      refine ⟨false, [], ?_, by simp, fun _ => by simp [List.sections]⟩
      have h0 := hcur.1
      simp only [List.head?_nil] at h0
      simp [FInitChildCursors.loop, hexp, h0]
    | cons c L' =>
      obtain ⟨b, t, h1, h2, h3⟩ := init_loop extract P arity gs Ls (ul + 1) (acc ++ [c]) hrest
      refine ⟨b, c :: t, ?_, ?_, ?_⟩
      · have h0 := hcur.1
        simp only [List.head?_cons] at h0
        simp [FInitChildCursors.loop, hexp, h0, h1]
      · intro hb
        have h4 := h2 hb
        cases hs : Ls.sections with
        | nil => simp [hs] at h4
        | cons t' X =>
          simp [hs] at h4
          subst h4
          simp [List.sections, hs]
      · intro hb
        simp [List.sections, h3 hb]

theorem advance_loop_reuse (extract : GroupCursor) (P last : CExpression) (arity : Nat) :
    ∀ (gs : List Nat) (Ls : List (List CExpression)) (ul ex : Nat)
      (acc pre t : List CExpression),
      ChildCursors extract P arity ul gs Ls →
      last.m_pdrgpexpr = pre ++ t → pre.length = ul → t.length = gs.length →
      FAdvanceChildCursors.loop extract P last arity gs ul true ex acc = .ok (ex, acc ++ t)
  | [], _, ul, ex, acc, pre, t, _, _, _, ht => by
    have h0 : t = [] := List.length_eq_zero.mp (by simpa using ht)
    simp [FAdvanceChildCursors.loop, h0]
  | _ :: _, [], _, _, _, _, _, h, _, _, _ => by simp [ChildCursors] at h
  | g :: gs, L :: Ls, ul, ex, acc, pre, t, h, hl, hp, ht => by
    cases t with
    | nil => simp at ht
    | cons c s =>
      simp only [ChildCursors] at h
      obtain ⟨⟨P', hexp, _⟩, hrest⟩ := h
      have hc := child_append last pre c s hl
      rw [hp] at hc
      have ih := advance_loop_reuse extract P last arity gs Ls (ul + 1) ex (acc ++ [c])
        (pre ++ [c]) s hrest (by simp [hl]) (by simp [hp]) (by simpa using ht)
      simp [FAdvanceChildCursors.loop, hexp, hc, ih]

theorem advance_loop_step (extract : GroupCursor) (P last : CExpression) (arity : Nat) :
    ∀ (gs : List Nat) (Ls : List (List CExpression)) (ul ex : Nat)
      (acc pre t : List CExpression) (A B : List (List CExpression)),
      ChildCursors extract P arity ul gs Ls →
      Ls.sections = A ++ t :: B →
      last.m_pdrgpexpr = pre ++ t → pre.length = ul →
      ∃ e t', FAdvanceChildCursors.loop extract P last arity gs ul false ex acc
          = .ok (ex + e, acc ++ t') ∧
        ((B = [] ∧ e = gs.length) ∨ (e < gs.length ∧ B.head? = some t'))
  | [], [], ul, ex, acc, pre, t, A, B, _, hs, _, _ => by
    have h0 : B = [] := by
      cases A with
      | nil => simp [List.sections] at hs; exact hs.2
      | cons a A' => simp [List.sections] at hs
    exact ⟨0, [], by simp [FAdvanceChildCursors.loop], Or.inl ⟨h0, rfl⟩⟩
  | [], _ :: _, _, _, _, _, _, _, _, h, _, _, _ => by simp [ChildCursors] at h
  | _ :: _, [], _, _, _, _, _, _, _, h, _, _, _ => by simp [ChildCursors] at h
  | g :: gs, L :: Ls, ul, ex, acc, pre, t, A, B, h, hs, hl, hp => by
    have hlen := childCursors_length extract P arity (g :: gs) (L :: Ls) ul h
    simp only [ChildCursors] at h
    obtain ⟨⟨P', hexp, hcur⟩, hrest⟩ := h
    simp only [List.sections] at hs
    obtain ⟨X₁, s, X₂, a, b, hX, hf, hA, hB⟩ := flatMap_eq_append_cons _ _ _ _ _ hs
    obtain ⟨a₀, c, b₀, hL, ha, ht, hb⟩ := map_eq_append_cons _ _ _ _ _ hf
    subst ht
    have hc := child_append last pre c s hl
    rw [hp] at hc
    have hnext := hcur.2 a₀ c b₀ hL
    have hslen : s.length = gs.length := by
      have h1 : s ∈ Ls.sections := by simp [hX]
      have h2 := List.mem_sections_length h1
      simp at hlen
      omega
    cases b₀ with
    | cons c' b₀' =>
      have hr := advance_loop_reuse extract P last arity gs Ls (ul + 1) ex (acc ++ [c'])
        (pre ++ [c]) s hrest (by simp [hl]) (by simp [hp]) hslen
      refine ⟨0, c' :: s, ?_, Or.inr ⟨by simp, ?_⟩⟩
      · simp only [List.head?_cons] at hnext
        simp [FAdvanceChildCursors.loop, hexp, hc, hnext, hr]
      · simp [hB, hb]
    | nil =>
      simp only [List.head?_nil] at hnext
      obtain ⟨c₀, L', hL0⟩ : ∃ c₀ L', L = c₀ :: L' := by
        cases a₀ with
        | nil => exact ⟨c, [], by simpa using hL⟩
        | cons x a₀' => exact ⟨x, a₀' ++ [c], by simpa using hL⟩
      have hfirst := hcur.1
      rw [hL0] at hfirst
      simp only [List.head?_cons] at hfirst
      obtain ⟨e', s', h1, h2⟩ := advance_loop_step extract P last arity gs Ls (ul + 1) (ex + 1)
        (acc ++ [c₀]) (pre ++ [c]) s X₁ X₂ hrest hX (by simp [hl]) (by simp [hp])
      refine ⟨e' + 1, c₀ :: s', ?_, ?_⟩
      · simp [FAdvanceChildCursors.loop, hexp, hc, hnext, hfirst, h1]
        omega
      · rcases h2 with ⟨hX2, he⟩ | ⟨he, hX2⟩
        · left
          simp [hB, hb, hX2, he]
        · right
          refine ⟨by simpa using he, ?_⟩
          cases X₂ with
          | nil => simp at hX2
          | cons s'' X₂' =>
            simp at hX2
            subst hX2
            simp [hB, hb, hL0]

end CBinding
end gpopt

namespace gpopt
namespace CBinding

/-! ## Extraction at a fixed root -/

theorem isCursorOf_nil (next : Option CExpression → Except Err (Option CExpression))
    (h : next none = .ok none) : IsCursorOf next [] :=
  ⟨by simpa using h, fun l₁ e l₂ hL => by simp at hL⟩

theorem root_isCursorOf (FMatchPattern : CExpression → CGroupExpression → Bool) (memo : CMemo)
    (extract : GroupCursor) (p : PGroupExpression) (P : CExpression) (gexpr : CGroupExpression)
    (Ls : List (List CExpression))
    (hd : memo.deref p = some gexpr) (hm : FMatchPattern P gexpr = true)
    (hleaf : P.FLeafPattern = false) (har : ¬ gexpr.Arity < P.Arity)
    (hc : ChildCursors extract P gexpr.Arity 0 gexpr.m_pdrgpgroup Ls) :
    IsCursorOf (PexprExtractRoot FMatchPattern memo extract p P)
      ((if (memo p.Pgroup).FScalar then Ls.sections.take 1 else Ls.sections).map
        (PexprFinalize p gexpr)) := by
  have hlen := childCursors_length extract P gexpr.Arity gexpr.m_pdrgpgroup Ls 0 hc
  have hhead : ((if (memo p.Pgroup).FScalar then Ls.sections.take 1 else Ls.sections).map
      (PexprFinalize p gexpr)).head? = Ls.sections.head?.map (PexprFinalize p gexpr) := by
    split
    · cases Ls.sections <;> simp
    · simp
  constructor
  · rw [hhead]
    by_cases h0 : gexpr.Arity = 0
    · have hLs : Ls = [] := by
        apply List.length_eq_zero.mp
        rw [← hlen]
        exact h0
      have hP0 : P.Arity = 0 := by omega
      simp [PexprExtractRoot, hd, hm, hleaf, FExtractChildren, h0, hP0, hLs, List.sections,
        PexprFinalize]
    · obtain ⟨b, t, h1, h2, h3⟩ := init_loop extract P gexpr.Arity gexpr.m_pdrgpgroup Ls 0 [] hc
      cases b with
      | true =>
        simp [PexprExtractRoot, hd, hm, hleaf, FExtractChildren, har, h0, FAdvanceChildCursors,
          FInitChildCursors, h1, h2 rfl]
      | false =>
        simp [PexprExtractRoot, hd, hm, hleaf, FExtractChildren, har, h0, FAdvanceChildCursors,
          FInitChildCursors, h1, h3 rfl]
  · intro l₁ e l₂ hL
    by_cases hs : (memo p.Pgroup).FScalar = true
    · have hl₂ : l₂ = [] := by
        have h1 := congrArg List.length hL
        simp [hs] at h1
        have h2 : l₂.length = 0 := by omega
        exact List.length_eq_zero.mp h2
      simp [PexprExtractRoot, hd, hm, hleaf, hs, hl₂]
    · have hs' : (memo p.Pgroup).FScalar = false := by simpa using hs
      rw [hs', if_neg Bool.false_ne_true] at hL
      obtain ⟨a₀, t, b₀, hsec, _, ht, hb⟩ := map_eq_append_cons _ _ _ _ _ hL
      by_cases h0 : gexpr.Arity = 0
      · have hLs : Ls = [] := by
          apply List.length_eq_zero.mp
          rw [← hlen]
          exact h0
        have hb0 : b₀ = [] := by
          rw [hLs] at hsec
          cases a₀ with
          | nil => simp [List.sections] at hsec; exact hsec.2
          | cons a A' => simp [List.sections] at hsec
        simp [PexprExtractRoot, hd, hm, hleaf, hs, h0, hb, hb0]
      · obtain ⟨n, t', h1, h2⟩ := advance_loop_step extract P e gexpr.Arity gexpr.m_pdrgpgroup Ls
          0 0 [] [] t a₀ b₀ hc hsec (by simp [ht, PexprFinalize, CExpression.m_pdrgpexpr]) rfl
        rcases h2 with ⟨hB, hn⟩ | ⟨hn, hB⟩
        · have hn' : ¬ n < gexpr.Arity := by
            simp [CGroupExpression.Arity, hn]
          simp [PexprExtractRoot, hd, hm, hleaf, hs, h0, FExtractChildren, har,
            FAdvanceChildCursors, h1, hn', hb, hB]
        · have hn' : n < gexpr.Arity := by
            simpa [CGroupExpression.Arity] using hn
          simp [PexprExtractRoot, hd, hm, hleaf, hs, h0, FExtractChildren, har,
            FAdvanceChildCursors, h1, hn', hb, hB]

theorem childCursors_of_childBindings (extract : GroupCursor)
    (bind : Nat → CExpression → Except Err (List CExpression))
    (hbind : ∀ g P' L', bind g P' = .ok L' → IsCursorOf (extract g P') L')
    (P : CExpression) (arity : Nat) :
    ∀ (gs : List Nat) (ul : Nat) (Ls : List (List CExpression)),
      childBindings bind P arity gs ul = .ok Ls → ChildCursors extract P arity ul gs Ls
  | [], ul, Ls, h => by
    simp [childBindings] at h
    subst h
    simp [ChildCursors]
  | g :: gs, ul, Ls, h => by
    simp only [childBindings] at h
    cases hexp : PexprExpandPattern P ul arity with
    | error e => simp [hexp] at h
    | ok P' =>
      cases hb : bind g P' with
      | error e => simp [hexp, hb] at h
      | ok L =>
        cases hr : childBindings bind P arity gs (ul + 1) with
        | error e => simp [hexp, hb, hr] at h
        | ok Ls' =>
          simp [hexp, hb, hr] at h
          subst h
          simp only [ChildCursors]
          exact ⟨⟨P', hexp, hbind g P' L hb⟩,
            childCursors_of_childBindings extract bind hbind P arity gs (ul + 1) Ls' hr⟩

theorem step_isCursorOf (FMatchPattern : CExpression → CGroupExpression → Bool) (memo : CMemo)
    (extract : GroupCursor) (bind : Nat → CExpression → Except Err (List CExpression))
    (hbind : ∀ g P' L', bind g P' = .ok L' → IsCursorOf (extract g P') L')
    (P : CExpression) (hleaf : P.FLeafPattern = false) (p : PGroupExpression)
    (L : List CExpression) (h : bindingsRoot FMatchPattern memo bind p P = .ok L) :
    IsCursorOf (PexprExtractGroup.step FMatchPattern memo extract P p) L ∧
      IsCursorOf (PexprExtractRoot FMatchPattern memo extract p P) L ∧
      ∀ e ∈ L, e.Pgexpr = some p := by
  unfold bindingsRoot at h
  cases hd : memo.deref p with
  | none => simp [hd] at h
  | some gexpr =>
    simp only [hd] at h
    by_cases hm : FMatchPattern P gexpr = true
    · have hstep : PexprExtractGroup.step FMatchPattern memo extract P p
          = PexprExtractRoot FMatchPattern memo extract p P := by
        funext start
        simp [PexprExtractGroup.step, hd, hm]
      rw [hstep]
      by_cases har : gexpr.Arity < P.Arity
      · simp [hm, har] at h
        subst h
        refine ⟨?_, ?_, by simp⟩ <;>
        · apply isCursorOf_nil
          simp [PexprExtractRoot, hd, hm, hleaf, FExtractChildren, har]
      · simp only [hm, har] at h
        cases hcb : childBindings bind P gexpr.Arity gexpr.m_pdrgpgroup 0 with
        | error e => simp [hcb] at h
        | ok Ls =>
          have hc := childCursors_of_childBindings extract bind hbind P gexpr.Arity
            gexpr.m_pdrgpgroup 0 Ls hcb
          have hroot := root_isCursorOf FMatchPattern memo extract p P gexpr Ls hd hm hleaf har hc
          have hL : L = (if (memo p.Pgroup).FScalar then Ls.sections.take 1 else Ls.sections).map
              (PexprFinalize p gexpr) := by
            simp [hcb] at h
            split at h <;> simp_all
          rw [hL]
          refine ⟨hroot, hroot, ?_⟩
          intro e he
          simp only [List.mem_map] at he
          obtain ⟨t, _, rfl⟩ := he
          rfl
    · simp [hm] at h
      subst h
      refine ⟨?_, ?_, by simp⟩
      · apply isCursorOf_nil
        simp [PexprExtractGroup.step, hd, hm]
      · apply isCursorOf_nil
        simp [PexprExtractRoot, hd, hm]

end CBinding
end gpopt

namespace gpopt
namespace CBinding

/-! ## The cursor over the group expressions of a group -/

theorem visited_split (pgroup : Nat) (fAll : Bool) :
    ∀ (l : List CGroupExpression) (i : Nat) (X₁ X₂ : List PGroupExpression)
      (q : PGroupExpression),
      CGroupProxy.visited pgroup fAll i l = X₁ ++ q :: X₂ →
      i ≤ q.idx ∧ X₂ = CGroupProxy.visited pgroup fAll (q.idx + 1) (l.drop (q.idx + 1 - i))
  | [], i, X₁, X₂, q, h => by simp [CGroupProxy.visited] at h
  | gexpr :: rest, i, X₁, X₂, q, h => by
    have key : ∀ Y₁, CGroupProxy.visited pgroup fAll (i + 1) rest = Y₁ ++ q :: X₂ →
        i ≤ q.idx ∧ X₂ = CGroupProxy.visited pgroup fAll (q.idx + 1)
          ((gexpr :: rest).drop (q.idx + 1 - i)) := by
      intro Y₁ hY
      obtain ⟨h1, h2⟩ := visited_split pgroup fAll rest (i + 1) Y₁ X₂ q hY
      refine ⟨by omega, ?_⟩
      have h3 : q.idx + 1 - i = (q.idx + 1 - (i + 1)) + 1 := by omega
      rw [h3, List.drop_succ_cons]
      exact h2
    unfold CGroupProxy.visited at h
    split at h
    · cases X₁ with
      | nil =>
        simp at h
        obtain ⟨h1, h2⟩ := h
        subst h1
        simp [h2]
      | cons x X₁' =>
        simp at h
        exact key X₁' h.2
    · exact key X₁ h

theorem visited_pgroup (pgroup : Nat) (fAll : Bool) :
    ∀ (l : List CGroupExpression) (i : Nat) (q : PGroupExpression),
      q ∈ CGroupProxy.visited pgroup fAll i l → q.Pgroup = pgroup
  | [], i, q, h => by simp [CGroupProxy.visited] at h
  | gexpr :: rest, i, q, h => by
    unfold CGroupProxy.visited at h
    split at h
    · simp at h
      rcases h with h | h
      · simp [h]
      · exact visited_pgroup pgroup fAll rest (i + 1) q h
    · exact visited_pgroup pgroup fAll rest (i + 1) q h

theorem cursorAfter_split (memo : CMemo) (pgroup : Nat) (X₁ X₂ : List PGroupExpression)
    (q : PGroupExpression) (h : cursorAfter memo pgroup none = X₁ ++ q :: X₂) :
    cursorAfter memo pgroup (some q) = X₂ := by
  obtain ⟨_, h2⟩ := visited_split pgroup _ _ 0 X₁ X₂ q h
  have hg : q.Pgroup = pgroup :=
    visited_pgroup pgroup _ _ 0 q (by
      have h3 : q ∈ cursorAfter memo pgroup none := by simp [h]
      exact h3)
  simp only [cursorAfter, hg]
  rw [h2]
  simp

theorem visited_idx (pgroup : Nat) (fAll : Bool) :
    ∀ (l : List CGroupExpression) (i : Nat) (q : PGroupExpression),
      q ∈ CGroupProxy.visited pgroup fAll i l → i ≤ q.idx
  | [], i, q, h => by simp [CGroupProxy.visited] at h
  | gexpr :: rest, i, q, h => by
    unfold CGroupProxy.visited at h
    split at h
    · simp at h
      rcases h with h | h
      · simp [h]
      · have := visited_idx pgroup fAll rest (i + 1) q h
        omega
    · have := visited_idx pgroup fAll rest (i + 1) q h
      omega

theorem visited_nodup (pgroup : Nat) (fAll : Bool) :
    ∀ (l : List CGroupExpression) (i : Nat), (CGroupProxy.visited pgroup fAll i l).Nodup
  | [], i => by simp [CGroupProxy.visited]
  | gexpr :: rest, i => by
    unfold CGroupProxy.visited
    split
    · rw [List.nodup_cons]
      refine ⟨?_, visited_nodup pgroup fAll rest (i + 1)⟩
      intro hmem
      have := visited_idx pgroup fAll rest (i + 1) _ hmem
      simp at this
    · exact visited_nodup pgroup fAll rest (i + 1)

/-! ## Bindings over the group expressions of a group -/

theorem bindingsOver_cons (root : PGroupExpression → Except Err (List CExpression))
    (p : PGroupExpression) (ps : List PGroupExpression) (L : List CExpression)
    (h : bindingsOver root (p :: ps) = .ok L) :
    ∃ Lp L', root p = .ok Lp ∧ bindingsOver root ps = .ok L' ∧ L = Lp ++ L' := by
  simp only [bindingsOver] at h
  cases hp : root p with
  | error e => simp [hp] at h
  | ok Lp =>
    cases hr : bindingsOver root ps with
    | error e => simp [hp, hr] at h
    | ok L' =>
      simp [hp, hr] at h
      exact ⟨Lp, L', rfl, rfl, h.symm⟩

theorem bindingsOver_split (root : PGroupExpression → Except Err (List CExpression)) :
    ∀ (ps : List PGroupExpression) (L : List CExpression), bindingsOver root ps = .ok L →
      ∀ l₁ e l₂, L = l₁ ++ e :: l₂ →
      ∃ X₁ q X₂ a b rest, ps = X₁ ++ q :: X₂ ∧ root q = .ok (a ++ e :: b) ∧
        bindingsOver root X₂ = .ok rest ∧ l₂ = b ++ rest
  | [], L, h, l₁, e, l₂, hL => by
    simp [bindingsOver] at h
    subst h
    simp at hL
  | p :: ps, L, h, l₁, e, l₂, hL => by
    obtain ⟨Lp, L', hp, hr, hLL⟩ := bindingsOver_cons root p ps L h
    rw [hLL, List.append_eq_append_iff] at hL
    have key : ∀ l₁', L' = l₁' ++ e :: l₂ →
        ∃ X₁ q X₂ a b rest, p :: ps = X₁ ++ q :: X₂ ∧ root q = .ok (a ++ e :: b) ∧
          bindingsOver root X₂ = .ok rest ∧ l₂ = b ++ rest := by
      intro l₁' h1
      obtain ⟨X₁, q, X₂, a, b, rest, h2, h3, h4, h5⟩ :=
        bindingsOver_split root ps L' hr l₁' e l₂ h1
      exact ⟨p :: X₁, q, X₂, a, b, rest, by simp [h2], h3, h4, h5⟩
    rcases hL with ⟨a', _, hX⟩ | ⟨c', hx, hc⟩
    · exact key a' hX
    · cases c' with
      | nil =>
        simp at hc
        exact key [] (by simpa using hc.symm)
      | cons c c'' =>
        simp at hc
        obtain ⟨h1, h2⟩ := hc
        subst h1
        exact ⟨[], p, ps, l₁, c'', L', by simp, by rw [hp, hx], hr, h2⟩

theorem loop_head (step : PGroupExpression → Option CExpression → Except Err (Option CExpression))
    (root : PGroupExpression → Except Err (List CExpression))
    (hstep : ∀ q L, root q = .ok L → IsCursorOf (step q) L) :
    ∀ (ps : List PGroupExpression) (p : PGroupExpression) (L : List CExpression),
      bindingsOver root (p :: ps) = .ok L →
      PexprExtractGroup.loop step p none ps = .ok L.head?
  | ps, p, L, h => by
    obtain ⟨Lp, L', hp, hr, hLL⟩ := bindingsOver_cons root p ps L h
    have h1 := (hstep p Lp hp).1
    subst hLL
    cases Lp with
    | cons e Lp' =>
      cases ps <;> simp [PexprExtractGroup.loop, h1]
    | nil =>
      cases ps with
      | nil =>
        simp [bindingsOver] at hr
        subst hr
        simp [PexprExtractGroup.loop, h1]
      | cons q ps' =>
        have ih := loop_head step root hstep ps' q L' hr
        simp [PexprExtractGroup.loop, h1, ih]

theorem loop_next (step : PGroupExpression → Option CExpression → Except Err (Option CExpression))
    (root : PGroupExpression → Except Err (List CExpression))
    (hstep : ∀ q L, root q = .ok L → IsCursorOf (step q) L)
    (q : PGroupExpression) (X₂ : List PGroupExpression) (a b rest : List CExpression)
    (e : CExpression) (hq : root q = .ok (a ++ e :: b)) (hr : bindingsOver root X₂ = .ok rest) :
    PexprExtractGroup.loop step q (some e) X₂ = .ok (b ++ rest).head? := by
  have h1 := (hstep q _ hq).2 a e b rfl
  cases b with
  | cons e' b' =>
    cases X₂ <;> simp [PexprExtractGroup.loop, h1]
  | nil =>
    cases X₂ with
    | nil =>
      simp [bindingsOver] at hr
      subst hr
      simp [PexprExtractGroup.loop, h1]
    | cons q' X₂' =>
      have h2 := loop_head step root hstep X₂' q' rest hr
      simp [PexprExtractGroup.loop, h1, h2]

end CBinding
end gpopt

namespace gpopt
namespace CBinding

/-! ## Extraction from a group is a cursor over the bindings of the group -/

theorem group_isCursorOf (FMatchPattern : CExpression → CGroupExpression → Bool)
    (memo : CMemo) :
    ∀ (fuel pgroup : Nat) (P : CExpression) (L : List CExpression),
      bindingsGroup FMatchPattern memo fuel pgroup P = .ok L →
      IsCursorOf (PexprExtractGroup FMatchPattern memo fuel pgroup P) L
  | 0, g, P, L, h => by simp [bindingsGroup] at h
  | fuel + 1, g, P, L, h => by
    have ih : ∀ g P' L', bindingsGroup FMatchPattern memo fuel g P' = .ok L' →
        IsCursorOf (PexprExtractGroup FMatchPattern memo fuel g P') L' :=
      fun g P' L' => group_isCursorOf FMatchPattern memo fuel g P' L'
    simp only [bindingsGroup] at h
    cases hcur : cursorAfter memo g none with
    | nil => simp [hcur] at h
    | cons p rest =>
      simp only [hcur] at h
      have hnext : PgexprNext memo g none = some p := by simp [PgexprNext, hcur]
      by_cases hleaf : P.FLeafPattern = true
      · simp only [hleaf, if_true] at h
        cases hd : memo.deref p with
        | none => simp [hd] at h
        | some gexpr =>
          simp only [hd] at h
          by_cases hm : FMatchPattern P gexpr = true
          · simp [hm] at h
            subst h
            constructor
            · simp [PexprExtractGroup, hnext, hleaf, PexprExtractRoot, hd, hm]
            · intro l₁ e l₂ hL
              have hl₂ : l₂ = [] := by
                have h1 := congrArg List.length hL
                simp at h1
                exact List.length_eq_zero.mp (by omega)
              simp [PexprExtractGroup, hleaf, hl₂]
          · simp [hm] at h
            subst h
            apply isCursorOf_nil
            simp [PexprExtractGroup, hnext, hleaf, PexprExtractRoot, hd, hm]
      · have hleaf' : P.FLeafPattern = false := by simpa using hleaf
        rw [hleaf', if_neg Bool.false_ne_true] at h
        have hstep : ∀ q L, bindingsRoot FMatchPattern memo
            (bindingsGroup FMatchPattern memo fuel) q P = .ok L →
            IsCursorOf (PexprExtractGroup.step FMatchPattern memo
              (PexprExtractGroup FMatchPattern memo fuel) P q) L :=
          fun q L hq => (step_isCursorOf FMatchPattern memo _ _ ih P hleaf' q L hq).1
        constructor
        · have hrest := cursorAfter_split memo g [] rest p (by simpa using hcur)
          have h1 := loop_head _ _ hstep rest p L h
          simp only [PexprExtractGroup, hnext, hleaf', hrest]
          exact h1
        · intro l₁ e l₂ hL
          obtain ⟨X₁, q, X₂, a, b, rest', h1, h2, h3, h4⟩ :=
            bindingsOver_split _ (p :: rest) L h l₁ e l₂ hL
          have hpg : e.Pgexpr = some q :=
            (step_isCursorOf FMatchPattern memo _ _ ih P hleaf' q _ h2).2.2 e (by simp)
          have hX := cursorAfter_split memo g X₁ X₂ q (by rw [hcur, h1])
          have h5 := loop_next _ _ hstep q X₂ a b rest' e h2 h3
          simp only [PexprExtractGroup, hpg, hleaf', hX, h4]
          exact h5

end CBinding
end gpopt

namespace gpopt
namespace CBinding

/-! ## A cursor never repeats an element -/

theorem isCursorOf_suffix_length (next : Option CExpression → Except Err (Option CExpression))
    (L : List CExpression) (h : IsCursorOf next L) :
    ∀ (l₂' l₁ l₂ l₁' : List CExpression) (e : CExpression),
      L = l₁ ++ e :: l₂ → L = l₁' ++ e :: l₂' → l₂.length = l₂'.length
  | [], l₁, l₂, l₁', e, h1, h2 => by
    have h3 := h.2 l₁ e l₂ h1
    rw [h.2 l₁' e [] h2] at h3
    cases l₂ with
    | nil => rfl
    | cons x l => simp at h3
  | e' :: l₂'', l₁, l₂, l₁', e, h1, h2 => by
    have h3 := h.2 l₁ e l₂ h1
    rw [h.2 l₁' e (e' :: l₂'') h2] at h3
    cases l₂ with
    | nil => simp at h3
    | cons x l =>
      simp at h3
      subst h3
      have ih := isCursorOf_suffix_length next L h l₂'' (l₁ ++ [e]) l (l₁' ++ [e]) e'
        (by simp [h1]) (by simp [h2])
      simp [ih]

theorem isCursorOf_nodup (next : Option CExpression → Except Err (Option CExpression))
    (L : List CExpression) (h : IsCursorOf next L) : L.Nodup := by
  have key : ∀ (S l₀ : List CExpression), L = l₀ ++ S → S.Nodup := by
    intro S
    induction S with
    | nil => intro _ _; exact List.nodup_nil
    | cons a S' ih =>
      intro l₀ hL
      rw [List.nodup_cons]
      refine ⟨?_, ih (l₀ ++ [a]) (by simp [hL])⟩
      intro hmem
      obtain ⟨s₁, s₂, hS⟩ := List.append_of_mem hmem
      have h1 := isCursorOf_suffix_length next L h s₂ l₀ S' (l₀ ++ a :: s₁) a hL
        (by simp [hL, hS])
      rw [hS] at h1
      simp at h1
      omega
  exact key L [] rfl

/-! ## Sections of a list of lists -/

theorem nodup_sections {α : Type} :
    ∀ (Ls : List (List α)), (∀ L ∈ Ls, L.Nodup) → Ls.sections.Nodup
  | [], _ => by simp [List.sections]
  | L :: Ls, h => by
    simp only [List.sections]
    refine List.nodup_flatMap.2
      ⟨fun s _ => (h L (by simp)).map fun a b hab => by injection hab, ?_⟩
    refine (nodup_sections Ls fun L' hL' => h L' (by simp [hL'])).imp ?_
    intro s₁ s₂ hne x h₁ h₂
    rcases List.mem_map.1 h₁ with ⟨b₁, _, rfl⟩
    rcases List.mem_map.1 h₂ with ⟨b₂, _, heq⟩
    injection heq with _ h3
    exact hne h3.symm

theorem length_flatMap_const {α β : Type} (f : α → List β) (n : Nat)
    (h : ∀ s, (f s).length = n) : ∀ X : List α, (X.flatMap f).length = X.length * n
  | [] => by simp
  | x :: X => by
    simp [List.flatMap_cons, h x, length_flatMap_const f n h X, Nat.add_mul, Nat.add_comm]

theorem length_sections {α : Type} :
    ∀ Ls : List (List α), Ls.sections.length = (Ls.map List.length).prod
  | [] => by simp [List.sections]
  | L :: Ls => by
    simp only [List.sections, List.map_cons, List.prod_cons]
    rw [length_flatMap_const _ L.length (fun s => by simp), length_sections Ls, Nat.mul_comm]

theorem childCursors_nodup (extract : GroupCursor) (P : CExpression) (arity : Nat) :
    ∀ (gs : List Nat) (Ls : List (List CExpression)) (ul : Nat),
      ChildCursors extract P arity ul gs Ls → ∀ L ∈ Ls, L.Nodup
  | [], [], _, _ => by simp
  | [], _ :: _, _, h => by simp [ChildCursors] at h
  | _ :: _, [], _, h => by simp [ChildCursors] at h
  | g :: gs, L :: Ls, ul, h => by
    simp only [ChildCursors] at h
    obtain ⟨⟨P', _, hcur⟩, hrest⟩ := h
    intro L' hL'
    simp at hL'
    rcases hL' with rfl | hL'
    · exact isCursorOf_nodup _ _ hcur
    · exact childCursors_nodup extract P arity gs Ls (ul + 1) hrest L' hL'

end CBinding
end gpopt

namespace gpopt
namespace CBinding

/-! ## Advancing past exhausted cursors -/

theorem advance_loop_carry (extract : GroupCursor) (P last : CExpression) (arity : Nat)
    (a b : List CExpression) (c c' : CExpression) (Ls₂ : List (List CExpression))
    (post : List CExpression) (hpost : post.length = Ls₂.length) :
    ∀ (Ls₁ : List (List CExpression)) (lasts firsts : List CExpression) (gs : List Nat)
      (ul ex : Nat) (acc pre : List CExpression),
      ChildCursors extract P arity ul gs (Ls₁ ++ (a ++ c :: c' :: b) :: Ls₂) →
      List.Forall₂ (fun L x => L.getLast? = some x) Ls₁ lasts →
      List.Forall₂ (fun L x => L.head? = some x) Ls₁ firsts →
      last.m_pdrgpexpr = pre ++ (lasts ++ c :: post) → pre.length = ul →
      FAdvanceChildCursors.loop extract P last arity gs ul false ex acc
        = .ok (ex + Ls₁.length, acc ++ (firsts ++ c' :: post))
  | [], lasts, firsts, gs, ul, ex, acc, pre, hc, hl, hf, hlast, hp => by
    cases hl
    cases hf
    cases gs with
    | nil => simp [ChildCursors] at hc
    | cons g gs' =>
      simp only [List.nil_append, ChildCursors] at hc
      obtain ⟨⟨P', hexp, hcur⟩, hrest⟩ := hc
      have hnext := hcur.2 a c (c' :: b) rfl
      simp only [List.head?_cons] at hnext
      simp only [List.nil_append] at hlast
      have hch := child_append last pre c post hlast
      rw [hp] at hch
      have hlen := childCursors_length extract P arity gs' Ls₂ (ul + 1) hrest
      have hr := advance_loop_reuse extract P last arity gs' Ls₂ (ul + 1) ex (acc ++ [c'])
        (pre ++ [c]) post hrest (by simp [hlast]) (by simp [hp]) (by omega)
      simp [FAdvanceChildCursors.loop, hexp, hch, hnext, hr]
  | L :: Ls₁', lasts, firsts, gs, ul, ex, acc, pre, hc, hl, hf, hlast, hp => by
    cases hl with
    | cons hx hl' =>
      cases hf with
      | cons hfx hf' =>
        rename_i x lasts' f firsts'
        cases gs with
        | nil => simp [ChildCursors] at hc
        | cons g gs' =>
          simp only [List.cons_append, ChildCursors] at hc
          obtain ⟨⟨P', hexp, hcur⟩, hrest⟩ := hc
          obtain ⟨ys, hys⟩ := List.getLast?_eq_some_iff.mp hx
          have hnext := hcur.2 ys x [] hys
          simp only [List.head?_nil] at hnext
          have hfirst := hcur.1
          rw [hfx] at hfirst
          simp only [List.cons_append] at hlast
          have hch := child_append last pre x (lasts' ++ c :: post) hlast
          rw [hp] at hch
          have ih := advance_loop_carry extract P last arity a b c c' Ls₂ post hpost Ls₁'
            lasts' firsts' gs' (ul + 1) (ex + 1) (acc ++ [f]) (pre ++ [x]) hrest hl' hf'
            (by simp [hlast]) (by simp [hp])
          simp [FAdvanceChildCursors.loop, hexp, hch, hnext, hfirst, ih]
          omega

/-! ## Leaf patterns -/

theorem leafPattern_group (FMatchPattern : CExpression → CGroupExpression → Bool)
    (memo : CMemo) (fuel pgroup : Nat) (P : CExpression) (p : PGroupExpression)
    (gexpr : CGroupExpression) (hleaf : P.FLeafPattern = true)
    (hnext : PgexprNext memo pgroup none = some p) (hd : memo.deref p = some gexpr)
    (hm : FMatchPattern P gexpr = true) :
    IsCursorOf (PexprExtractGroup FMatchPattern memo (fuel + 1) pgroup P)
      [.mk gexpr.Pop (some p) []] := by
  constructor
  · simp [PexprExtractGroup, hnext, hleaf, PexprExtractRoot, hd, hm]
  · intro l₁ e l₂ hL
    have hl₂ : l₂ = [] := by
      have h1 := congrArg List.length hL
      simp at h1
      exact List.length_eq_zero.mp (by omega)
    simp [PexprExtractGroup, hleaf, hl₂]

/-! ## Scalar groups -/

theorem visited_length (pgroup : Nat) (fAll : Bool) :
    ∀ (l : List CGroupExpression) (i : Nat),
      (CGroupProxy.visited pgroup fAll i l).length ≤ l.length
  | [], i => by simp [CGroupProxy.visited]
  | gexpr :: rest, i => by
    have ih := visited_length pgroup fAll rest (i + 1)
    unfold CGroupProxy.visited
    split
    · simp only [List.length_cons]
      omega
    · simp only [List.length_cons]
      omega

theorem bindingsRoot_scalar (FMatchPattern : CExpression → CGroupExpression → Bool)
    (memo : CMemo) (bind : Nat → CExpression → Except Err (List CExpression))
    (p : PGroupExpression) (P : CExpression) (L : List CExpression)
    (hs : (memo p.Pgroup).FScalar = true)
    (h : bindingsRoot FMatchPattern memo bind p P = .ok L) :
    L.length ≤ 1 ∧ ∀ e ∈ L, e.Pgexpr = some p := by
  unfold bindingsRoot at h
  cases hd : memo.deref p with
  | none => simp [hd] at h
  | some gexpr =>
    simp only [hd] at h
    split at h
    · simp at h
      subst h
      simp
    · split at h
      · simp at h
        subst h
        simp
      · cases hcb : childBindings bind P gexpr.Arity gexpr.m_pdrgpgroup 0 with
        | error e => simp [hcb] at h
        | ok Ls =>
          simp only [hcb, hs, if_true] at h
          injection h with h
          subst h
          constructor
          · simp
          · intro e he
            simp only [List.mem_map] at he
            obtain ⟨t, _, rfl⟩ := he
            rfl

theorem bindingsOver_sublist (root : PGroupExpression → Except Err (List CExpression))
    :
    ∀ (ps : List PGroupExpression) (L : List CExpression),
      (∀ q ∈ ps, ∀ L, root q = .ok L → L.length ≤ 1 ∧ ∀ e ∈ L, e.Pgexpr = some q) →
      bindingsOver root ps = .ok L →
      (L.map CExpression.Pgexpr).Sublist (ps.map some)
  | [], L, _, h => by
    simp [bindingsOver] at h
    subst h
    simp
  | p :: ps, L, hroot, h => by
    obtain ⟨Lp, L', hp, hr, hLL⟩ := bindingsOver_cons root p ps L h
    have ih := bindingsOver_sublist root ps L' (fun q hq => hroot q (by simp [hq])) hr
    obtain ⟨h1, h2⟩ := hroot p (by simp) Lp hp
    subst hLL
    cases Lp with
    | nil => simpa using List.Sublist.cons _ ih
    | cons e Lp' =>
      have h3 : Lp' = [] := by simpa using h1
      subst h3
      have h4 := h2 e (by simp)
      simp only [List.cons_append, List.nil_append, List.map_cons, h4]
      exact List.Sublist.cons₂ _ ih

theorem bindingsGroup_scalar_sublist (FMatchPattern : CExpression → CGroupExpression → Bool)
    (memo : CMemo) (fuel pgroup : Nat) (P : CExpression) (L : List CExpression)
    (hs : (memo pgroup).FScalar = true)
    (h : bindingsGroup FMatchPattern memo fuel pgroup P = .ok L) :
    (L.map CExpression.Pgexpr).Sublist ((cursorAfter memo pgroup none).map some) := by
  cases fuel with
  | zero => simp [bindingsGroup] at h
  | succ fuel =>
    simp only [bindingsGroup] at h
    cases hcur : cursorAfter memo pgroup none with
    | nil => simp [hcur] at h
    | cons p rest =>
      simp only [hcur] at h
      by_cases hleaf : P.FLeafPattern = true
      · simp only [hleaf, if_true] at h
        cases hd : memo.deref p with
        | none => simp [hd] at h
        | some gexpr =>
          simp only [hd] at h
          split at h
          · simp at h
            subst h
            simp [CExpression.Pgexpr]
          · simp at h
            subst h
            simp
      · have hleaf' : P.FLeafPattern = false := by simpa using hleaf
        rw [hleaf', if_neg Bool.false_ne_true] at h
        refine bindingsOver_sublist _ (p :: rest) L ?_ h
        intro q hmem Lq hq
        have hqg : q.Pgroup = pgroup := by
          rw [← hcur] at hmem
          exact visited_pgroup pgroup _ _ 0 q hmem
        exact bindingsRoot_scalar FMatchPattern memo _ q P Lq (by rw [hqg]; exact hs) hq

end CBinding
end gpopt

namespace gpopt
namespace CBinding

/-! ## Patterns whose children are leaf wildcards -/

theorem sections_singletons {α : Type} :
    ∀ es : List α, (es.map fun e => [e]).sections = [es]
  | [] => by simp [List.sections]
  | e :: es => by simp [List.sections, sections_singletons es]

theorem child_mem (P : CExpression) (j : Nat) (h : j < P.Arity) :
    ∃ c, c ∈ P.m_pdrgpexpr ∧ P.child j = .ok c := by
  have h' : j < P.m_pdrgpexpr.length := h
  refine ⟨P.m_pdrgpexpr[j], List.getElem_mem _, ?_⟩
  simp [CExpression.child, List.getElem?_eq_getElem h']

theorem expand_mem (P : CExpression) (n j arity : Nat) (hop : P.Pop.Eopid = .EopOther n)
    (hj : j < P.Arity) :
    ∃ c, c ∈ P.m_pdrgpexpr ∧ PexprExpandPattern P j arity = .ok c := by
  unfold PexprExpandPattern
  simp only [hop, reduceCtorEq, or_self, if_false]
  cases hch : P.m_pdrgpexpr with
  | nil =>
    have h0 : P.Arity = 0 := by simp [CExpression.Arity, hch]
    omega
  | cons first rest =>
    rw [← hch]
    simp only [hch, List.head?_cons]
    rw [← hch]
    by_cases hmn : first.Pop.FMultiNode = true
    · simp only [hmn, if_true]
      by_cases hlast : j = ulongPred arity
      · simp only [hlast, if_true]
        exact child_mem P (P.Arity - 1) (by omega)
      · simp only [hlast, if_false]
        exact ⟨first, by simp [hch], rfl⟩
    · simp only [hmn]
      exact child_mem P j hj

theorem childCursors_leaf (FMatchPattern : CExpression → CGroupExpression → Bool)
    (memo : CMemo) (fuel : Nat) (P : CExpression) (arity : Nat)
    (hexp : ∀ j, j < arity → ∃ c, (c.FLeafPattern = true ∧ ∀ g', FMatchPattern c g' = true) ∧
      PexprExpandPattern P j arity = .ok c) :
    ∀ (gs : List Nat) (firsts : List (PGroupExpression × CGroupExpression)) (ul : Nat),
      ul + gs.length ≤ arity →
      List.Forall₂ (fun g (qg : PGroupExpression × CGroupExpression) =>
        PgexprNext memo g none = some qg.1 ∧ memo.deref qg.1 = some qg.2) gs firsts →
      ChildCursors (PexprExtractGroup FMatchPattern memo (fuel + 1)) P arity ul gs
        (firsts.map fun qg => [CExpression.mk qg.2.Pop (some qg.1) []])
  | [], _, ul, _, h => by
    cases h
    simp [ChildCursors]
  | g :: gs, _, ul, hul, h => by
    cases h with
    | cons hq hrest =>
      rename_i qg firsts
      simp only [List.map_cons, ChildCursors]
      obtain ⟨c, ⟨hcl, hcm⟩, hc⟩ := hexp ul (by simp at hul; omega)
      refine ⟨⟨c, hc, leafPattern_group FMatchPattern memo fuel g c qg.1 qg.2 hcl hq.1 hq.2
        (hcm qg.2)⟩, ?_⟩
      exact childCursors_leaf FMatchPattern memo fuel P arity hexp gs firsts (ul + 1)
        (by simp at hul; omega) hrest

/-! ## Failure of the first initialization -/

theorem init_loop_fail (extract : GroupCursor) (P : CExpression) (arity : Nat)
    (g : Nat) (gs₂ : List Nat) :
    ∀ (gs₁ : List Nat) (es : List CExpression) (ul : Nat) (acc : List CExpression),
      FirstBindings extract P arity ul gs₁ es →
      (∃ P', PexprExpandPattern P (ul + gs₁.length) arity = .ok P' ∧
        extract g P' none = .ok none) →
      FInitChildCursors.loop extract P arity (gs₁ ++ g :: gs₂) ul acc = .ok (false, acc ++ es)
  | [], [], ul, acc, _, hfail => by
    obtain ⟨P', hexp, hnone⟩ := hfail
    simp only [List.length_nil, Nat.add_zero] at hexp
    simp [FInitChildCursors.loop, hexp, hnone]
  | [], _ :: _, _, _, h, _ => by simp [FirstBindings] at h
  | _ :: _, [], _, _, h, _ => by simp [FirstBindings] at h
  | g₁ :: gs₁, e :: es, ul, acc, h, hfail => by
    simp only [FirstBindings] at h
    obtain ⟨⟨P₁, hexp, hsome⟩, hrest⟩ := h
    have ih := init_loop_fail extract P arity g gs₂ gs₁ es (ul + 1) (acc ++ [e]) hrest
      (by
        obtain ⟨P', h1, h2⟩ := hfail
        refine ⟨P', ?_, h2⟩
        rw [← h1]
        congr 1
        simp
        omega)
    simp [FInitChildCursors.loop, hexp, hsome, ih]

end CBinding
end gpopt

namespace gpopt
namespace CBinding

/-! ## The bindings of a well-formed memo are defined -/

theorem visited_get (pgroup : Nat) (fAll : Bool) :
    ∀ (l : List CGroupExpression) (i : Nat) (q : PGroupExpression),
      q ∈ CGroupProxy.visited pgroup fAll i l →
      ∃ gexpr, l.get? (q.idx - i) = some gexpr
  | [], i, q, h => by simp [CGroupProxy.visited] at h
  | gexpr :: rest, i, q, h => by
    have key : q ∈ CGroupProxy.visited pgroup fAll (i + 1) rest →
        ∃ gexpr', (gexpr :: rest).get? (q.idx - i) = some gexpr' := by
      intro hq
      obtain ⟨gexpr', h1⟩ := visited_get pgroup fAll rest (i + 1) q hq
      have h2 := visited_idx pgroup fAll rest (i + 1) q hq
      have h3 : q.idx - i = (q.idx - (i + 1)) + 1 := by omega
      exact ⟨gexpr', by rw [h3]; simpa using h1⟩
    unfold CGroupProxy.visited at h
    split at h
    · simp only [List.mem_cons] at h
      rcases h with h | h
      · exact ⟨gexpr, by simp [h]⟩
      · exact key h
    · exact key h

theorem cursor_deref (memo : CMemo) (pgroup : Nat) (q : PGroupExpression)
    (h : q ∈ cursorAfter memo pgroup none) :
    ∃ gexpr, memo.deref q = some gexpr ∧ gexpr ∈ (memo pgroup).m_listGExprs := by
  have hg := visited_pgroup pgroup _ _ 0 q h
  obtain ⟨gexpr, h1⟩ := visited_get pgroup _ _ 0 q h
  simp only [Nat.sub_zero] at h1
  refine ⟨gexpr, ?_, ?_⟩
  · simp only [CMemo.deref, hg]
    exact h1
  · rw [List.get?_eq_getElem?] at h1
    exact List.getElem?_mem h1

theorem childBindings_defined (bind : Nat → CExpression → Except Err (List CExpression))
    (P : CExpression) (arity : Nat) (S : CExpression → Prop)
    (hexp : ∀ ul, ul < arity → ∃ P', PexprExpandPattern P ul arity = .ok P' ∧ S P') :
    ∀ (gs : List Nat) (ul : Nat), ul + gs.length ≤ arity →
      (∀ c ∈ gs, ∀ P', S P' → ∃ L, bind c P' = .ok L) →
      ∃ Ls, childBindings bind P arity gs ul = .ok Ls
  | [], ul, _, _ => ⟨[], by simp [childBindings]⟩
  | g :: gs, ul, hul, hb => by
    obtain ⟨P', h1, h2⟩ := hexp ul (by simp at hul; omega)
    obtain ⟨L, h3⟩ := hb g (by simp) P' h2
    obtain ⟨Ls, h4⟩ := childBindings_defined bind P arity S hexp gs (ul + 1)
      (by simp at hul; omega) (fun c hc => hb c (by simp [hc]))
    exact ⟨L :: Ls, by simp [childBindings, h1, h3, h4]⟩

theorem bindingsRoot_defined (FMatchPattern : CExpression → CGroupExpression → Bool)
    (memo : CMemo) (bind : Nat → CExpression → Except Err (List CExpression))
    (S : CExpression → Prop) (hS : PatternsClosed FMatchPattern S)
    (q : PGroupExpression) (P : CExpression) (gexpr : CGroupExpression)
    (hd : memo.deref q = some gexpr) (hP : S P) (hleaf : P.FLeafPattern = false)
    (hb : ∀ c ∈ gexpr.m_pdrgpgroup, ∀ P', S P' → ∃ L, bind c P' = .ok L) :
    ∃ L, bindingsRoot FMatchPattern memo bind q P = .ok L := by
  unfold bindingsRoot
  simp only [hd]
  by_cases hm : FMatchPattern P gexpr = true
  · by_cases har : gexpr.Arity < P.Arity
    · exact ⟨[], by simp [hm, har]⟩
    · obtain ⟨Ls, h1⟩ := childBindings_defined bind P gexpr.Arity S
        (fun ul hul => hS P gexpr ul hP hm hleaf (by omega) hul) gexpr.m_pdrgpgroup 0
        (by simp [CGroupExpression.Arity]) hb
      by_cases hs : (memo q.Pgroup).FScalar = true
      · exact ⟨(Ls.sections.take 1).map (PexprFinalize q gexpr), by simp [hm, har, h1, hs]⟩
      · exact ⟨Ls.sections.map (PexprFinalize q gexpr), by simp [hm, har, h1, hs]⟩
  · exact ⟨[], by simp [hm]⟩

theorem bindingsOver_defined (root : PGroupExpression → Except Err (List CExpression)) :
    ∀ ps : List PGroupExpression, (∀ q ∈ ps, ∃ L, root q = .ok L) →
      ∃ L, bindingsOver root ps = .ok L
  | [], _ => ⟨[], rfl⟩
  | p :: ps, h => by
    obtain ⟨Lp, h1⟩ := h p (by simp)
    obtain ⟨L', h2⟩ := bindingsOver_defined root ps (fun q hq => h q (by simp [hq]))
    exact ⟨Lp ++ L', by simp [bindingsOver, h1, h2]⟩

theorem bindingsGroup_defined (FMatchPattern : CExpression → CGroupExpression → Bool)
    (memo : CMemo) (rank : Nat → Nat) (S : CExpression → Prop)
    (hwf : WellFormed memo rank) (hS : PatternsClosed FMatchPattern S) :
    ∀ (fuel g : Nat) (P : CExpression), S P → rank g < fuel →
      cursorAfter memo g none ≠ [] →
      ∃ L, bindingsGroup FMatchPattern memo fuel g P = .ok L
  | 0, g, P, _, hr, _ => absurd hr (Nat.not_lt_zero _)
  | fuel + 1, g, P, hP, hr, hne => by
    simp only [bindingsGroup]
    cases hcur : cursorAfter memo g none with
    | nil => exact absurd hcur hne
    | cons p rest =>
      simp only []
      by_cases hleaf : P.FLeafPattern = true
      · obtain ⟨gexpr, hd, _⟩ := cursor_deref memo g p (by simp [hcur])
        simp only [hleaf, if_true, hd]
        split <;> exact ⟨_, rfl⟩
      · have hleaf' : P.FLeafPattern = false := by simpa using hleaf
        rw [hleaf', if_neg Bool.false_ne_true]
        apply bindingsOver_defined
        intro q hq
        obtain ⟨gexpr, hd, hmem⟩ := cursor_deref memo g q (by rw [hcur]; exact hq)
        refine bindingsRoot_defined FMatchPattern memo _ S hS q P gexpr hd hP hleaf' ?_
        intro c hc P' hP'
        obtain ⟨h1, h2⟩ := hwf g gexpr hmem c hc
        exact bindingsGroup_defined FMatchPattern memo rank S hwf hS fuel c P' hP'
          (by omega) h2

theorem exampleMemo_wellFormed : WellFormed exampleMemo id := by
  intro g gexpr hmem c hc
  unfold exampleMemo at hmem
  split at hmem <;> simp at hmem <;> (try rcases hmem with rfl | rfl | rfl) <;>
    simp at hc <;> (try rcases hc with rfl | rfl) <;> exact ⟨by decide, by decide⟩

end CBinding
end gpopt

namespace gpopt
namespace CBinding

theorem examplePatterns_closed : PatternsClosed FMatchPatternSpec examplePatterns := by
  rintro P gexpr ul (rfl | rfl) hm _ _ hul
  · have har : gexpr.Arity = 2 := by
      simp [FMatchPatternSpec, patJoinTrees, opJoin, CExpression.Pop, CExpression.Arity,
        CExpression.m_pdrgpexpr] at hm
      exact hm.2.symm
    rw [har] at hul ⊢
    have h : ul = 0 ∨ ul = 1 := by omega
    rcases h with rfl | rfl <;> exact ⟨patTree, rfl, Or.inr rfl⟩
  · exact ⟨patTree, rfl, Or.inr rfl⟩

end CBinding
end gpopt

namespace gpopt
namespace CBinding

/-! ## C1: binding totality -/

/-- C1, counterexample.  Group 4 of the example memo holds two scans and the
pattern is a leaf wildcard.  Extraction at the second group expression binds
it (it matches the pattern), but repeated extraction over the group returns
the binding of the first group expression only: the second one is omitted. -/
theorem C1_counterexample_leaf_pattern_omits :
    PexprExtract FMatchPatternSpec exampleMemo 1 ⟨4, 1⟩ patLeaf none
        = .ok (some (exprScan 3 4 1)) ∧
      enumerate (PexprExtractGroup FMatchPatternSpec exampleMemo 1 4 patLeaf) 3 none
        = .ok [exprScan 2 4 0] ∧
      exprScan 3 4 1 ∉ [exprScan 2 4 0] := by
  refine ⟨rfl, rfl, ?_⟩
  simp [exprScan]

/-- C1, as amended.  In a well-formed memo (acyclic: `rank` decreases from a
group to its child groups; no empty group below `pgroup` nor `pgroup` itself)
and for a pattern that can be expanded, the list `bindingsGroup` of the
bindings of the pattern in the group is defined, and calling the group-level
`PexprExtract` first with no previous result and then with the result before
returns exactly that list, element after element, and then end; the list has
no duplicates.  The list binds a leaf pattern once, to the first group
expression of the cursor, and binds any other pattern to every group
expression the cursor visits with every combination of child bindings (the
first combination only in a scalar group). -/
theorem C1_extract_enumerates_bindings
    (FMatchPattern : CExpression → CGroupExpression → Bool) (memo : CMemo)
    (rank : Nat → Nat) (S : CExpression → Prop) (fuel pgroup : Nat) (P : CExpression)
    (hwf : WellFormed memo rank) (hS : PatternsClosed FMatchPattern S) (hP : S P)
    (hfuel : rank pgroup < fuel) (hne : cursorAfter memo pgroup none ≠ []) :
    ∃ L, bindingsGroup FMatchPattern memo fuel pgroup P = .ok L ∧
      (∀ n, L.length < n →
        enumerate (PexprExtractGroup FMatchPattern memo fuel pgroup P) n none = .ok L) ∧
      L.Nodup := by
  obtain ⟨L, h⟩ := bindingsGroup_defined FMatchPattern memo rank S hwf hS fuel pgroup P hP
    hfuel hne
  have hc := group_isCursorOf FMatchPattern memo fuel pgroup P L h
  exact ⟨L, h, fun n hn => enumerate_of_isCursorOf _ L hc n hn, isCursorOf_nodup _ L hc⟩

/-- C1, witness: the example memo is well-formed, and repeated extraction of
`Join(tree, tree)` from its group 6 returns the six bindings of the group. -/
theorem C1_extract_enumerates_bindings_witness :
    WellFormed exampleMemo id ∧ PatternsClosed FMatchPatternSpec examplePatterns ∧
      enumerate (PexprExtractGroup FMatchPatternSpec exampleMemo 7 6 patJoinTrees) 7 none
        = .ok [exprJoin6 (exprScan 2 4 0) (exprScan 4 5 0),
            exprJoin6 (exprScan 3 4 1) (exprScan 4 5 0),
            exprJoin6 (exprScan 2 4 0) (exprScan 5 5 1),
            exprJoin6 (exprScan 3 4 1) (exprScan 5 5 1),
            exprJoin6 (exprScan 2 4 0) (exprScan 6 5 2),
            exprJoin6 (exprScan 3 4 1) (exprScan 6 5 2)] := by
  refine ⟨exampleMemo_wellFormed, examplePatterns_closed, ?_⟩
  obtain ⟨L, h1, h2, _⟩ := C1_extract_enumerates_bindings FMatchPatternSpec exampleMemo id
    examplePatterns 7 6 patJoinTrees exampleMemo_wellFormed examplePatterns_closed
    (Or.inl rfl) (by decide) (by decide)
  have h0 : bindingsGroup FMatchPatternSpec exampleMemo 7 6 patJoinTrees
      = .ok [exprJoin6 (exprScan 2 4 0) (exprScan 4 5 0),
          exprJoin6 (exprScan 3 4 1) (exprScan 4 5 0),
          exprJoin6 (exprScan 2 4 0) (exprScan 5 5 1),
          exprJoin6 (exprScan 3 4 1) (exprScan 5 5 1),
          exprJoin6 (exprScan 2 4 0) (exprScan 6 5 2),
          exprJoin6 (exprScan 3 4 1) (exprScan 6 5 2)] := rfl
  have h3 := Except.ok.inj (h1.symm.trans h0)
  subst h3
  exact h2 7 (by decide)

/-! ## C2: odometer count -/

/-- C2.  For a group expression of a non-scalar group that shallow-matches a
non-leaf pattern with no more children than its own, and whose child cursors
enumerate the lists `Ls` (of lengths `n_1, ..., n_k`), repeated extraction at
that group expression returns exactly `n_1 * ... * n_k` expressions, with
pairwise distinct child tuples, and then end; for lengths `[2, 3]` these are
6 expressions. -/
theorem C2_odometer_count
    (FMatchPattern : CExpression → CGroupExpression → Bool) (memo : CMemo)
    (extract : GroupCursor) (p : PGroupExpression) (P : CExpression)
    (gexpr : CGroupExpression) (Ls : List (List CExpression))
    (hd : memo.deref p = some gexpr) (hm : FMatchPattern P gexpr = true)
    (hleaf : P.FLeafPattern = false) (hs : (memo p.Pgroup).FScalar = false)
    (har : P.Arity ≤ gexpr.Arity)
    (hc : ChildCursors extract P gexpr.Arity 0 gexpr.m_pdrgpgroup Ls) :
    ∃ R, enumerate (PexprExtractRoot FMatchPattern memo extract p P)
          ((Ls.map List.length).prod + 1) none = .ok R ∧
      R.length = (Ls.map List.length).prod ∧
      (R.map CExpression.m_pdrgpexpr).Nodup ∧
      (Ls.map List.length = [2, 3] → R.length = 6) := by
  have hroot := root_isCursorOf FMatchPattern memo extract p P gexpr Ls hd hm hleaf
    (Nat.not_lt.mpr har) hc
  rw [hs, if_neg Bool.false_ne_true] at hroot
  have hlen : (Ls.sections.map (PexprFinalize p gexpr)).length = (Ls.map List.length).prod := by
    rw [List.length_map, length_sections]
  refine ⟨Ls.sections.map (PexprFinalize p gexpr), ?_, hlen, ?_, ?_⟩
  · exact enumerate_of_isCursorOf _ _ hroot _ (by rw [hlen]; exact Nat.lt_succ_self _)
  · have h1 : (Ls.sections.map (PexprFinalize p gexpr)).map CExpression.m_pdrgpexpr
        = Ls.sections := by
      rw [List.map_map]
      have h2 : CExpression.m_pdrgpexpr ∘ PexprFinalize p gexpr = id := funext fun t => rfl
      rw [h2, List.map_id]
    rw [h1]
    exact nodup_sections Ls (childCursors_nodup extract P gexpr.Arity gexpr.m_pdrgpgroup Ls 0 hc)
  · intro h23
    rw [hlen, h23]
    rfl

/-- C2, witness: the join of group 6 of the example memo, whose child groups
hold two and three scans, against `Join(tree, tree)`. -/
theorem C2_odometer_count_witness :
    exampleMemo.deref ⟨6, 0⟩ = some ⟨opJoin, [4, 5]⟩ ∧
      ∃ R, enumerate (PexprExtractRoot FMatchPatternSpec exampleMemo
            (PexprExtractGroup FMatchPatternSpec exampleMemo 1) ⟨6, 0⟩ patJoinTrees)
          (([[exprScan 2 4 0, exprScan 3 4 1],
              [exprScan 4 5 0, exprScan 5 5 1, exprScan 6 5 2]].map List.length).prod + 1) none
            = .ok R ∧
        R.length = ([[exprScan 2 4 0, exprScan 3 4 1],
              [exprScan 4 5 0, exprScan 5 5 1, exprScan 6 5 2]].map List.length).prod ∧
        (R.map CExpression.m_pdrgpexpr).Nodup ∧
        (([[exprScan 2 4 0, exprScan 3 4 1],
              [exprScan 4 5 0, exprScan 5 5 1, exprScan 6 5 2]].map List.length) = [2, 3] →
          R.length = 6) :=
  ⟨rfl, C2_odometer_count FMatchPatternSpec exampleMemo
    (PexprExtractGroup FMatchPatternSpec exampleMemo 1) ⟨6, 0⟩ patJoinTrees ⟨opJoin, [4, 5]⟩
    [[exprScan 2 4 0, exprScan 3 4 1], [exprScan 4 5 0, exprScan 5 5 1, exprScan 6 5 2]]
    rfl rfl rfl rfl (by decide)
    ⟨⟨patTree, rfl, group_isCursorOf FMatchPatternSpec exampleMemo 1 4 patTree _ rfl⟩,
      ⟨patTree, rfl, group_isCursorOf FMatchPatternSpec exampleMemo 1 5 patTree _ rfl⟩,
      trivial⟩⟩

end CBinding
end gpopt

namespace gpopt
namespace CBinding

/-! ## C3: odometer order -/

/-- C3, counterexample.  In the example memo the join of group 6 has child
groups with two and three bindings.  From the first binding, whose children
are the first scan of each child group, the next extraction returns the
binding whose left child has advanced and whose right child is unchanged,
although the cursor of the right child can advance: it is the leftmost
cursor that is advanced first, not the rightmost. -/
theorem C3_counterexample_leftmost_advances :
    PexprExtract FMatchPatternSpec exampleMemo 1 ⟨6, 0⟩ patJoinTrees
        (some (exprJoin6 (exprScan 2 4 0) (exprScan 4 5 0)))
        = .ok (some (exprJoin6 (exprScan 3 4 1) (exprScan 4 5 0))) ∧
      PexprExtractGroup FMatchPatternSpec exampleMemo 1 5 patTree (some (exprScan 4 5 0))
        = .ok (some (exprScan 5 5 1)) :=
  ⟨rfl, rfl⟩

/-- C3, as amended.  When `PexprExtract` is called on a group expression with
a previous result, it advances the leftmost child cursor first.  If the
cursors of the leading children `Ls₁` are exhausted (the previous children
`lasts` are their last bindings) and the next cursor advances from `c` to
`c'`, the result has the exhausted cursors reset to their first bindings
`firsts`, the advanced child `c'`, and every child to the right (`post`)
re-used unchanged: the leftmost child varies fastest. -/
theorem C3_odometer_leftmost_first
    (FMatchPattern : CExpression → CGroupExpression → Bool) (memo : CMemo)
    (extract : GroupCursor) (p : PGroupExpression) (P last : CExpression)
    (gexpr : CGroupExpression) (Ls₁ Ls₂ : List (List CExpression))
    (a b : List CExpression) (c c' : CExpression) (lasts firsts post : List CExpression)
    (hd : memo.deref p = some gexpr) (hm : FMatchPattern P gexpr = true)
    (hleaf : P.FLeafPattern = false) (hs : (memo p.Pgroup).FScalar = false)
    (har : P.Arity ≤ gexpr.Arity)
    (hc : ChildCursors extract P gexpr.Arity 0 gexpr.m_pdrgpgroup
      (Ls₁ ++ (a ++ c :: c' :: b) :: Ls₂))
    (hl : List.Forall₂ (fun L x => L.getLast? = some x) Ls₁ lasts)
    (hf : List.Forall₂ (fun L x => L.head? = some x) Ls₁ firsts)
    (hpost : post.length = Ls₂.length)
    (hlast : last.m_pdrgpexpr = lasts ++ c :: post) :
    PexprExtractRoot FMatchPattern memo extract p P (some last)
      = .ok (some (PexprFinalize p gexpr (firsts ++ c' :: post))) := by
  have hlen := childCursors_length extract P gexpr.Arity gexpr.m_pdrgpgroup _ 0 hc
  have h1 := advance_loop_carry extract P last gexpr.Arity a b c c' Ls₂ post hpost Ls₁
    lasts firsts gexpr.m_pdrgpgroup 0 0 [] [] hc hl hf (by simpa using hlast) rfl
  have har' : ¬ gexpr.Arity < P.Arity := Nat.not_lt.mpr har
  have hk : Ls₁.length < gexpr.Arity := by
    simp [CGroupExpression.Arity, hlen]
  have h0 : ¬ gexpr.Arity = 0 := by omega
  simp [PexprExtractRoot, hd, hm, hleaf, hs, h0, FExtractChildren, har', FAdvanceChildCursors,
    h1, hk]

/-- C3, witness: in the example memo the join of group 6, from the binding
whose left child is the last scan of group 4 and whose right child is the
first scan of group 5, moves on to the first scan of group 4 with the second
scan of group 5. -/
theorem C3_odometer_leftmost_first_witness :
    exampleMemo.deref ⟨6, 0⟩ = some ⟨opJoin, [4, 5]⟩ ∧
      PexprExtractRoot FMatchPatternSpec exampleMemo
          (PexprExtractGroup FMatchPatternSpec exampleMemo 1) ⟨6, 0⟩ patJoinTrees
          (some (exprJoin6 (exprScan 3 4 1) (exprScan 4 5 0)))
        = .ok (some (PexprFinalize ⟨6, 0⟩ ⟨opJoin, [4, 5]⟩
            ([exprScan 2 4 0] ++ exprScan 5 5 1 :: []))) :=
  ⟨rfl, C3_odometer_leftmost_first FMatchPatternSpec exampleMemo
    (PexprExtractGroup FMatchPatternSpec exampleMemo 1) ⟨6, 0⟩ patJoinTrees
    (exprJoin6 (exprScan 3 4 1) (exprScan 4 5 0)) ⟨opJoin, [4, 5]⟩
    [[exprScan 2 4 0, exprScan 3 4 1]] [] [] [exprScan 6 5 2]
    (exprScan 4 5 0) (exprScan 5 5 1) [exprScan 3 4 1] [exprScan 2 4 0] []
    rfl rfl rfl rfl (by decide)
    ⟨⟨patTree, rfl, group_isCursorOf FMatchPatternSpec exampleMemo 1 4 patTree _ rfl⟩,
      ⟨patTree, rfl, group_isCursorOf FMatchPatternSpec exampleMemo 1 5 patTree _ rfl⟩,
      trivial⟩
    (List.Forall₂.cons rfl List.Forall₂.nil) (List.Forall₂.cons rfl List.Forall₂.nil)
    rfl rfl⟩

/-! ## C4: leaf pattern -/

/-- C4, counterexample.  Group 9 of the example memo holds two group
expressions (two joins), both visited by the cursor; extraction over the group
with a leaf pattern returns one expression in all, for the first group
expression, and not one per group expression.  And extraction at the first
group expression itself, called with that result as previous result, returns
the same expression again and not end. -/
theorem C4_counterexample_one_per_group :
    enumerate (PexprExtractGroup FMatchPatternSpec exampleMemo 1 9 patLeaf) 3 none
        = .ok [.mk opJoin (some ⟨9, 0⟩) []] ∧
      cursorAfter exampleMemo 9 none = [⟨9, 0⟩, ⟨9, 1⟩] ∧
      PexprExtract FMatchPatternSpec exampleMemo 1 ⟨9, 0⟩ patLeaf
          (some (.mk opJoin (some ⟨9, 0⟩) []))
        = .ok (some (.mk opJoin (some ⟨9, 0⟩) [])) :=
  ⟨rfl, rfl, rfl⟩

/-- C4, as amended.  When the pattern root is a leaf wildcard (that
shallow-matches), extraction over a group returns exactly one expression per
group: the operator of the first group expression of the cursor with no
children, whatever the arity of that group expression; the call with that
result (or any other) as previous result returns end. -/
theorem C4_leaf_pattern_once_per_group
    (FMatchPattern : CExpression → CGroupExpression → Bool) (memo : CMemo)
    (fuel pgroup : Nat) (P : CExpression) (p : PGroupExpression) (gexpr : CGroupExpression)
    (hleaf : P.FLeafPattern = true) (hnext : PgexprNext memo pgroup none = some p)
    (hd : memo.deref p = some gexpr) (hm : FMatchPattern P gexpr = true) :
    PexprExtractGroup FMatchPattern memo (fuel + 1) pgroup P none
        = .ok (some (.mk gexpr.Pop (some p) [])) ∧
      (∀ e, PexprExtractGroup FMatchPattern memo (fuel + 1) pgroup P (some e) = .ok none) ∧
      ∀ n, 1 < n →
        enumerate (PexprExtractGroup FMatchPattern memo (fuel + 1) pgroup P) n none
          = .ok [.mk gexpr.Pop (some p) []] := by
  have hc := leafPattern_group FMatchPattern memo fuel pgroup P p gexpr hleaf hnext hd hm
  refine ⟨by simpa using hc.1, ?_, fun n hn => enumerate_of_isCursorOf _ _ hc n (by simpa using hn)⟩
  intro e
  simp [PexprExtractGroup, hleaf]

/-- C4, witness: the leaf pattern on group 9 of the example memo, whose first
group expression is a join of arity 2. -/
theorem C4_leaf_pattern_once_per_group_witness :
    PgexprNext exampleMemo 9 none = some ⟨9, 0⟩ ∧
      PexprExtractGroup FMatchPatternSpec exampleMemo (0 + 1) 9 patLeaf none
        = .ok (some (.mk opJoin (some ⟨9, 0⟩) [])) :=
  ⟨rfl, (C4_leaf_pattern_once_per_group FMatchPatternSpec exampleMemo 0 9 patLeaf ⟨9, 0⟩
    ⟨opJoin, [1, 2]⟩ rfl rfl rfl rfl).1⟩

/-! ## C5: scalar groups -/

end CBinding
end gpopt

namespace gpopt
namespace CBinding

/-! ## C6: a concrete operator over leaf wildcards -/

/-- C6.  For a group expression that shallow-matches a pattern whose root is a
concrete operator and whose children are all leaf wildcards (as many as the
group expression has children), extraction yields exactly one expression: its
`i`-th child is the childless operator of the first group expression of the
cursor of the `i`-th child group; the next call, with that result as previous
result, returns end. -/
theorem C6_concrete_root_over_leaves
    (FMatchPattern : CExpression → CGroupExpression → Bool) (memo : CMemo)
    (fuel : Nat) (p : PGroupExpression) (P : CExpression) (gexpr : CGroupExpression)
    (n : Nat) (firsts : List (PGroupExpression × CGroupExpression))
    (hd : memo.deref p = some gexpr) (hm : FMatchPattern P gexpr = true)
    (hop : P.Pop.Eopid = .EopOther n) (hnp : P.Pop.FPattern = false)
    (hchildren : ∀ c ∈ P.m_pdrgpexpr, c.FLeafPattern = true ∧ ∀ g', FMatchPattern c g' = true)
    (har : P.Arity = gexpr.Arity)
    (hfirst : List.Forall₂ (fun g (qg : PGroupExpression × CGroupExpression) =>
      PgexprNext memo g none = some qg.1 ∧ memo.deref qg.1 = some qg.2)
      gexpr.m_pdrgpgroup firsts) :
    PexprExtract FMatchPattern memo (fuel + 1) p P none
        = .ok (some (PexprFinalize p gexpr
            (firsts.map fun qg => CExpression.mk qg.2.Pop (some qg.1) []))) ∧
      PexprExtract FMatchPattern memo (fuel + 1) p P
          (some (PexprFinalize p gexpr
            (firsts.map fun qg => CExpression.mk qg.2.Pop (some qg.1) [])))
        = .ok none := by
  have hleaf : P.FLeafPattern = false := by simp [CExpression.FLeafPattern, hnp]
  have hexp : ∀ j, j < gexpr.Arity →
      ∃ c, (c.FLeafPattern = true ∧ ∀ g', FMatchPattern c g' = true) ∧
        PexprExpandPattern P j gexpr.Arity = .ok c := by
    intro j hj
    obtain ⟨c, hc, he⟩ := expand_mem P n j gexpr.Arity hop (by omega)
    exact ⟨c, hchildren c hc, he⟩
  have hc := childCursors_leaf FMatchPattern memo fuel P gexpr.Arity hexp gexpr.m_pdrgpgroup
    firsts 0 (by simp [CGroupExpression.Arity]) hfirst
  have hroot := root_isCursorOf FMatchPattern memo _ p P gexpr _ hd hm hleaf (by omega) hc
  have hsec : (firsts.map fun qg => [CExpression.mk qg.2.Pop (some qg.1) []]).sections
      = [firsts.map fun qg => CExpression.mk qg.2.Pop (some qg.1) []] := by
    have h1 := sections_singletons (firsts.map fun qg => CExpression.mk qg.2.Pop (some qg.1) [])
    rw [List.map_map] at h1
    exact h1
  rw [hsec] at hroot
  simp only [List.take_succ_cons, List.take_zero, ite_self, List.map_cons, List.map_nil] at hroot
  exact ⟨by simpa using hroot.1, by simpa using hroot.2 [] _ [] rfl⟩

/-- C6, witness: the end-to-end scenario.  Group 1 holds `Scan(A)`, group 2
holds `Scan(B)` and group 3 holds `Join(group 1, group 2)`; the pattern is
`Join(leaf, leaf)`. -/
theorem C6_concrete_root_over_leaves_witness :
    exampleMemo.deref ⟨3, 0⟩ = some ⟨opJoin, [1, 2]⟩ ∧
      PexprExtract FMatchPatternSpec exampleMemo (0 + 1) ⟨3, 0⟩ patJoinLeaves none
        = .ok (some (PexprFinalize ⟨3, 0⟩ ⟨opJoin, [1, 2]⟩
            ([(⟨1, 0⟩, ⟨opScan 0, []⟩), (⟨2, 0⟩, ⟨opScan 1, []⟩)].map
              fun qg : PGroupExpression × CGroupExpression =>
                CExpression.mk qg.2.Pop (some qg.1) []))) ∧
      PexprExtract FMatchPatternSpec exampleMemo (0 + 1) ⟨3, 0⟩ patJoinLeaves
          (some (PexprFinalize ⟨3, 0⟩ ⟨opJoin, [1, 2]⟩
            ([(⟨1, 0⟩, ⟨opScan 0, []⟩), (⟨2, 0⟩, ⟨opScan 1, []⟩)].map
              fun qg : PGroupExpression × CGroupExpression =>
                CExpression.mk qg.2.Pop (some qg.1) [])))
        = .ok none :=
  ⟨rfl, C6_concrete_root_over_leaves FMatchPatternSpec exampleMemo 0 ⟨3, 0⟩ patJoinLeaves
    ⟨opJoin, [1, 2]⟩ 1 [(⟨1, 0⟩, ⟨opScan 0, []⟩), (⟨2, 0⟩, ⟨opScan 1, []⟩)]
    rfl rfl rfl rfl
    (by
      intro c hc
      have h1 : c = patLeaf := by
        simpa [patJoinLeaves, CExpression.m_pdrgpexpr] using hc
      subst h1
      exact ⟨rfl, fun _ => rfl⟩)
    rfl
    (List.Forall₂.cons ⟨rfl, rfl⟩ (List.Forall₂.cons ⟨rfl, rfl⟩ List.Forall₂.nil))⟩

/-! ## C7: failure of the first initialization -/

theorem step_eq_root (FMatchPattern : CExpression → CGroupExpression → Bool) (memo : CMemo)
    (extract : GroupCursor) (P : CExpression) (q : PGroupExpression)
    (s : Option CExpression) :
    PexprExtractGroup.step FMatchPattern memo extract P q s
      = PexprExtractRoot FMatchPattern memo extract q P s := by
  unfold PexprExtractGroup.step PexprExtractRoot
  cases hd : memo.deref q with
  | none => rfl
  | some gexpr =>
    by_cases hm : FMatchPattern P gexpr = true
    · simp [hm, PexprExtractRoot, hd]
    · simp [hm]

theorem group_loop_stop
    (step : PGroupExpression → Option CExpression → Except Err (Option CExpression))
    (q : PGroupExpression) (s : Option CExpression) (xs : List PGroupExpression)
    (r : Except Err (Option CExpression)) (h : step q s = r) (hr : r ≠ .ok none) :
    PexprExtractGroup.loop step q s xs = r := by
  subst h
  cases xs with
  | nil =>
    unfold PexprExtractGroup.loop
    cases hstep : step q s with
    | error e => rfl
    | ok o =>
      cases o with
      | none => exact absurd hstep hr
      | some e => rfl
  | cons x xs =>
    unfold PexprExtractGroup.loop
    cases hstep : step q s with
    | error e => rfl
    | ok o =>
      cases o with
      | none => exact absurd hstep hr
      | some e => rfl

theorem group_loop_skip
    (step : PGroupExpression → Option CExpression → Except Err (Option CExpression))
    (q' : PGroupExpression) (xs₂ : List PGroupExpression)
    (r : Except Err (Option CExpression)) (h : step q' none = r) (hr : r ≠ .ok none) :
    ∀ (xs₁ : List PGroupExpression) (q : PGroupExpression) (s : Option CExpression),
      step q s = .ok none → (∀ x ∈ xs₁, step x none = .ok none) →
      PexprExtractGroup.loop step q s (xs₁ ++ q' :: xs₂) = r
  | [], q, s, hq, _ => by
    simp only [List.nil_append, PexprExtractGroup.loop, hq]
    exact group_loop_stop step q' none xs₂ r h hr
  | x :: xs₁, q, s, hq, hx => by
    simp only [List.cons_append, PexprExtractGroup.loop, hq]
    exact group_loop_skip step q' xs₂ r h hr xs₁ x none (hx x (by simp))
      (fun y hy => hx y (by simp [hy]))

theorem group_loop_end
    (step : PGroupExpression → Option CExpression → Except Err (Option CExpression)) :
    ∀ (xs : List PGroupExpression) (q : PGroupExpression) (s : Option CExpression),
      step q s = .ok none → (∀ x ∈ xs, step x none = .ok none) →
      PexprExtractGroup.loop step q s xs = .ok none
  | [], q, s, hq, _ => by simp only [PexprExtractGroup.loop, hq]
  | x :: xs, q, s, hq, hx => by
    simp only [PexprExtractGroup.loop, hq]
    exact group_loop_end step xs x none (hx x (by simp)) (fun y hy => hx y (by simp [hy]))

/-- The group-level call that starts at the group expression `q` of the
cursor (with the previous result `last` when it is rooted at `q`) is the loop
from `q` over the rest of the cursor. -/
theorem group_unfold_at (FMatchPattern : CExpression → CGroupExpression → Bool) (memo : CMemo)
    (fuel pgroup : Nat) (P : CExpression) (hleaf : P.FLeafPattern = false)
    (X₁ X₂ : List PGroupExpression) (q : PGroupExpression)
    (hcur : cursorAfter memo pgroup none = X₁ ++ q :: X₂)
    (last : Option CExpression)
    (hstart : (last = none ∧ X₁ = []) ∨ ∃ l, last = some l ∧ l.Pgexpr = some q) :
    PexprExtractGroup FMatchPattern memo (fuel + 1) pgroup P last
      = PexprExtractGroup.loop
          (PexprExtractGroup.step FMatchPattern memo
            (PexprExtractGroup FMatchPattern memo fuel) P) q last X₂ := by
  have hrest := cursorAfter_split memo pgroup X₁ X₂ q hcur
  rcases hstart with ⟨rfl, rfl⟩ | ⟨l, rfl, hl⟩
  · have hnext : PgexprNext memo pgroup none = some q := by simp [PgexprNext, hcur]
    simp [PexprExtractGroup, hnext, hleaf, hrest]
  · simp [PexprExtractGroup, hl, hleaf, hrest]

/-- C7.  When `PexprExtract` is called on a group expression `p` with no
previous result and a non-leaf pattern, and some child group `g` has no
binding for its expanded child pattern (the child groups before it having a
first binding), the call returns end for that group expression: the children
extracted so far are dropped.  The cursor of the group-level extraction then
moves to the next group expression, at whatever position of the cursor `p`
stands.  A group-level call comes to `p` with no previous result either as
the first call, when the group expressions before `p` have no binding, or as
a call from a previous result `l` rooted at an earlier group expression `q`
that has no binding after `l`, when the group expressions between `q` and `p`
have no binding.  Such a call returns what the first group expression after
`p` that does not return end returns, when extracted with no previous result
(a binding, or the failure of that extraction); it returns end when every
group expression after `p` returns end. -/
theorem C7_first_init_failure
    (FMatchPattern : CExpression → CGroupExpression → Bool) (memo : CMemo)
    (fuel pgroup : Nat) (p : PGroupExpression) (P : CExpression) (gexpr : CGroupExpression)
    (gs₁ : List Nat) (es : List CExpression) (g : Nat) (gs₂ : List Nat)
    (pre rest : List PGroupExpression)
    (hd : memo.deref p = some gexpr) (hleaf : P.FLeafPattern = false)
    (hgs : gexpr.m_pdrgpgroup = gs₁ ++ g :: gs₂)
    (hfirst : FirstBindings (PexprExtractGroup FMatchPattern memo fuel) P gexpr.Arity 0 gs₁ es)
    (hfail : ∃ P', PexprExpandPattern P gs₁.length gexpr.Arity = .ok P' ∧
      PexprExtractGroup FMatchPattern memo fuel g P' none = .ok none)
    (hcur : cursorAfter memo pgroup none = pre ++ p :: rest) :
    PexprExtract FMatchPattern memo fuel p P none = .ok none ∧
      ∀ (last : Option CExpression) (skipped : List PGroupExpression),
        ((last = none ∧ skipped = pre) ∨
          ∃ l q pre₀, last = some l ∧ l.Pgexpr = some q ∧ pre = pre₀ ++ q :: skipped ∧
            PexprExtract FMatchPattern memo fuel q P (some l) = .ok none) →
        (∀ q ∈ skipped, PexprExtract FMatchPattern memo fuel q P none = .ok none) →
        (∀ rest₁ q' rest₂ r, rest = rest₁ ++ q' :: rest₂ →
            (∀ q ∈ rest₁, PexprExtract FMatchPattern memo fuel q P none = .ok none) →
            PexprExtract FMatchPattern memo fuel q' P none = r → r ≠ .ok none →
            PexprExtractGroup FMatchPattern memo (fuel + 1) pgroup P last = r) ∧
          ((∀ q ∈ rest, PexprExtract FMatchPattern memo fuel q P none = .ok none) →
            PexprExtractGroup FMatchPattern memo (fuel + 1) pgroup P last = .ok none) := by
  have hloop := init_loop_fail (PexprExtractGroup FMatchPattern memo fuel) P gexpr.Arity g gs₂
    gs₁ es 0 [] hfirst (by simpa using hfail)
  rw [← hgs] at hloop
  have h0 : ¬ gexpr.Arity = 0 := by simp [CGroupExpression.Arity, hgs]
  have hroot : PexprExtractRoot FMatchPattern memo (PexprExtractGroup FMatchPattern memo fuel)
      p P none = .ok none := by
    by_cases hm : FMatchPattern P gexpr = true
    · by_cases har : gexpr.Arity < P.Arity
      · simp [PexprExtractRoot, hd, hm, hleaf, FExtractChildren, har]
      · simp [PexprExtractRoot, hd, hm, hleaf, h0, FExtractChildren, har, FAdvanceChildCursors,
          FInitChildCursors, hloop]
    · simp [PexprExtractRoot, hd, hm]
  refine ⟨hroot, ?_⟩
  intro last skipped hstart hskip
  -- the loop starts at `q₀` and runs over `mid ++ p :: rest`, where `q₀` and
  -- the members of `mid` return end
  have key : ∃ (q₀ : PGroupExpression) (mid : List PGroupExpression),
      PexprExtractGroup FMatchPattern memo (fuel + 1) pgroup P last
        = PexprExtractGroup.loop
            (PexprExtractGroup.step FMatchPattern memo
              (PexprExtractGroup FMatchPattern memo fuel) P) q₀ last (mid ++ rest) ∧
      PexprExtractGroup.step FMatchPattern memo
          (PexprExtractGroup FMatchPattern memo fuel) P q₀ last = .ok none ∧
      ∀ x ∈ mid, PexprExtractGroup.step FMatchPattern memo
          (PexprExtractGroup FMatchPattern memo fuel) P x none = .ok none := by
    rcases hstart with ⟨rfl, rfl⟩ | ⟨l, q, pre₀, rfl, hl, rfl, hq⟩
    · cases skipped with
      | nil =>
        refine ⟨p, [], ?_, ?_, by simp⟩
        · exact group_unfold_at FMatchPattern memo fuel pgroup P hleaf [] rest p
            (by simpa using hcur) none (Or.inl ⟨rfl, rfl⟩)
        · rw [step_eq_root]
          exact hroot
      | cons a pre' =>
        refine ⟨a, pre' ++ [p], ?_, ?_, ?_⟩
        · have := group_unfold_at FMatchPattern memo fuel pgroup P hleaf [] (pre' ++ p :: rest) a
            (by simpa using hcur) none (Or.inl ⟨rfl, rfl⟩)
          simpa using this
        · rw [step_eq_root]
          exact hskip a (by simp)
        · intro x hx
          rw [step_eq_root]
          simp only [List.mem_append, List.mem_singleton] at hx
          rcases hx with hx | rfl
          · exact hskip x (by simp [hx])
          · exact hroot
    · refine ⟨q, skipped ++ [p], ?_, ?_, ?_⟩
      · have := group_unfold_at FMatchPattern memo fuel pgroup P hleaf pre₀
          (skipped ++ p :: rest) q (by simpa using hcur) (some l) (Or.inr ⟨l, rfl, hl⟩)
        simpa using this
      · rw [step_eq_root]
        exact hq
      · intro x hx
        rw [step_eq_root]
        simp only [List.mem_append, List.mem_singleton] at hx
        rcases hx with hx | rfl
        · exact hskip x hx
        · exact hroot
  obtain ⟨q₀, mid, hcall, hq₀, hmid⟩ := key
  constructor
  · intro rest₁ q' rest₂ r hrest hr₁ hq' hne
    rw [hcall, hrest, ← List.append_assoc]
    apply group_loop_skip _ q' rest₂ r (by rw [step_eq_root]; exact hq') hne (mid ++ rest₁) q₀
      last hq₀
    intro x hx
    rw [List.mem_append] at hx
    rcases hx with hx | hx
    · exact hmid x hx
    · rw [step_eq_root]
      exact hr₁ x hx
  · intro hall
    rw [hcall]
    apply group_loop_end _ (mid ++ rest) q₀ last hq₀
    intro x hx
    rw [List.mem_append] at hx
    rcases hx with hx | hx
    · exact hmid x hx
    · rw [step_eq_root]
      exact hall x hx

/-- C7, witness: the pattern `Join(Join(leaf, leaf), leaf)`.  In group 8 of
the mixed memo the join at position 3 has the scan group 1 as first child,
which has no binding for `Join(leaf, leaf)`: extraction at it returns end, and
the group-level call from the binding of the join at position 1 moves past it
to the join at position 4 and returns its binding.  The join at position 5,
the last of the cursor, fails in the same way and the group-level call from
the binding of position 4 returns end.  In group 9 of the example memo the
failing join is the first of the cursor, and the first group-level call
returns the binding of the second join. -/
theorem C7_first_init_failure_witness :
    cursorAfter exampleMemoMixed 8 none = [⟨8, 0⟩, ⟨8, 1⟩] ++ ⟨8, 3⟩ :: [⟨8, 4⟩, ⟨8, 5⟩] ∧
      exampleMemoMixed.deref ⟨8, 3⟩ = some ⟨opJoin, [1, 2]⟩ ∧
      PexprExtract FMatchPatternSpec exampleMemoMixed 2 ⟨8, 3⟩ patJoinNested none = .ok none ∧
      PexprExtractGroup FMatchPatternSpec exampleMemoMixed (2 + 1) 8 patJoinNested
          (some (exprJoin8 1 exprJoin3 (exprScan 1 2 0)))
        = .ok (some (exprJoin8 4 exprJoin3 (exprScan 0 1 0))) ∧
      PexprExtractGroup FMatchPatternSpec exampleMemoMixed (2 + 1) 8 patJoinNested
          (some (exprJoin8 4 exprJoin3 (exprScan 0 1 0)))
        = .ok none ∧
      PexprExtractGroup FMatchPatternSpec exampleMemo (2 + 1) 9 patJoinNested none
        = .ok (some (.mk opJoin (some ⟨9, 1⟩) [exprJoin3, exprScan 1 2 0])) :=
  ⟨rfl, rfl,
    (C7_first_init_failure FMatchPatternSpec exampleMemoMixed 2 8 ⟨8, 3⟩ patJoinNested
      ⟨opJoin, [1, 2]⟩ [] [] 1 [2] [⟨8, 0⟩, ⟨8, 1⟩] [⟨8, 4⟩, ⟨8, 5⟩] rfl rfl rfl trivial
      ⟨patJoinLeaves, rfl, rfl⟩ rfl).1,
    ((C7_first_init_failure FMatchPatternSpec exampleMemoMixed 2 8 ⟨8, 3⟩ patJoinNested
      ⟨opJoin, [1, 2]⟩ [] [] 1 [2] [⟨8, 0⟩, ⟨8, 1⟩] [⟨8, 4⟩, ⟨8, 5⟩] rfl rfl rfl trivial
      ⟨patJoinLeaves, rfl, rfl⟩ rfl).2
      (some (exprJoin8 1 exprJoin3 (exprScan 1 2 0))) []
      (Or.inr ⟨exprJoin8 1 exprJoin3 (exprScan 1 2 0), ⟨8, 1⟩, [⟨8, 0⟩], rfl, rfl, rfl, rfl⟩)
      (by simp)).1 [] ⟨8, 4⟩ [⟨8, 5⟩] _ rfl (by simp) rfl (by simp),
    ((C7_first_init_failure FMatchPatternSpec exampleMemoMixed 2 8 ⟨8, 5⟩ patJoinNested
      ⟨opJoin, [4, 2]⟩ [] [] 4 [2] [⟨8, 0⟩, ⟨8, 1⟩, ⟨8, 3⟩, ⟨8, 4⟩] [] rfl rfl rfl trivial
      ⟨patJoinLeaves, rfl, rfl⟩ rfl).2
      (some (exprJoin8 4 exprJoin3 (exprScan 0 1 0))) []
      (Or.inr ⟨exprJoin8 4 exprJoin3 (exprScan 0 1 0), ⟨8, 4⟩, [⟨8, 0⟩, ⟨8, 1⟩, ⟨8, 3⟩],
        rfl, rfl, rfl, rfl⟩)
      (by simp)).2 (by simp),
    ((C7_first_init_failure FMatchPatternSpec exampleMemo 2 9 ⟨9, 0⟩ patJoinNested
      ⟨opJoin, [1, 2]⟩ [] [] 1 [2] [] [⟨9, 1⟩] rfl rfl rfl trivial
      ⟨patJoinLeaves, rfl, rfl⟩ rfl).2 none [] (Or.inl ⟨rfl, rfl⟩) (by simp)).1
      [] ⟨9, 1⟩ [] _ rfl (by simp) rfl (by simp)⟩

/-! ## C8: pattern expansion -/

/-- C8.  For a position `ulPos < arity`, `PexprExpandPattern` returns (a) the
pattern itself when its root is a tree or multi-tree wildcard; otherwise (b)
when the first child of the pattern is a multi-node wildcard, that first child
for every position except the last and the last child of the pattern for
position `arity - 1`; otherwise (c) the pattern child at index `ulPos`. -/
theorem C8_expand_pattern (P : CExpression) (ulPos arity : Nat) (h : ulPos < arity) :
    ((P.Pop.Eopid = .EopPatternTree ∨ P.Pop.Eopid = .EopPatternMultiTree) →
        PexprExpandPattern P ulPos arity = .ok P) ∧
      (¬ (P.Pop.Eopid = .EopPatternTree ∨ P.Pop.Eopid = .EopPatternMultiTree) →
        ∀ first, P.m_pdrgpexpr.head? = some first → first.Pop.FMultiNode = true →
          (ulPos ≠ arity - 1 → PexprExpandPattern P ulPos arity = .ok first) ∧
          (ulPos = arity - 1 →
            ∃ lastChild, P.m_pdrgpexpr.getLast? = some lastChild ∧
              PexprExpandPattern P ulPos arity = .ok lastChild)) ∧
      (¬ (P.Pop.Eopid = .EopPatternTree ∨ P.Pop.Eopid = .EopPatternMultiTree) →
        (∀ first, P.m_pdrgpexpr.head? = some first → first.Pop.FMultiNode = false) →
          PexprExpandPattern P ulPos arity = P.child ulPos) := by
  have hpred : ulongPred arity = arity - 1 := by
    unfold ulongPred
    rw [if_neg (by omega)]
  refine ⟨?_, ?_, ?_⟩
  · intro ht
    simp [PexprExpandPattern, ht]
  · intro ht first hfirst hmn
    constructor
    · intro hne
      simp [PexprExpandPattern, ht, hfirst, hmn, hpred, hne]
    · intro heq
      cases hch : P.m_pdrgpexpr with
      | nil => simp [hch] at hfirst
      | cons x xs =>
        have hne : x :: xs ≠ [] := by simp
        refine ⟨(x :: xs).getLast hne, List.getLast?_eq_getLast _ hne, ?_⟩
        have hlen : P.Arity - 1 < (x :: xs).length := by
          simp [CExpression.Arity, hch]
        have hget : (x :: xs).get? (P.Arity - 1) = some ((x :: xs).getLast hne) := by
          rw [List.getLast_eq_getElem, List.get?_eq_getElem?, List.getElem?_eq_getElem hlen]
          simp [CExpression.Arity, hch]
        rw [hch] at hfirst
        simp only [List.head?_cons, Option.some.injEq] at hfirst
        subst hfirst
        simp only [PexprExpandPattern, ht, if_false, hmn, if_true, hpred, heq,
          CExpression.child, hch, hget, List.head?_cons]
  · intro ht hno
    unfold PexprExpandPattern
    rw [if_neg ht]
    cases hfirst : P.m_pdrgpexpr.head? with
    | none => rfl
    | some first => simp [hno first hfirst]

/-- C8, witness: position 1 of 2 of the pattern `Join(leaf, leaf)` is its
second child. -/
theorem C8_expand_pattern_witness :
    (1 < 2) ∧ PexprExpandPattern patJoinLeaves 1 2 = patJoinLeaves.child 1 :=
  ⟨by decide, (C8_expand_pattern patJoinLeaves 1 2 (by decide)).2.2 (by decide)
    (by
      intro first hfirst
      have h1 : first = patLeaf := by
        simpa [patJoinLeaves, CExpression.m_pdrgpexpr] using hfirst.symm
      subst h1
      rfl)⟩

end CBinding
end gpopt

namespace gpopt
namespace CConstraintDisjunction

/-! ## C9: contradiction of a disjunction -/

theorem FContradiction_loop_eq {C : Type} (ops : CConstraintOps C) :
    ∀ (l : List C) (f : Bool), FContradiction.loop ops l f = (f && l.all ops.FContradiction)
  | [], f => by simp [FContradiction.loop]
  | c :: rest, f => by
    cases f with
    | true => simp [FContradiction.loop, FContradiction_loop_eq ops rest]
    | false => simp [FContradiction.loop]

/-- C9.  `FContradiction` of a disjunction is true if and only if every child
constraint reports contradiction; the short-circuiting loop returns the same
value as evaluating all children; it is false as soon as one child is
satisfiable, and in particular for two children of which one is contradictory
and the other is not. -/
theorem C9_disjunction_contradiction {C : Type} (ops : CConstraintOps C)
    (d : CConstraintDisjunction C) :
    (FContradiction ops d = true ↔ ∀ c ∈ d.m_pdrgpcnstr, ops.FContradiction c = true) ∧
      FContradiction ops d = d.m_pdrgpcnstr.all ops.FContradiction ∧
      ((∃ c ∈ d.m_pdrgpcnstr, ops.FContradiction c = false) → FContradiction ops d = false) ∧
      (∀ c₁ c₂, d.m_pdrgpcnstr = [c₁, c₂] → ops.FContradiction c₁ = true →
        ops.FContradiction c₂ = false → FContradiction ops d = false) := by
  have h : FContradiction ops d = d.m_pdrgpcnstr.all ops.FContradiction := by
    simp [FContradiction, FContradiction_loop_eq]
  refine ⟨by simp [h], h, ?_, ?_⟩
  · rintro ⟨c, hc, hf⟩
    rw [h, List.all_eq_false]
    exact ⟨c, hc, by simp [hf]⟩
  · intro c₁ c₂ hd h1 h2
    simp [h, hd, h1, h2]

/-- C9, witness: a disjunction of a contradictory and a satisfiable
constraint is not a contradiction. -/
theorem C9_disjunction_contradiction_witness :
    FContradiction ExampleConstraint.ops
        (ctor ExampleConstraint.ops
          [.interval [1] true false false, .interval [1] false false false]) = false :=
  (C9_disjunction_contradiction ExampleConstraint.ops
    (ctor ExampleConstraint.ops
      [.interval [1] true false false, .interval [1] false false false])).2.2.2
    _ _ rfl rfl rfl

/-! ## C10: constraint on a column that only some children mention -/

/-- C10.  For a disjunction and a column mentioned by at least one but not by
all of its children, `Pcnstr(mp, colref)` returns the unbounded interval on
that column that includes null. -/
theorem C10_column_lookup_partial_mention {C : Type} (ops : CConstraintOps C)
    (pdrgpcnstr : List C) (colref : CColRef)
    (hsome : ∃ c ∈ (ctor ops pdrgpcnstr).m_pdrgpcnstr, (ops.PcrsUsed c).contains colref = true)
    (hnot : ∃ c ∈ (ctor ops pdrgpcnstr).m_pdrgpcnstr, (ops.PcrsUsed c).contains colref = false) :
    Pcnstr ops (ctor ops pdrgpcnstr) colref = some (ops.PciUnbounded colref true) := by
  obtain ⟨c₁, hc₁, h₁⟩ := hsome
  obtain ⟨c₂, hc₂, h₂⟩ := hnot
  simp only [ctor] at hc₁ hc₂
  have hlt : ((ops.PdrgpcnstrFlatten pdrgpcnstr).filter
      fun pcnstr => (ops.PcrsUsed pcnstr).contains colref).length
      < (ops.PdrgpcnstrFlatten pdrgpcnstr).length := by
    apply List.length_filter_lt_length_iff_exists.mpr
    refine ⟨c₂, hc₂, ?_⟩
    show ¬ ((ops.PcrsUsed c₂).contains colref = true)
    rw [h₂]
    exact Bool.false_ne_true
  have hmem : c₁ ∈ (ops.PdrgpcnstrFlatten pdrgpcnstr).filter
      fun pcnstr => (ops.PcrsUsed pcnstr).contains colref :=
    List.mem_filter.mpr ⟨hc₁, h₁⟩
  cases hf : (ops.PdrgpcnstrFlatten pdrgpcnstr).filter
      fun pcnstr => (ops.PcrsUsed pcnstr).contains colref with
  | nil =>
    rw [hf] at hmem
    cases hmem
  | cons x xs =>
    rw [hf] at hlt
    simp only [Pcnstr, ctor, Phmcolconstr, hf]
    rw [if_pos (by omega)]

/-- C10, witness: three disjuncts of which only two mention column 1; the
result is the unbounded interval and not a disjunction. -/
theorem C10_column_lookup_partial_mention_witness :
    Pcnstr ExampleConstraint.ops
        (ctor ExampleConstraint.ops
          [.interval [1] false false false, .interval [2] false false false,
            .interval [1, 2] false false false]) 1
      = some (ExampleConstraint.ops.PciUnbounded 1 true) :=
  C10_column_lookup_partial_mention ExampleConstraint.ops
    [.interval [1] false false false, .interval [2] false false false,
      .interval [1, 2] false false false] 1
    ⟨.interval [1] false false false, by simp [ctor, ExampleConstraint.ops], rfl⟩
    ⟨.interval [2] false false false, by simp [ctor, ExampleConstraint.ops], rfl⟩

end CConstraintDisjunction
end gpopt

namespace gpopt
namespace CConstraintDisjunction

/-! ## The index of a disjunction -/

theorem Phmcolconstr_all {C : Type} (ops : CConstraintOps C) (l : List C) (colref : CColRef)
    (hne : l ≠ []) (hall : ∀ c ∈ l, (ops.PcrsUsed c).contains colref = true) :
    Phmcolconstr ops l colref = some l := by
  have hf : (l.filter fun pcnstr => (ops.PcrsUsed pcnstr).contains colref) = l :=
    List.filter_eq_self.mpr hall
  unfold Phmcolconstr
  rw [hf]
  cases l with
  | nil => exact absurd rfl hne
  | cons c rest => rfl

theorem Phmcolconstr_none {C : Type} (ops : CConstraintOps C) (l : List C) (colref : CColRef)
    (hno : ∀ c ∈ l, (ops.PcrsUsed c).contains colref = false) :
    Phmcolconstr ops l colref = none := by
  have hf : (l.filter fun pcnstr => (ops.PcrsUsed pcnstr).contains colref) = [] := by
    apply List.filter_eq_nil_iff.mpr
    intro c hc
    rw [hno c hc]
    exact Bool.false_ne_true
  unfold Phmcolconstr
  rw [hf]

theorem Pcnstr_loop_bounded {C : Type} (ops : CConstraintOps C) (colref : CColRef) :
    ∀ (l acc : List C),
      (∀ c ∈ l, ops.IsConstraintUnbounded
          ((ops.Pcnstr c colref).getD (ops.PciUnbounded colref true)) = false) →
      Pcnstr.loop ops colref l acc
        = ops.PcnstrDisjunction
            (acc ++ l.map fun c => (ops.Pcnstr c colref).getD (ops.PciUnbounded colref true))
  | [], acc, _ => by simp [Pcnstr.loop]
  | c :: rest, acc, h => by
    have hc : ops.IsConstraintUnbounded
        ((ops.Pcnstr c colref).getD (ops.PciUnbounded colref true)) = false :=
      h c (by simp)
    have ih := Pcnstr_loop_bounded ops colref rest
      (acc ++ [(ops.Pcnstr c colref).getD (ops.PciUnbounded colref true)])
      (fun c' hc' => h c' (by simp [hc']))
    simp [Pcnstr.loop, hc, ih]

theorem Pcnstr_loop_unbounded {C : Type} (ops : CConstraintOps C) (colref : CColRef) :
    ∀ (pre : List C) (c : C) (post acc : List C),
      (∀ c' ∈ pre, ops.IsConstraintUnbounded
          ((ops.Pcnstr c' colref).getD (ops.PciUnbounded colref true)) = false) →
      ops.IsConstraintUnbounded
          ((ops.Pcnstr c colref).getD (ops.PciUnbounded colref true)) = true →
      Pcnstr.loop ops colref (pre ++ c :: post) acc
        = (ops.Pcnstr c colref).getD (ops.PciUnbounded colref true)
  | [], c, post, acc, _, hc => by simp [Pcnstr.loop, hc]
  | c₀ :: pre, c, post, acc, h, hc => by
    have h0 : ops.IsConstraintUnbounded
        ((ops.Pcnstr c₀ colref).getD (ops.PciUnbounded colref true)) = false :=
      h c₀ (by simp)
    have ih := Pcnstr_loop_unbounded ops colref pre c post
      (acc ++ [(ops.Pcnstr c₀ colref).getD (ops.PciUnbounded colref true)])
      (fun c' hc' => h c' (by simp [hc'])) hc
    simp [Pcnstr.loop, h0, ih]

theorem PcnstrSet_loop_none_disjoint {C : Type} (ops : CConstraintOps C) (pcrs : CColRefSet) :
    ∀ (l acc : List C), (∀ c ∈ l, (ops.PcrsUsed c).IsDisjoint pcrs = false) →
      PcnstrSet.loop ops pcrs l acc
        = ops.PcnstrDisjunction
            (acc ++ l.map fun c => (ops.PcnstrSet c pcrs).getD (ops.PciUnboundedSet pcrs true))
  | [], acc, _ => by simp [PcnstrSet.loop]
  | c :: rest, acc, h => by
    have hc : (ops.PcrsUsed c).IsDisjoint pcrs = false := h c (by simp)
    have ih := PcnstrSet_loop_none_disjoint ops pcrs rest
      (acc ++ [(ops.PcnstrSet c pcrs).getD (ops.PciUnboundedSet pcrs true)])
      (fun c' hc' => h c' (by simp [hc']))
    simp [PcnstrSet.loop, hc, ih]

theorem PcnstrSet_loop_some_disjoint {C : Type} (ops : CConstraintOps C) (pcrs : CColRefSet) :
    ∀ (l acc : List C), (∃ c ∈ l, (ops.PcrsUsed c).IsDisjoint pcrs = true) →
      PcnstrSet.loop ops pcrs l acc = ops.PciUnboundedSet pcrs true
  | [], acc, h => by simp at h
  | c :: rest, acc, h => by
    by_cases hc : (ops.PcrsUsed c).IsDisjoint pcrs = true
    · simp [PcnstrSet.loop, hc]
    · have h1 : ∃ c' ∈ rest, (ops.PcrsUsed c').IsDisjoint pcrs = true := by
        obtain ⟨c', hc', hd⟩ := h
        simp only [List.mem_cons] at hc'
        rcases hc' with rfl | hc'
        · exact absurd hd hc
        · exact ⟨c', hc', hd⟩
      have ih := PcnstrSet_loop_some_disjoint ops pcrs rest
        (acc ++ [(ops.PcnstrSet c pcrs).getD (ops.PciUnboundedSet pcrs true)]) h1
      simp [PcnstrSet.loop, hc, ih]

theorem copy_loop_eq {C : Type} (ops : CConstraintOps C) (m : UlongToColRefMap) (b : Bool) :
    ∀ (l acc : List C),
      PcnstrCopyWithRemappedColumns.loop ops m b l acc
        = acc ++ l.map fun c => ops.PcnstrCopyWithRemappedColumns c m b
  | [], acc => by simp [PcnstrCopyWithRemappedColumns.loop]
  | c :: rest, acc => by
    simp [PcnstrCopyWithRemappedColumns.loop, copy_loop_eq ops m b rest]

end CConstraintDisjunction
end gpopt

namespace gpopt
namespace CConstraintDisjunction

/-! ## C11: constraint on a column that all children mention -/

/-- C11, counterexample.  Both children of the disjunction mention column 1,
and the constraint of the first child on the column is unbounded; the lookup
returns that unbounded constraint of the first child, and not the disjunction
of the constraints of the two children on the column. -/
theorem C11_counterexample_unbounded_child :
    (∀ c ∈ (ctor ExampleConstraint.ops
        [.interval [1] false true false, .interval [1] false false false]).m_pdrgpcnstr,
        (ExampleConstraint.ops.PcrsUsed c).contains 1 = true) ∧
      ExampleConstraint.ops.Pcnstr (.interval [1] false true false) 1
        = some (.interval [1] false true false) ∧
      ExampleConstraint.ops.Pcnstr (.interval [1] false false false) 1
        = some (.interval [1] false false false) ∧
      Pcnstr ExampleConstraint.ops
          (ctor ExampleConstraint.ops
            [.interval [1] false true false, .interval [1] false false false]) 1
        = some (.interval [1] false true false) ∧
      ExampleConstraint.interval [1] false true false
        ≠ ExampleConstraint.ops.PcnstrDisjunction
            [.interval [1] false true false, .interval [1] false false false] := by
  refine ⟨?_, rfl, rfl, rfl, by decide⟩
  intro c hc
  simp only [ctor, ExampleConstraint.ops, List.mem_cons, List.mem_singleton,
    List.not_mem_nil, or_false] at hc
  rcases hc with rfl | rfl <;> rfl

/-- C11, as amended.  For a disjunction with at least one child and a column
mentioned by all of its children, `Pcnstr(mp, colref)` takes the children in
order, and for each child its constraint on the column, `ops.Pcnstr c colref`,
with a null result replaced by the unbounded interval on the column that
includes null, `ops.PciUnbounded colref true`.  If none of these is unbounded
it constructs and returns their disjunction, in child order; otherwise it
returns the first of them that is unbounded, and builds no disjunction. -/
theorem C11_column_lookup_all_mention {C : Type} (ops : CConstraintOps C)
    (pdrgpcnstr : List C) (colref : CColRef)
    (hne : (ctor ops pdrgpcnstr).m_pdrgpcnstr ≠ [])
    (hall : ∀ c ∈ (ctor ops pdrgpcnstr).m_pdrgpcnstr,
      (ops.PcrsUsed c).contains colref = true) :
    ((∀ c ∈ (ctor ops pdrgpcnstr).m_pdrgpcnstr,
          ops.IsConstraintUnbounded
            ((ops.Pcnstr c colref).getD (ops.PciUnbounded colref true)) = false) →
        Pcnstr ops (ctor ops pdrgpcnstr) colref
          = some (ops.PcnstrDisjunction
              ((ctor ops pdrgpcnstr).m_pdrgpcnstr.map fun c =>
                (ops.Pcnstr c colref).getD (ops.PciUnbounded colref true)))) ∧
      ∀ pre c post, (ctor ops pdrgpcnstr).m_pdrgpcnstr = pre ++ c :: post →
        (∀ c' ∈ pre, ops.IsConstraintUnbounded
            ((ops.Pcnstr c' colref).getD (ops.PciUnbounded colref true)) = false) →
        ops.IsConstraintUnbounded
            ((ops.Pcnstr c colref).getD (ops.PciUnbounded colref true)) = true →
        Pcnstr ops (ctor ops pdrgpcnstr) colref
          = some ((ops.Pcnstr c colref).getD (ops.PciUnbounded colref true)) := by
  have hidx : (ctor ops pdrgpcnstr).m_phmcolconstr colref
      = some (ctor ops pdrgpcnstr).m_pdrgpcnstr :=
    Phmcolconstr_all ops _ colref hne hall
  have hP : Pcnstr ops (ctor ops pdrgpcnstr) colref
      = some (Pcnstr.loop ops colref (ctor ops pdrgpcnstr).m_pdrgpcnstr []) := by
    simp only [Pcnstr, hidx]
    rw [if_neg (by simp)]
  constructor
  · intro hb
    rw [hP, Pcnstr_loop_bounded ops colref _ [] hb]
    simp
  · intro pre c post hsplit hpre hc
    rw [hP, hsplit, Pcnstr_loop_unbounded ops colref pre c post [] hpre hc]

/-- C11, witness.  With the restricting operations, two bounded intervals over
columns `[1, 2]` and `[1, 3]` give the disjunction of their restrictions to
column 1, which are not the children themselves.  When the second child is a
disjunction over `[1, 2]`, which mentions column 1 and returns the null
pointer for its constraint on the column, the null pointer is replaced by the
unbounded interval on column 1, and that interval is the result. -/
theorem C11_column_lookup_all_mention_witness :
    Pcnstr ExampleConstraint.opsRestrict
        (ctor ExampleConstraint.opsRestrict
          [.interval [1, 2] false false false, .interval [1, 3] true false false]) 1
      = some (.disjunction [1, 1] false) ∧
    ExampleConstraint.opsRestrict.PcnstrDisjunction
        [.interval [1] false false false, .interval [1] true false false]
      = .disjunction [1, 1] false ∧
    ExampleConstraint.opsRestrict.Pcnstr (.disjunction [1, 2] false) 1 = none ∧
    Pcnstr ExampleConstraint.opsRestrict
        (ctor ExampleConstraint.opsRestrict
          [.interval [1, 2] false false false, .disjunction [1, 2] false]) 1
      = some (.interval [1] false true true) :=
  ⟨(C11_column_lookup_all_mention ExampleConstraint.opsRestrict
    [.interval [1, 2] false false false, .interval [1, 3] true false false] 1
    (by simp [ctor, ExampleConstraint.opsRestrict, ExampleConstraint.ops])
    (by
      intro c hc
      simp only [ctor, ExampleConstraint.opsRestrict, ExampleConstraint.ops, List.mem_cons,
        List.mem_singleton, List.not_mem_nil, or_false] at hc
      rcases hc with rfl | rfl <;> rfl)).1
    (by
      intro c hc
      simp only [ctor, ExampleConstraint.opsRestrict, ExampleConstraint.ops, List.mem_cons,
        List.mem_singleton, List.not_mem_nil, or_false] at hc
      rcases hc with rfl | rfl <;> rfl),
   rfl, rfl,
   (C11_column_lookup_all_mention ExampleConstraint.opsRestrict
    [.interval [1, 2] false false false, .disjunction [1, 2] false] 1
    (by simp [ctor, ExampleConstraint.opsRestrict, ExampleConstraint.ops])
    (by
      intro c hc
      simp only [ctor, ExampleConstraint.opsRestrict, ExampleConstraint.ops, List.mem_cons,
        List.mem_singleton, List.not_mem_nil, or_false] at hc
      rcases hc with rfl | rfl <;> rfl)).2
    [.interval [1, 2] false false false] (.disjunction [1, 2] false) [] rfl
    (by
      intro c hc
      simp only [List.mem_singleton] at hc
      subst hc
      rfl)
    rfl⟩

/-! ## C12: constraint on a column that no child mentions -/

/-- C12.  For a disjunction and a column that no child mentions, the column
has no entry in the index of the disjunction and `Pcnstr(mp, colref)` returns
no constraint at all (the null pointer); more generally it returns the null
pointer for every column without an entry in the index. -/
theorem C12_column_lookup_no_mention {C : Type} (ops : CConstraintOps C)
    (pdrgpcnstr : List C) (colref : CColRef) :
    ((∀ c ∈ (ctor ops pdrgpcnstr).m_pdrgpcnstr, (ops.PcrsUsed c).contains colref = false) →
        (ctor ops pdrgpcnstr).m_phmcolconstr colref = none ∧
          Pcnstr ops (ctor ops pdrgpcnstr) colref = none) ∧
      ∀ d : CConstraintDisjunction C, d.m_phmcolconstr colref = none →
        Pcnstr ops d colref = none := by
  have hgen : ∀ d : CConstraintDisjunction C, d.m_phmcolconstr colref = none →
      Pcnstr ops d colref = none := by
    intro d hd
    simp [Pcnstr, hd]
  refine ⟨?_, hgen⟩
  intro hno
  have hidx : (ctor ops pdrgpcnstr).m_phmcolconstr colref = none :=
    Phmcolconstr_none ops _ colref hno
  exact ⟨hidx, hgen _ hidx⟩

/-- C12, witness: a disjunction over columns 1 and 2 has no constraint on
column 3. -/
theorem C12_column_lookup_no_mention_witness :
    Pcnstr ExampleConstraint.ops
        (ctor ExampleConstraint.ops
          [.interval [1] false false false, .interval [2] false false false]) 3 = none :=
  ((C12_column_lookup_no_mention ExampleConstraint.ops
    [.interval [1] false false false, .interval [2] false false false] 3).1
    (by
      intro c hc
      simp only [ctor, ExampleConstraint.ops, List.mem_cons, List.mem_singleton,
        List.not_mem_nil, or_false] at hc
      rcases hc with rfl | rfl <;> rfl)).2

/-! ## C13: constraint on a column set -/

/-- C13.  For a disjunction and a column set, `Pcnstr(mp, pcrs)` returns the
unbounded constraint on the set that includes null,
`ops.PciUnboundedSet pcrs true`, if the used columns of some child are
disjoint from the set; otherwise it returns the disjunction, in child order,
of the constraint of each child on the set, `ops.PcnstrSet c pcrs`, the null
constraint of a child being replaced by the unbounded constraint on the set
that includes null. -/
theorem C13_column_set_lookup {C : Type} (ops : CConstraintOps C)
    (d : CConstraintDisjunction C) (pcrs : CColRefSet) :
    ((∃ c ∈ d.m_pdrgpcnstr, (ops.PcrsUsed c).IsDisjoint pcrs = true) →
        PcnstrSet ops d pcrs = ops.PciUnboundedSet pcrs true) ∧
      ((∀ c ∈ d.m_pdrgpcnstr, (ops.PcrsUsed c).IsDisjoint pcrs = false) →
        PcnstrSet ops d pcrs
          = ops.PcnstrDisjunction (d.m_pdrgpcnstr.map fun c =>
              (ops.PcnstrSet c pcrs).getD (ops.PciUnboundedSet pcrs true))) := by
  constructor
  · intro h
    exact PcnstrSet_loop_some_disjoint ops pcrs _ [] h
  · intro h
    rw [PcnstrSet, PcnstrSet_loop_none_disjoint ops pcrs _ [] h]
    simp

/-- C13, witness.  With the column set `[1]` and the restricting operations:
a disjunction one of whose children only uses column 2 gives the unbounded
constraint on the set; a disjunction of an interval over `[1, 2]` and of a
child over `[1, 3]` that returns the null pointer for its constraint on the
set gives the disjunction of the restriction of the interval to column 1 and
of the unbounded constraint on the set, in this order. -/
theorem C13_column_set_lookup_witness :
    PcnstrSet ExampleConstraint.opsRestrict
        (ctor ExampleConstraint.opsRestrict
          [.interval [1] false false false, .interval [2] false false false]) [1]
      = .interval [1] false true true ∧
    ExampleConstraint.opsRestrict.PcnstrSet (.interval [1, 2] false false false) [1]
      = some (.interval [1] false false false) ∧
    ExampleConstraint.opsRestrict.PcnstrSet (.disjunction [1, 3] false) [1] = none ∧
    PcnstrSet ExampleConstraint.opsRestrict
        (ctor ExampleConstraint.opsRestrict
          [.interval [1, 2] false false false, .disjunction [1, 3] false]) [1]
      = ExampleConstraint.opsRestrict.PcnstrDisjunction
          [.interval [1] false false false, .interval [1] false true true] :=
  ⟨(C13_column_set_lookup ExampleConstraint.opsRestrict
    (ctor ExampleConstraint.opsRestrict
      [.interval [1] false false false, .interval [2] false false false]) [1]).1
    ⟨.interval [2] false false false,
      by simp [ctor, ExampleConstraint.opsRestrict, ExampleConstraint.ops], rfl⟩,
   rfl, rfl,
   (C13_column_set_lookup ExampleConstraint.opsRestrict
    (ctor ExampleConstraint.opsRestrict
      [.interval [1, 2] false false false, .disjunction [1, 3] false]) [1]).2
    (by
      intro c hc
      simp only [ctor, ExampleConstraint.opsRestrict, ExampleConstraint.ops, List.mem_cons,
        List.mem_singleton, List.not_mem_nil, or_false] at hc
      rcases hc with rfl | rfl <;> rfl)⟩

/-! ## C14: copy with remapped columns -/

/-- C14.  For a disjunction with children `c_0, ..., c_(n-1)`, a column
mapping and a flag, `PcnstrCopyWithRemappedColumns` returns the disjunction
constructed from exactly the `n` remapped copies of the children, in the
original order.  (The function of the embedding has no other result: the
disjunction it is called on and its children are not changed.) -/
theorem C14_remapped_copy {C : Type} (ops : CConstraintOps C)
    (d : CConstraintDisjunction C) (colref_mapping : UlongToColRefMap) (must_exist : Bool) :
    PcnstrCopyWithRemappedColumns ops d colref_mapping must_exist
        = ctor ops (d.m_pdrgpcnstr.map fun c =>
            ops.PcnstrCopyWithRemappedColumns c colref_mapping must_exist) ∧
      (PcnstrCopyWithRemappedColumns.loop ops colref_mapping must_exist
          d.m_pdrgpcnstr []).length = d.m_pdrgpcnstr.length ∧
      ∀ i : Nat, (PcnstrCopyWithRemappedColumns.loop ops colref_mapping must_exist
          d.m_pdrgpcnstr [])[i]?
        = d.m_pdrgpcnstr[i]?.map fun c =>
            ops.PcnstrCopyWithRemappedColumns c colref_mapping must_exist := by
  have h := copy_loop_eq ops colref_mapping must_exist d.m_pdrgpcnstr []
  simp only [List.nil_append] at h
  refine ⟨by rw [PcnstrCopyWithRemappedColumns, h], by rw [h, List.length_map], ?_⟩
  intro i
  rw [h, List.getElem?_map]

end CConstraintDisjunction
end gpopt

namespace cdbtimer

/-! ## What `resetTimers` and `restoreTimers` do -/

theorem itimerval_eq_zero (t : itimerval)
    (h : (timerisset t.it_interval || timerisset t.it_value) = false) :
    t = ⟨timerclear, timerclear⟩ := by
  obtain ⟨⟨a, b⟩, ⟨c, d⟩⟩ := t
  simp [timerisset] at h
  obtain ⟨⟨ha, hb⟩, hc, hd⟩ := h
  subst ha hb hc hd
  rfl

theorem resetTimers_state (p : Process) (otimers : Option itimers) :
    (resetTimers p otimers).1
      = { real := ⟨timerclear, timerclear⟩, virt := ⟨timerclear, timerclear⟩,
          prof := p.prof, sigmask := .UnBlockSig } := by
  simp [resetTimers, setitimer, PG_SETMASK]

theorem resetTimers_saved (p : Process) (o : itimers) :
    (resetTimers p (some o)).2
      = some { rtimer := p.real, vtimer := p.virt, ptimer := ⟨timerclear, timerclear⟩ } := by
  simp [resetTimers, setitimer, PG_SETMASK]

theorem restoreTimers_ok (q : Process) (t : itimers) :
    restoreTimers q (some t) = .ok
      { real := if (timerisset t.rtimer.it_interval || timerisset t.rtimer.it_value) = true
          then t.rtimer else q.real
        virt := if (timerisset t.vtimer.it_interval || timerisset t.vtimer.it_value) = true
          then t.vtimer else q.virt
        prof := if (timerisset t.ptimer.it_interval || timerisset t.ptimer.it_value) = true
          then t.ptimer else q.prof
        sigmask := q.sigmask } := by
  unfold restoreTimers
  by_cases hr : (timerisset t.rtimer.it_interval || timerisset t.rtimer.it_value) = true <;>
    by_cases hv : (timerisset t.vtimer.it_interval || timerisset t.vtimer.it_value) = true <;>
    by_cases hp : (timerisset t.ptimer.it_interval || timerisset t.ptimer.it_value) = true <;>
    simp only [hr, hv, hp, setitimer, if_true, if_false, Bool.false_eq_true]

/-! ## C15: `resetTimers` and the profiling timer -/

/-- C15, evaluation at the failing input.  From a process whose three timers
are armed, `resetTimers` clears `ITIMER_REAL` and `ITIMER_VIRTUAL` but leaves
`ITIMER_PROF` armed with its value: the third call of `setitimer` names
`ITIMER_REAL` again. -/
theorem C15_resetTimers_leaves_prof_armed :
    (resetTimers exampleProcess none).1.real = ⟨timerclear, timerclear⟩ ∧
      (resetTimers exampleProcess none).1.virt = ⟨timerclear, timerclear⟩ ∧
      (resetTimers exampleProcess none).1.prof = ⟨⟨0, 0⟩, ⟨5, 0⟩⟩ ∧
      (resetTimers exampleProcess none).1.prof ≠ ⟨timerclear, timerclear⟩ := by
  decide

/-! ## C16: the old values that `resetTimers` preserves -/

/-- C16, evaluation at the failing input.  From a process whose three timers
are armed, `resetTimers` stores the old values of `ITIMER_REAL` and
`ITIMER_VIRTUAL`, but what it stores in `ptimer` is the zero timer (the value
of `ITIMER_REAL` at the third call) and not the value that `ITIMER_PROF`
had. -/
theorem C16_resetTimers_saves_zero_for_prof :
    (resetTimers exampleProcess (some exampleItimers)).2
        = some { rtimer := exampleProcess.real, vtimer := exampleProcess.virt,
                 ptimer := ⟨timerclear, timerclear⟩ } ∧
      exampleProcess.prof ≠ ⟨timerclear, timerclear⟩ ∧
      (resetTimers exampleProcess none).2 = none := by
  decide

/-! ## C17: round trip of the timers -/

/-- C17.  For every initial state of the three interval timers, `resetTimers`
on a struct followed by `restoreTimers` on the same struct (no time passing
in between) leaves `ITIMER_REAL`, `ITIMER_VIRTUAL` and `ITIMER_PROF` each equal
to its value before `resetTimers`; `restoreTimers` leaves untouched any timer
whose saved interval and value are both zero; and `restoreTimers` raises
`FATAL` for the null pointer. -/
theorem C17_timer_round_trip (p : Process) (o : itimers) :
    (∃ t p₂, (resetTimers p (some o)).2 = some t ∧
        restoreTimers (resetTimers p (some o)).1 (some t) = .ok p₂ ∧
        p₂.real = p.real ∧ p₂.virt = p.virt ∧ p₂.prof = p.prof) ∧
      (∀ (q : Process) (t : itimers), ∃ q₂, restoreTimers q (some t) = .ok q₂ ∧
        ((timerisset t.rtimer.it_interval || timerisset t.rtimer.it_value) = false →
          q₂.real = q.real) ∧
        ((timerisset t.vtimer.it_interval || timerisset t.vtimer.it_value) = false →
          q₂.virt = q.virt) ∧
        ((timerisset t.ptimer.it_interval || timerisset t.ptimer.it_value) = false →
          q₂.prof = q.prof)) ∧
      ∀ q : Process, restoreTimers q none = .error .FATAL := by
  refine ⟨?_, ?_, fun q => rfl⟩
  · refine ⟨_, _, resetTimers_saved p o, restoreTimers_ok _ _, ?_, ?_, ?_⟩
    · rw [resetTimers_state]
      by_cases hr : (timerisset p.real.it_interval || timerisset p.real.it_value) = true
      · simp only [hr, if_true]
      · simp only [hr, Bool.false_eq_true, if_false]
        exact (itimerval_eq_zero p.real (by simpa using hr)).symm
    · rw [resetTimers_state]
      by_cases hv : (timerisset p.virt.it_interval || timerisset p.virt.it_value) = true
      · simp only [hv, if_true]
      · simp only [hv, Bool.false_eq_true, if_false]
        exact (itimerval_eq_zero p.virt (by simpa using hv)).symm
    · rw [resetTimers_state]
      have h0 : (timerisset timerclear || timerisset timerclear) = false := by decide
      simp only [h0, Bool.false_eq_true, if_false]
  · intro q t
    refine ⟨_, restoreTimers_ok q t, ?_, ?_, ?_⟩
    · intro hr
      simp only [hr, Bool.false_eq_true, if_false]
    · intro hv
      simp only [hv, Bool.false_eq_true, if_false]
    · intro hp
      simp only [hp, Bool.false_eq_true, if_false]

/-- C17, witness: from a process whose three timers are armed, the round
trip gives the three values back; and restoring from a struct whose saved
real timer is zero leaves the real timer untouched. -/
theorem C17_timer_round_trip_witness :
    (∃ t p₂, (resetTimers exampleProcess (some exampleItimers)).2 = some t ∧
        restoreTimers (resetTimers exampleProcess (some exampleItimers)).1 (some t) = .ok p₂ ∧
        p₂.real = exampleProcess.real ∧ p₂.virt = exampleProcess.virt ∧
        p₂.prof = exampleProcess.prof) ∧
      ∃ q₂, restoreTimers exampleProcess
          (some ⟨⟨timerclear, timerclear⟩, ⟨⟨3, 0⟩, ⟨3, 0⟩⟩, ⟨⟨4, 0⟩, ⟨4, 0⟩⟩⟩) = .ok q₂ ∧
        q₂.real = exampleProcess.real :=
  ⟨(C17_timer_round_trip exampleProcess exampleItimers).1,
    match (C17_timer_round_trip exampleProcess exampleItimers).2.1 exampleProcess
        ⟨⟨timerclear, timerclear⟩, ⟨⟨3, 0⟩, ⟨3, 0⟩⟩, ⟨⟨4, 0⟩, ⟨4, 0⟩⟩⟩ with
    | ⟨q₂, h, hr, _, _⟩ => ⟨q₂, h, hr rfl⟩⟩

end cdbtimer

namespace ic_common

end ic_common

namespace ic_common

end ic_common

namespace ic_common

end ic_common

namespace ic_common

end ic_common

namespace ic_common

end ic_common

namespace ic_common

/-! ## C18: `createChunkTransportState` -/

end ic_common

namespace ic_common

/-! ## C20: the flag that `SendTupleChunkToAMS` returns -/

theorem routeStillActive_of_entry (s : ChunkTransportState) (k r : Nat)
    (entry : ChunkTransportStateEntry) (conn : MotionConn)
    (he : s.states[k]? = some entry) (hc : entry.conns[r]? = some conn) :
    routeStillActive s k r = conn.stillActive := by
  simp [routeStillActive, connAt, he, hc]

theorem anyStillActive_of_route (s : ChunkTransportState) (k r : Nat)
    (h : routeStillActive s k r = true) : anyStillActive s k = true := by
  unfold routeStillActive connAt at h
  unfold anyStillActive
  cases he : s.states[k]? with
  | none => rw [he] at h; cases h
  | some entry =>
    rw [he] at h
    simp only at h ⊢
    cases hc : entry.conns[r]? with
    | none => rw [hc] at h; cases h
    | some conn =>
      rw [hc] at h
      exact List.any_eq_true.2 ⟨conn, List.getElem?_mem hc, h⟩

theorem send_loop_spec {Chunk : Type} (env : Env Chunk) (k : Nat) (motNodeID targetRoute : Int)
    (hroute : targetRoute ≠ env.BROADCAST_SEGIDX)
    (hSend : ∀ s c, ValidRoute s k targetRoute →
      routeStillActive s k targetRoute.toNat = true →
      ∃ s₁, env.SendChunk s k targetRoute.toNat c motNodeID = .ok s₁ ∧
        ValidRoute s₁ k targetRoute) :
    ∀ (chain : List Chunk) (s : ChunkTransportState) (recount : Int),
      ValidRoute s k targetRoute →
      ∃ s₁ rc, SendTupleChunkToAMS.loop env k motNodeID targetRoute chain s recount
          = .ok (s₁, rc) ∧
        ValidRoute s₁ k targetRoute ∧
        (routeStillActive s k targetRoute.toNat = false → s₁ = s ∧ rc = recount) ∧
        (routeStillActive s k targetRoute.toNat = true →
          (routeStillActive s₁ k targetRoute.toNat = true ∧ rc = recount) ∨
          (routeStillActive s₁ k targetRoute.toNat = false ∧ rc = 1)) := by
  intro chain
  induction chain with
  | nil =>
    intro s recount hv
    exact ⟨s, recount, rfl, hv, fun _ => ⟨rfl, rfl⟩, fun h => Or.inl ⟨h, rfl⟩⟩
  | cons c rest ih =>
    intro s recount hv
    obtain ⟨entry, he, hlen, h0, hlt⟩ := hv
    have hv : ValidRoute s k targetRoute := ⟨entry, he, hlen, h0, hlt⟩
    have hr : targetRoute.toNat < entry.conns.length := by omega
    have hc : entry.conns[targetRoute.toNat]? = some (entry.conns[targetRoute.toNat]) :=
      List.getElem?_eq_getElem hr
    have hnb : ¬ (targetRoute < 0 ∨ targetRoute ≥ entry.numConns) := by omega
    have hact := routeStillActive_of_entry s k targetRoute.toNat entry _ he hc
    unfold SendTupleChunkToAMS.loop
    rw [if_neg hroute]
    simp only [he, if_neg hnb, hc]
    cases hstill : (entry.conns[targetRoute.toNat]).stillActive with
    | false =>
      rw [hstill] at hact
      simp only [Bool.false_eq_true, if_false]
      obtain ⟨s₁, rc, h1, h2, h3, _⟩ := ih s recount hv
      refine ⟨s₁, rc, h1, h2, h3, ?_⟩
      intro h
      rw [hact] at h
      cases h
    | true =>
      rw [hstill] at hact
      simp only [if_true]
      obtain ⟨sent, hsent, hvs⟩ := hSend s c hv hact
      rw [hsent]
      obtain ⟨entry₁, he₁, hlen₁, _, hlt₁⟩ := hvs
      have hr₁ : targetRoute.toNat < entry₁.conns.length := by omega
      have hc₁ : entry₁.conns[targetRoute.toNat]? = some (entry₁.conns[targetRoute.toNat]) :=
        List.getElem?_eq_getElem hr₁
      have hact₁ := routeStillActive_of_entry sent k targetRoute.toNat entry₁ _ he₁ hc₁
      have hconn : connAt sent k targetRoute.toNat = some (entry₁.conns[targetRoute.toNat]) := by
        simp [connAt, he₁, hc₁]
      simp only [hconn]
      obtain ⟨s₁, rc, h1, h2, h3, h4⟩ :=
        ih sent (if (!(entry₁.conns[targetRoute.toNat]).stillActive) = true then 1 else recount)
          ⟨entry₁, he₁, hlen₁, h0, hlt₁⟩
      refine ⟨s₁, rc, h1, h2, ?_, ?_⟩
      · intro h
        rw [hact] at h
        cases h
      · intro _
        cases hstill₁ : (entry₁.conns[targetRoute.toNat]).stillActive with
        | false =>
          rw [hstill₁] at hact₁
          obtain ⟨hs, hrc⟩ := h3 hact₁
          right
          rw [hs]
          refine ⟨hact₁, ?_⟩
          rw [hrc, hstill₁]
          rfl
        | true =>
          rw [hstill₁] at hact₁
          rcases h4 hact₁ with ⟨ha, hrc⟩ | ⟨ha, hrc⟩
          · left
            refine ⟨ha, ?_⟩
            rw [hrc, hstill₁]
            rfl
          · right
            exact ⟨ha, hrc⟩

theorem scan_spec (conns : List MotionConn) : ∀ (n i : Nat), i + n = conns.length →
    ∃ j, SendTupleChunkToAMS.scan conns n i = .ok j ∧ j ≤ conns.length ∧
      (j < conns.length ↔ (conns.drop i).any (fun conn => conn.stillActive) = true) := by
  intro n
  induction n with
  | zero =>
    intro i hi
    refine ⟨i, rfl, by omega, ?_⟩
    have : conns.drop i = [] := List.drop_eq_nil_of_le (by omega)
    rw [this]
    simp
    omega
  | succ n ih =>
    intro i hi
    have hlt : i < conns.length := by omega
    have hc : conns[i]? = some (conns[i]) := List.getElem?_eq_getElem hlt
    have hdrop : conns.drop i = conns[i] :: conns.drop (i + 1) := List.drop_eq_getElem_cons hlt
    unfold SendTupleChunkToAMS.scan
    simp only [hc]
    cases hstill : (conns[i]).stillActive with
    | true =>
      refine ⟨i, by simp, by omega, ?_⟩
      rw [hdrop, List.any_cons, hstill]
      exact ⟨fun _ => rfl, fun _ => hlt⟩
    | false =>
      obtain ⟨j, h1, h2, h3⟩ := ih (i + 1) (by omega)
      refine ⟨j, by simpa using h1, h2, ?_⟩
      rw [h3, hdrop, List.any_cons, hstill, Bool.false_or]

/-- C20, counterexample.  The entry of motion node 1 has one connection, which
is not active; a chain of one chunk is sent to route 0, a valid point-to-point
route.  Nothing is sent, no connection of the entry is still active after the
call, and the function returns `true`. -/
theorem C20_counterexample_inactive_route :
    SendTupleChunkToAMS exampleEnv (some (exampleTable [exampleConn false])) 1 0 [42]
        = .ok (exampleTable [exampleConn false], true) ∧
      ValidRoute (exampleTable [exampleConn false]) 0 0 ∧
      anyStillActive (exampleTable [exampleConn false]) 0 = false := by
  refine ⟨rfl, ⟨_, rfl, rfl, by decide, by decide⟩, rfl⟩

/-- C20, amended.  For an activated table, no pending interrupt, an entry that
`getChunkTransportState` finds, a route that is a valid point-to-point route
of that entry, and a `SendChunk` that returns and keeps the route valid:
`SendTupleChunkToAMS` returns, and the flag is `true` if and only if the
connection of the route was already inactive before the call or some
connection of the entry is still active after sending.  When the connection of
the route was already inactive, nothing is sent and the table is unchanged. -/
theorem C20_send_result {Chunk : Type} (env : Env Chunk) (ts : ChunkTransportState)
    (motNodeID targetRoute : Int) (tcItem : List Chunk) (pEntry : Nat)
    (hact : ts.activated = true)
    (hint : env.ML_CHECK_FOR_INTERRUPTS ts.teardownActive = .ok ())
    (hget : env.getChunkTransportState ts motNodeID = .ok pEntry)
    (hroute : targetRoute ≠ env.BROADCAST_SEGIDX)
    (hvalid : ValidRoute ts pEntry targetRoute)
    (hSend : ∀ s c, ValidRoute s pEntry targetRoute →
      routeStillActive s pEntry targetRoute.toNat = true →
      ∃ s₁, env.SendChunk s pEntry targetRoute.toNat c motNodeID = .ok s₁ ∧
        ValidRoute s₁ pEntry targetRoute) :
    ∃ ts₁ b, SendTupleChunkToAMS env (some ts) motNodeID targetRoute tcItem = .ok (ts₁, b) ∧
      (b = true ↔ (routeStillActive ts pEntry targetRoute.toNat = false ∨
        anyStillActive ts₁ pEntry = true)) ∧
      (routeStillActive ts pEntry targetRoute.toNat = false → ts₁ = ts) := by
  obtain ⟨s₁, rc, hloop, hv₁, hinact, hactive⟩ :=
    send_loop_spec env pEntry motNodeID targetRoute hroute hSend tcItem ts 0 hvalid
  unfold SendTupleChunkToAMS
  simp only [hact, Bool.not_true, Bool.false_eq_true, if_false, hint, hget, hloop]
  cases hinit : routeStillActive ts pEntry targetRoute.toNat with
  | false =>
    obtain ⟨hs, hrc⟩ := hinact hinit
    subst hs hrc
    exact ⟨s₁, true, by simp, by simp, fun _ => rfl⟩
  | true =>
    rcases hactive hinit with ⟨ha, hrc⟩ | ⟨ha, hrc⟩
    · subst hrc
      refine ⟨s₁, true, by simp, ?_, fun h => by cases h⟩
      simp [anyStillActive_of_route s₁ pEntry _ ha]
    · subst hrc
      obtain ⟨entry, he, hlen, _, _⟩ := hv₁
      obtain ⟨j, hj, _, hiff⟩ := scan_spec entry.conns entry.conns.length 0 (by omega)
      have hn : entry.numConns.toNat = entry.conns.length := by omega
      refine ⟨s₁, decide ((j : Int) < entry.numConns), ?_, ?_, fun h => by cases h⟩
      · simp [he, hn, hj]
      · have hany : anyStillActive s₁ pEntry
            = entry.conns.any (fun conn => conn.stillActive) := by
          simp [anyStillActive, he]
        rw [hany]
        simp only [List.drop_zero] at hiff
        rw [← hiff, hlen]
        simp

theorem exampleEnv_SendChunk_valid (k : Nat) (targetRoute motNodeID : Int)
    (s : ChunkTransportState) (c : Nat) (hv : ValidRoute s k targetRoute) :
    ∃ s₁, exampleEnv.SendChunk s k targetRoute.toNat c motNodeID = .ok s₁ ∧
      ValidRoute s₁ k targetRoute := by
  obtain ⟨entry, he, hlen, h0, hlt⟩ := hv
  have hk : k < s.states.length := by
    by_contra h
    rw [List.getElem?_eq_none (by omega)] at he
    cases he
  have hr : targetRoute.toNat < entry.conns.length := by omega
  have hc : entry.conns[targetRoute.toNat]? = some (entry.conns[targetRoute.toNat]) :=
    List.getElem?_eq_getElem hr
  have hs : exampleEnv.SendChunk s k targetRoute.toNat c motNodeID
      = .ok { s with
              states := s.states.set k
                { entry with
                  conns := entry.conns.set targetRoute.toNat
                    { entry.conns[targetRoute.toNat] with stillActive := false } } } := by
    simp only [exampleEnv, he, hc]
  refine ⟨_, hs, ?_⟩
  refine ⟨{ entry with
            conns := entry.conns.set targetRoute.toNat
              { entry.conns[targetRoute.toNat] with stillActive := false } },
    by simp [List.getElem?_set, hk], ?_, h0, hlt⟩
  simp [hlen]

/-- C20, witness: the entry has two connections, of which only the one of
route 0 is active; sending deactivates it, and the function returns `false`. -/
theorem C20_send_result_witness :
    ∃ ts₁ b,
      SendTupleChunkToAMS exampleEnv (some (exampleTable [exampleConn true, exampleConn false]))
          1 0 [42] = .ok (ts₁, b) ∧
      (b = true ↔
        (routeStillActive (exampleTable [exampleConn true, exampleConn false]) 0 (0 : Int).toNat
            = false ∨
          anyStillActive ts₁ 0 = true)) ∧
      (routeStillActive (exampleTable [exampleConn true, exampleConn false]) 0 (0 : Int).toNat
          = false →
        ts₁ = exampleTable [exampleConn true, exampleConn false]) :=
  C20_send_result exampleEnv (exampleTable [exampleConn true, exampleConn false]) 1 0 [42] 0
    rfl rfl rfl (by decide) ⟨_, rfl, rfl, by decide, by decide⟩
    (fun s c hv _ => exampleEnv_SendChunk_valid 0 0 1 s c hv)

end ic_common

namespace gpopt
namespace CBinding

/-! ## The order of the cursor over a group -/

theorem visited_later (pgroup : Nat) (fAll : Bool) (l : List CGroupExpression) (i : Nat)
    (X₁ X₂ : List PGroupExpression) (q q' : PGroupExpression)
    (h : CGroupProxy.visited pgroup fAll i l = X₁ ++ q :: X₂) (hq' : q' ∈ X₂) :
    q.idx < q'.idx := by
  obtain ⟨_, h2⟩ := visited_split pgroup fAll l i X₁ X₂ q h
  rw [h2] at hq'
  have := visited_idx pgroup fAll _ _ q' hq'
  omega

theorem visited_logical (pgroup : Nat) :
    ∀ (l : List CGroupExpression) (i : Nat) (q : PGroupExpression),
      q ∈ CGroupProxy.visited pgroup false i l →
      ∃ gexpr, l.get? (q.idx - i) = some gexpr ∧ gexpr.Pop.FLogical = true
  | [], i, q, h => by simp [CGroupProxy.visited] at h
  | gexpr :: rest, i, q, h => by
    have key : q ∈ CGroupProxy.visited pgroup false (i + 1) rest →
        ∃ gexpr', (gexpr :: rest).get? (q.idx - i) = some gexpr' ∧
          gexpr'.Pop.FLogical = true := by
      intro hq
      obtain ⟨gexpr', h1, hl⟩ := visited_logical pgroup rest (i + 1) q hq
      have h2 := visited_idx pgroup false rest (i + 1) q hq
      have h3 : q.idx - i = (q.idx - (i + 1)) + 1 := by omega
      exact ⟨gexpr', by rw [h3]; simpa using h1, hl⟩
    unfold CGroupProxy.visited at h
    split at h
    · rename_i hlog
      simp only [Bool.false_or] at hlog
      simp only [List.mem_cons] at h
      rcases h with h | h
      · exact ⟨gexpr, by simp [h], hlog⟩
      · exact key h
    · exact key h

theorem cursor_logical (memo : CMemo) (pgroup : Nat) (q : PGroupExpression)
    (hs : (memo pgroup).FScalar = false) (h : q ∈ cursorAfter memo pgroup none) :
    ∃ gexpr, memo.deref q = some gexpr ∧ gexpr.Pop.FLogical = true := by
  have hg := visited_pgroup pgroup _ _ 0 q h
  simp only [cursorAfter, hs] at h
  obtain ⟨gexpr, h1, h2⟩ := visited_logical pgroup _ 0 q h
  simp only [Nat.sub_zero] at h1
  exact ⟨gexpr, by simp only [CMemo.deref, hg]; exact h1, h2⟩

theorem bindingsOver_lists (root : PGroupExpression → Except Err (List CExpression)) :
    ∀ (ps : List PGroupExpression) (L : List CExpression), bindingsOver root ps = .ok L →
      ∃ Ls, List.Forall₂ (fun q Lq => root q = .ok Lq) ps Ls ∧ L = Ls.flatten
  | [], L, h => by
    simp [bindingsOver] at h
    subst h
    exact ⟨[], List.Forall₂.nil, rfl⟩
  | p :: ps, L, h => by
    obtain ⟨Lp, L', hp, hr, hLL⟩ := bindingsOver_cons root p ps L h
    obtain ⟨Ls, h1, h2⟩ := bindingsOver_lists root ps L' hr
    exact ⟨Lp :: Ls, List.Forall₂.cons hp h1, by simp [hLL, h2]⟩

theorem bindingsOver_mem (root : PGroupExpression → Except Err (List CExpression))
    (ps : List PGroupExpression) (L : List CExpression) (h : bindingsOver root ps = .ok L)
    (e : CExpression) (he : e ∈ L) :
    ∃ q Lq, q ∈ ps ∧ root q = .ok Lq ∧ e ∈ Lq := by
  obtain ⟨l₁, l₂, hL⟩ := List.append_of_mem he
  obtain ⟨X₁, q, X₂, a, b, rest, h1, h2, _, _⟩ := bindingsOver_split root ps L h l₁ e l₂ hL
  exact ⟨q, _, by simp [h1], h2, by simp⟩

/-! ## What the loops over the children return -/

theorem child_iff (l : CExpression) (j : Nat) (c : CExpression) :
    l.child j = .ok c ↔ l.m_pdrgpexpr[j]? = some c := by
  unfold CExpression.child
  rw [List.get?_eq_getElem?]
  cases l.m_pdrgpexpr[j]? with
  | none => simp
  | some x => simp

theorem init_loop_result (extract : GroupCursor) (P : CExpression) (arity : Nat)
    (G : Nat → CExpression → CExpression → Prop)
    (h0 : ∀ cg P' c, extract cg P' none = .ok (some c) → G cg P' c) :
    ∀ (gs : List Nat) (ul : Nat) (acc res : List CExpression),
      FInitChildCursors.loop extract P arity gs ul acc = .ok (true, res) →
      ∃ t, res = acc ++ t ∧ t.length = gs.length ∧
        ∀ (j : Nat) (c : CExpression) (cg : Nat), t[j]? = some c → gs[j]? = some cg →
          ∃ P', PexprExpandPattern P (ul + j) arity = .ok P' ∧ G cg P' c
  | [], ul, acc, res, h => by
    simp only [FInitChildCursors.loop] at h
    injection h with h
    injection h with _ h
    exact ⟨[], by simp [h], rfl, by simp⟩
  | g :: gs, ul, acc, res, h => by
    simp only [FInitChildCursors.loop] at h
    cases hexp : PexprExpandPattern P ul arity with
    | error err => simp [hexp] at h
    | ok P' =>
      simp only [hexp] at h
      cases hx : extract g P' none with
      | error err => simp [hx] at h
      | ok r =>
        cases r with
        | none => simp [hx] at h
        | some c =>
          simp only [hx] at h
          obtain ⟨t, ht, hlen, hch⟩ := init_loop_result extract P arity G h0 gs (ul + 1)
            (acc ++ [c]) res h
          refine ⟨c :: t, by simp [ht], by simp [hlen], ?_⟩
          intro j c' cg hj hg
          cases j with
          | zero =>
            simp only [List.getElem?_cons_zero, Option.some.injEq] at hj hg
            subst hj hg
            exact ⟨P', hexp, h0 _ _ _ hx⟩
          | succ j =>
            simp only [List.getElem?_cons_succ] at hj hg
            obtain ⟨P₂, h1, h2⟩ := hch j c' cg hj hg
            exact ⟨P₂, by rw [← h1]; congr 1; omega, h2⟩

theorem advance_loop_result (extract : GroupCursor) (P last : CExpression) (arity : Nat)
    (G : Nat → CExpression → CExpression → Prop)
    (h0 : ∀ cg P' c, extract cg P' none = .ok (some c) → G cg P' c)
    (h1 : ∀ cg P' l c, G cg P' l → extract cg P' (some l) = .ok (some c) → G cg P' c) :
    ∀ (gs : List Nat) (ul : Nat) (b : Bool) (ex : Nat) (acc : List CExpression) (n : Nat)
      (res : List CExpression),
      (∀ (j : Nat) (c : CExpression) (cg : Nat) (P' : CExpression),
        last.child (ul + j) = .ok c → gs[j]? = some cg →
        PexprExpandPattern P (ul + j) arity = .ok P' → G cg P' c) →
      FAdvanceChildCursors.loop extract P last arity gs ul b ex acc = .ok (n, res) →
      ∃ t, res = acc ++ t ∧ t.length = gs.length ∧
        ∀ (j : Nat) (c : CExpression) (cg : Nat), t[j]? = some c → gs[j]? = some cg →
          ∃ P', PexprExpandPattern P (ul + j) arity = .ok P' ∧ G cg P' c
  | [], ul, b, ex, acc, n, res, _, h => by
    simp only [FAdvanceChildCursors.loop] at h
    injection h with h
    injection h with _ h
    exact ⟨[], by simp [h], rfl, by simp⟩
  | g :: gs, ul, b, ex, acc, n, res, hlast, h => by
    have hlast' : ∀ (j : Nat) (c : CExpression) (cg : Nat) (P' : CExpression),
        last.child (ul + 1 + j) = .ok c → gs[j]? = some cg →
        PexprExpandPattern P (ul + 1 + j) arity = .ok P' → G cg P' c := by
      intro j c cg P' hc hg hexp
      have e1 : ul + 1 + j = ul + (j + 1) := by omega
      rw [e1] at hc hexp
      exact hlast (j + 1) c cg P' hc (by simpa using hg) hexp
    have finish : ∀ (c : CExpression) (P' : CExpression) (b' : Bool) (ex' : Nat),
        PexprExpandPattern P ul arity = .ok P' → G g P' c →
        FAdvanceChildCursors.loop extract P last arity gs (ul + 1) b' ex' (acc ++ [c])
          = .ok (n, res) →
        ∃ t, res = acc ++ t ∧ t.length = (g :: gs).length ∧
          ∀ (j : Nat) (c : CExpression) (cg : Nat), t[j]? = some c → (g :: gs)[j]? = some cg →
            ∃ P', PexprExpandPattern P (ul + j) arity = .ok P' ∧ G cg P' c := by
      intro c P' b' ex' hexp hG hrec
      obtain ⟨t, ht, hlen, hch⟩ := advance_loop_result extract P last arity G h0 h1 gs (ul + 1)
        b' ex' (acc ++ [c]) n res hlast' hrec
      refine ⟨c :: t, by simp [ht], by simp [hlen], ?_⟩
      intro j c' cg hj hg
      cases j with
      | zero =>
        simp only [List.getElem?_cons_zero, Option.some.injEq] at hj hg
        subst hj hg
        exact ⟨P', hexp, hG⟩
      | succ j =>
        simp only [List.getElem?_cons_succ] at hj hg
        obtain ⟨P₂, h2, h3⟩ := hch j c' cg hj hg
        exact ⟨P₂, by rw [← h2]; congr 1; omega, h3⟩
    simp only [FAdvanceChildCursors.loop] at h
    cases hexp : PexprExpandPattern P ul arity with
    | error err => simp [hexp] at h
    | ok P' =>
      simp only [hexp] at h
      cases hch : last.child ul with
      | error err => simp [hch] at h
      | ok lc =>
        simp only [hch] at h
        have hGl : G g P' lc := hlast 0 lc g P' (by simpa using hch) (by simp) (by simpa using hexp)
        cases b with
        | true =>
          simp only [if_true] at h
          exact finish lc P' true ex hexp hGl h
        | false =>
          simp only [Bool.false_eq_true, if_false] at h
          cases hx : extract g P' (some lc) with
          | error err => simp [hx] at h
          | ok r =>
            cases r with
            | some c =>
              simp only [hx] at h
              exact finish c P' true ex hexp (h1 g P' lc c hGl hx) h
            | none =>
              simp only [hx] at h
              cases hx0 : extract g P' none with
              | error err => simp [hx0] at h
              | ok r0 =>
                cases r0 with
                | none => simp [hx0] at h
                | some c =>
                  simp only [hx0] at h
                  exact finish c P' false (ex + 1) hexp (h0 g P' c hx0) h

/-! ## What extraction returns -/

theorem root_result (FMatchPattern : CExpression → CGroupExpression → Bool) (memo : CMemo)
    (extract : GroupCursor) (G : Nat → CExpression → CExpression → Prop)
    (h0 : ∀ cg P' c, extract cg P' none = .ok (some c) → G cg P' c)
    (h1 : ∀ cg P' l c, G cg P' l → extract cg P' (some l) = .ok (some c) → G cg P' c)
    (q : PGroupExpression) (P e : CExpression) (last : Option CExpression)
    (hlast : ∀ l, last = some l → BoundAt FMatchPattern memo G q P l)
    (h : PexprExtractRoot FMatchPattern memo extract q P last = .ok (some e)) :
    BoundAt FMatchPattern memo G q P e := by
  unfold PexprExtractRoot at h
  cases hd : memo.deref q with
  | none => simp [hd] at h
  | some gexpr =>
    simp only [hd] at h
    cases hm : FMatchPattern P gexpr with
    | false => simp [hm] at h
    | true =>
      simp only [hm, Bool.not_true, Bool.false_eq_true, if_false] at h
      cases hleaf : P.FLeafPattern with
      | true =>
        simp only [hleaf, if_true] at h
        injection h with h
        injection h with h
        subst h
        exact ⟨gexpr, hd, hm, rfl, rfl, fun _ => rfl, fun hf => by rw [hleaf] at hf; cases hf⟩
      | false =>
        simp only [hleaf, Bool.false_eq_true, if_false] at h
        split at h
        · cases h
        · split at h
          · cases h
          · rename_i hscal harz
            unfold FExtractChildren at h
            by_cases har : gexpr.Arity < P.Arity
            · simp [har] at h
            · simp only [har, if_false] at h
              have key : ∀ cs : List CExpression, cs.length = gexpr.Arity →
                  (∀ (j : Nat) (c : CExpression) (cg : Nat), cs[j]? = some c →
                    gexpr.m_pdrgpgroup[j]? = some cg →
                    ∃ P', PexprExpandPattern P (0 + j) gexpr.Arity = .ok P' ∧ G cg P' c) →
                  BoundAt FMatchPattern memo G q P (PexprFinalize q gexpr cs) := by
                intro cs hlen hch
                refine ⟨gexpr, hd, hm, rfl, rfl, (fun hf => by rw [hleaf] at hf; cases hf),
                  fun _ => ⟨by omega, hlen, ?_⟩⟩
                intro ul c cg hc hg
                obtain ⟨P', h2, h3⟩ := hch ul c cg hc hg
                exact ⟨P', by simpa using h2, h3⟩
              by_cases ha0 : gexpr.Arity = 0
              · simp only [ha0, if_true] at h
                injection h with h
                injection h with h
                subst h
                exact key [] ha0.symm (by simp)
              · simp only [ha0, if_false] at h
                unfold FAdvanceChildCursors at h
                cases last with
                | none =>
                  simp only [FInitChildCursors] at h
                  cases hl : FInitChildCursors.loop extract P gexpr.Arity gexpr.m_pdrgpgroup 0 []
                    with
                  | error err => simp [hl] at h
                  | ok r =>
                    obtain ⟨b, res⟩ := r
                    cases b with
                    | false => simp [hl] at h
                    | true =>
                      simp only [hl] at h
                      injection h with h
                      injection h with h
                      subst h
                      obtain ⟨t, ht, hlen, hch⟩ := init_loop_result extract P gexpr.Arity G h0
                        gexpr.m_pdrgpgroup 0 [] res hl
                      simp only [List.nil_append] at ht
                      subst ht
                      exact key res hlen hch
                | some l =>
                  simp only at h
                  obtain ⟨gexpr', hd', _, _, _, _, hnl⟩ := hlast l rfl
                  rw [hd] at hd'
                  injection hd' with hd'
                  subst hd'
                  obtain ⟨_, _, hlch⟩ := hnl hleaf
                  cases hl : FAdvanceChildCursors.loop extract P l gexpr.Arity
                      gexpr.m_pdrgpgroup 0 false 0 [] with
                  | error err => simp [hl] at h
                  | ok r =>
                    obtain ⟨n, res⟩ := r
                    simp only [hl] at h
                    by_cases hn : n < gexpr.Arity
                    · simp only [hn, decide_True] at h
                      injection h with h
                      injection h with h
                      subst h
                      obtain ⟨t, ht, hlen, hch⟩ := advance_loop_result extract P l gexpr.Arity
                        G h0 h1 gexpr.m_pdrgpgroup 0 false 0 [] n res
                        (by
                          intro j c cg P' hc hg hexp
                          simp only [Nat.zero_add] at hc hexp
                          obtain ⟨P₂, h2, h3⟩ := hlch j c cg ((child_iff l j c).1 hc) hg
                          rw [hexp] at h2
                          injection h2 with h2
                          subst h2
                          exact h3) hl
                      simp only [List.nil_append] at ht
                      subst ht
                      exact key res hlen hch
                    · simp [hn] at h

theorem group_loop_result
    (step : PGroupExpression → Option CExpression → Except Err (Option CExpression)) :
    ∀ (rest : List PGroupExpression) (p : PGroupExpression) (start : Option CExpression)
      (e : CExpression),
      PexprExtractGroup.loop step p start rest = .ok (some e) →
      step p start = .ok (some e) ∨ ∃ q ∈ rest, step q none = .ok (some e)
  | [], p, start, e, h => by
    simp only [PexprExtractGroup.loop] at h
    cases hs : step p start with
    | error err => simp [hs] at h
    | ok r =>
      cases r with
      | none => simp [hs] at h
      | some x =>
        simp only [hs] at h
        exact Or.inl h
  | q :: rest, p, start, e, h => by
    simp only [PexprExtractGroup.loop] at h
    cases hs : step p start with
    | error err => simp [hs] at h
    | ok r =>
      cases r with
      | some x =>
        simp only [hs] at h
        exact Or.inl h
      | none =>
        simp only [hs] at h
        rcases group_loop_result step rest q none e h with h1 | ⟨q', hq', h1⟩
        · exact Or.inr ⟨q, by simp, h1⟩
        · exact Or.inr ⟨q', by simp [hq'], h1⟩

theorem step_result (FMatchPattern : CExpression → CGroupExpression → Bool) (memo : CMemo)
    (extract : GroupCursor) (P : CExpression) (q : PGroupExpression)
    (start : Option CExpression) (e : CExpression)
    (h : PexprExtractGroup.step FMatchPattern memo extract P q start = .ok (some e)) :
    PexprExtractRoot FMatchPattern memo extract q P start = .ok (some e) := by
  unfold PexprExtractGroup.step at h
  cases hd : memo.deref q with
  | none => simp [hd] at h
  | some gexpr =>
    simp only [hd] at h
    split at h
    · exact h
    · cases h

theorem cursorAfter_pgroup (memo : CMemo) (pgroup : Nat) (p q : PGroupExpression)
    (h : q ∈ cursorAfter memo pgroup (some p)) : q.Pgroup = p.Pgroup :=
  visited_pgroup p.Pgroup _ _ _ q h

theorem pgexprNext_pgroup (memo : CMemo) (pgroup : Nat) (p : PGroupExpression)
    (h : PgexprNext memo pgroup none = some p) : p.Pgroup = pgroup := by
  unfold PgexprNext at h
  have hmem : p ∈ cursorAfter memo pgroup none := List.mem_of_mem_head? h
  exact visited_pgroup pgroup _ _ 0 p hmem

theorem group_result (FMatchPattern : CExpression → CGroupExpression → Bool) (memo : CMemo)
    (fuel : Nat) (g : Nat) (P e : CExpression)
    (h : Extracted FMatchPattern memo (fuel + 1) g P e) :
    ∃ q, q.Pgroup = g ∧ BoundAt FMatchPattern memo (Extracted FMatchPattern memo fuel) q P e := by
  have h0 : ∀ cg P' c, PexprExtractGroup FMatchPattern memo fuel cg P' none = .ok (some c) →
      Extracted FMatchPattern memo fuel cg P' c := fun cg P' c hx => .first cg P' c hx
  have h1 : ∀ cg P' l c, Extracted FMatchPattern memo fuel cg P' l →
      PexprExtractGroup FMatchPattern memo fuel cg P' (some l) = .ok (some c) →
      Extracted FMatchPattern memo fuel cg P' c := fun cg P' l c hl hx => .next cg P' l c hl hx
  induction h with
  | first e hx =>
    simp only [PexprExtractGroup] at hx
    cases hn : PgexprNext memo g none with
    | none => simp [hn] at hx
    | some p =>
      have hpg := pgexprNext_pgroup memo g p hn
      simp only [hn] at hx
      cases hleaf : P.FLeafPattern with
      | true =>
        simp only [hleaf, if_true, Option.isSome_none, Bool.false_eq_true, if_false] at hx
        exact ⟨p, hpg, root_result FMatchPattern memo _ _ h0 h1 p P e none
          (fun l hl => by cases hl) hx⟩
      | false =>
        simp only [hleaf, Bool.false_eq_true, if_false] at hx
        rcases group_loop_result _ _ _ _ _ hx with hs | ⟨q, hq, hs⟩
        · exact ⟨p, hpg, root_result FMatchPattern memo _ _ h0 h1 p P e none
            (fun l hl => by cases hl) (step_result _ _ _ _ _ _ _ hs)⟩
        · exact ⟨q, by rw [cursorAfter_pgroup memo g p q hq, hpg],
            root_result FMatchPattern memo _ _ h0 h1 q P e none
              (fun l hl => by cases hl) (step_result _ _ _ _ _ _ _ hs)⟩
  | next last e _ hx ih =>
    obtain ⟨q₀, hq₀, hb⟩ := ih
    have hpl : last.Pgexpr = some q₀ := by
      obtain ⟨_, _, _, hp, _⟩ := hb
      exact hp
    simp only [PexprExtractGroup, hpl] at hx
    cases hleaf : P.FLeafPattern with
    | true => simp [hleaf] at hx
    | false =>
      simp only [hleaf, Bool.false_eq_true, if_false] at hx
      rcases group_loop_result _ _ _ _ _ hx with hs | ⟨q, hq, hs⟩
      · exact ⟨q₀, hq₀, root_result FMatchPattern memo _ _ h0 h1 q₀ P e (some last)
          (fun l hl => by injection hl with hl; subst hl; exact hb)
          (step_result _ _ _ _ _ _ _ hs)⟩
      · exact ⟨q, by rw [cursorAfter_pgroup memo g q₀ q hq, hq₀],
          root_result FMatchPattern memo _ _ h0 h1 q P e none
            (fun l hl => by cases hl) (step_result _ _ _ _ _ _ _ hs)⟩

theorem extracted_zero (FMatchPattern : CExpression → CGroupExpression → Bool) (memo : CMemo)
    (g : Nat) (P e : CExpression) : ¬ Extracted FMatchPattern memo 0 g P e := by
  intro h
  induction h with
  | first e hx => simp [PexprExtractGroup] at hx
  | next last e _ hx _ => simp [PexprExtractGroup] at hx

theorem extractedRoot_result (FMatchPattern : CExpression → CGroupExpression → Bool)
    (memo : CMemo) (fuel : Nat) (q : PGroupExpression) (P e : CExpression)
    (h : ExtractedRoot FMatchPattern memo fuel q P e) :
    BoundAt FMatchPattern memo (Extracted FMatchPattern memo fuel) q P e := by
  have h0 : ∀ cg P' c, PexprExtractGroup FMatchPattern memo fuel cg P' none = .ok (some c) →
      Extracted FMatchPattern memo fuel cg P' c := fun cg P' c hx => .first cg P' c hx
  have h1 : ∀ cg P' l c, Extracted FMatchPattern memo fuel cg P' l →
      PexprExtractGroup FMatchPattern memo fuel cg P' (some l) = .ok (some c) →
      Extracted FMatchPattern memo fuel cg P' c := fun cg P' l c hl hx => .next cg P' l c hl hx
  induction h with
  | first e hx =>
    exact root_result FMatchPattern memo _ _ h0 h1 q P e none (fun l hl => by cases hl) hx
  | next last e _ hx ih =>
    exact root_result FMatchPattern memo _ _ h0 h1 q P e (some last)
      (fun l hl => by injection hl with hl; subst hl; exact ih) hx

theorem boundAt_isBinding (FMatchPattern : CExpression → CGroupExpression → Bool)
    (memo : CMemo) (G : Nat → CExpression → CExpression → Prop)
    (hG : ∀ cg P' c, G cg P' c → IsBinding FMatchPattern memo cg P' c)
    (q : PGroupExpression) (P e : CExpression) (h : BoundAt FMatchPattern memo G q P e) :
    IsBinding FMatchPattern memo q.Pgroup P e := by
  obtain ⟨gexpr, hd, hm, hp, hop, hl, hnl⟩ := h
  cases e with
  | mk pop pg cs =>
    simp only [CExpression.Pgexpr, CExpression.Pop, CExpression.m_pdrgpexpr] at hp hop hl hnl
    subst hp hop
    cases hleaf : P.FLeafPattern with
    | true =>
      rw [hl hleaf]
      exact .leaf q.Pgroup P q gexpr rfl hd hm hleaf
    | false =>
      obtain ⟨har, hlen, hch⟩ := hnl hleaf
      simp only [CExpression.Arity, CExpression.m_pdrgpexpr] at hlen
      refine .node q.Pgroup P q gexpr cs rfl hd hm hleaf har hlen ?_ ?_
      · intro ul hul
        have h1 : ul < cs.length := by omega
        have h2 : ul < gexpr.m_pdrgpgroup.length := hul
        obtain ⟨P', h3, _⟩ := hch ul cs[ul] gexpr.m_pdrgpgroup[ul]
          (List.getElem?_eq_getElem h1) (List.getElem?_eq_getElem h2)
        exact ⟨P', h3⟩
      · intro ul c cg P' hc hg hexp
        obtain ⟨P₂, h3, h4⟩ := hch ul c cg hc hg
        rw [hexp] at h3
        injection h3 with h3
        subst h3
        exact hG cg P' c h4

theorem extracted_isBinding (FMatchPattern : CExpression → CGroupExpression → Bool)
    (memo : CMemo) :
    ∀ (fuel g : Nat) (P e : CExpression), Extracted FMatchPattern memo fuel g P e →
      IsBinding FMatchPattern memo g P e
  | 0, g, P, e, h => absurd h (extracted_zero FMatchPattern memo g P e)
  | fuel + 1, g, P, e, h => by
    obtain ⟨q, hq, hb⟩ := group_result FMatchPattern memo fuel g P e h
    rw [← hq]
    exact boundAt_isBinding FMatchPattern memo _
      (fun cg P' c hc => extracted_isBinding FMatchPattern memo fuel cg P' c hc) q P e hb

/-! ## Where an error of extraction comes from -/

theorem child_error (l : CExpression) (j : Nat) (err : Err) (h : l.child j = .error err) :
    err = .undefined := by
  unfold CExpression.child at h
  split at h
  · cases h
  · injection h with h
    exact h.symm

theorem expand_error (P : CExpression) (ul arity : Nat) (err : Err)
    (h : PexprExpandPattern P ul arity = .error err) : err = .undefined := by
  unfold PexprExpandPattern at h
  split at h
  · cases h
  · split at h
    · split at h
      · split at h
        · exact child_error _ _ _ h
        · cases h
      · exact child_error _ _ _ h
    · exact child_error _ _ _ h

theorem init_loop_noerr (extract : GroupCursor) (P : CExpression) (arity : Nat) (err : Err)
    (hund : err ≠ .undefined) :
    ∀ (gs : List Nat) (ul : Nat) (acc : List CExpression),
      (∀ (j : Nat) (cg : Nat) (P' : CExpression), gs[j]? = some cg →
        PexprExpandPattern P (ul + j) arity = .ok P' → extract cg P' none ≠ .error err) →
      FInitChildCursors.loop extract P arity gs ul acc ≠ .error err
  | [], ul, acc, _ => by simp [FInitChildCursors.loop]
  | g :: gs, ul, acc, hx => by
    have hx' : ∀ (j : Nat) (cg : Nat) (P' : CExpression), gs[j]? = some cg →
        PexprExpandPattern P (ul + 1 + j) arity = .ok P' → extract cg P' none ≠ .error err := by
      intro j cg P' hg hexp
      have e1 : ul + 1 + j = ul + (j + 1) := by omega
      rw [e1] at hexp
      exact hx (j + 1) cg P' (by simpa using hg) hexp
    simp only [FInitChildCursors.loop]
    cases hexp : PexprExpandPattern P ul arity with
    | error e' =>
      simp only
      intro h
      injection h with h
      exact hund (h ▸ expand_error _ _ _ _ hexp)
    | ok P' =>
      simp only
      have h0 := hx 0 g P' (by simp) (by simpa using hexp)
      cases hr : extract g P' none with
      | error e' =>
        simp only
        intro h
        injection h with h
        exact h0 (by rw [hr, h])
      | ok r =>
        cases r with
        | none => simp
        | some c => exact init_loop_noerr extract P arity err hund gs (ul + 1) _ hx'

theorem advance_loop_noerr (extract : GroupCursor) (P last : CExpression) (arity : Nat)
    (err : Err) (hund : err ≠ .undefined) :
    ∀ (gs : List Nat) (ul : Nat) (b : Bool) (ex : Nat) (acc : List CExpression),
      (∀ (j : Nat) (cg : Nat) (P' : CExpression), gs[j]? = some cg →
        PexprExpandPattern P (ul + j) arity = .ok P' →
        extract cg P' none ≠ .error err ∧
          ∀ c, last.child (ul + j) = .ok c →
            extract cg P' (some c) ≠ .error err ∧
              (err = .nullChild → extract cg P' (some c) = .ok none →
                extract cg P' none ≠ .ok none)) →
      FAdvanceChildCursors.loop extract P last arity gs ul b ex acc ≠ .error err
  | [], ul, b, ex, acc, _ => by simp [FAdvanceChildCursors.loop]
  | g :: gs, ul, b, ex, acc, hx => by
    have hx' : ∀ (j : Nat) (cg : Nat) (P' : CExpression), gs[j]? = some cg →
        PexprExpandPattern P (ul + 1 + j) arity = .ok P' →
        extract cg P' none ≠ .error err ∧
          ∀ c, last.child (ul + 1 + j) = .ok c →
            extract cg P' (some c) ≠ .error err ∧
              (err = .nullChild → extract cg P' (some c) = .ok none →
                extract cg P' none ≠ .ok none) := by
      intro j cg P' hg hexp
      have e1 : ul + 1 + j = ul + (j + 1) := by omega
      rw [e1] at hexp ⊢
      exact hx (j + 1) cg P' (by simpa using hg) hexp
    have ih := fun b' ex' acc' =>
      advance_loop_noerr extract P last arity err hund gs (ul + 1) b' ex' acc' hx'
    simp only [FAdvanceChildCursors.loop]
    cases hexp : PexprExpandPattern P ul arity with
    | error e' =>
      simp only
      intro h
      injection h with h
      exact hund (h ▸ expand_error _ _ _ _ hexp)
    | ok P' =>
      simp only
      obtain ⟨h0, hc⟩ := hx 0 g P' (by simp) (by simpa using hexp)
      cases hch : last.child ul with
      | error e' =>
        simp only
        intro h
        injection h with h
        exact hund (h ▸ child_error _ _ _ hch)
      | ok lc =>
        simp only
        obtain ⟨h1, h2⟩ := hc lc (by simpa using hch)
        cases b with
        | true => simpa using ih _ _ _
        | false =>
          simp only [Bool.false_eq_true, if_false]
          cases hr : extract g P' (some lc) with
          | error e' =>
            simp only
            intro h
            injection h with h
            exact h1 (by rw [hr, h])
          | ok r =>
            cases r with
            | some c => exact ih _ _ _
            | none =>
              simp only
              cases hr0 : extract g P' none with
              | error e' =>
                simp only
                intro h
                injection h with h
                exact h0 (by rw [hr0, h])
              | ok r0 =>
                cases r0 with
                | some c => exact ih _ _ _
                | none =>
                  simp only
                  intro h
                  injection h with h
                  exact h2 h.symm hr hr0

theorem root_noerr (FMatchPattern : CExpression → CGroupExpression → Bool) (memo : CMemo)
    (extract : GroupCursor) (q : PGroupExpression) (P : CExpression)
    (last : Option CExpression) (err : Err) (hund : err ≠ .undefined)
    (hx : ∀ gexpr, memo.deref q = some gexpr → FMatchPattern P gexpr = true →
      P.FLeafPattern = false →
      ∀ (j : Nat) (cg : Nat) (P' : CExpression), gexpr.m_pdrgpgroup[j]? = some cg →
        PexprExpandPattern P j gexpr.Arity = .ok P' →
        extract cg P' none ≠ .error err ∧
          ∀ l c, last = some l → l.child j = .ok c →
            extract cg P' (some c) ≠ .error err ∧
              (err = .nullChild → extract cg P' (some c) = .ok none →
                extract cg P' none ≠ .ok none)) :
    PexprExtractRoot FMatchPattern memo extract q P last ≠ .error err := by
  unfold PexprExtractRoot
  cases hd : memo.deref q with
  | none =>
    simp only
    intro h
    injection h with h
    exact hund h.symm
  | some gexpr =>
    simp only
    cases hm : FMatchPattern P gexpr with
    | false => simp
    | true =>
      simp only [Bool.not_true, Bool.false_eq_true, if_false]
      cases hleaf : P.FLeafPattern with
      | true => simp
      | false =>
        simp only [Bool.false_eq_true, if_false]
        split
        · simp
        · split
          · simp
          · have hx' := hx gexpr hd hm hleaf
            have hch : FExtractChildren extract gexpr P last [] ≠ .error err := by
              unfold FExtractChildren
              split
              · simp
              · split
                · simp
                · unfold FAdvanceChildCursors
                  cases last with
                  | none =>
                    simp only [FInitChildCursors]
                    apply init_loop_noerr extract P gexpr.Arity err hund
                    intro j cg P' hg hexp
                    simp only [Nat.zero_add] at hexp
                    exact (hx' j cg P' hg hexp).1
                  | some l =>
                    simp only
                    have hl := advance_loop_noerr extract P l gexpr.Arity err hund
                      gexpr.m_pdrgpgroup 0 false 0 []
                      (by
                        intro j cg P' hg hexp
                        simp only [Nat.zero_add] at hexp ⊢
                        obtain ⟨h1, h2⟩ := hx' j cg P' hg hexp
                        exact ⟨h1, fun c hc => h2 l c rfl hc⟩)
                    cases hr : FAdvanceChildCursors.loop extract P l gexpr.Arity
                        gexpr.m_pdrgpgroup 0 false 0 [] with
                    | error e' =>
                      simp only
                      intro h
                      injection h with h
                      exact hl (by rw [hr, h])
                    | ok r => simp
            cases hr : FExtractChildren extract gexpr P last [] with
            | error e' =>
              simp only
              intro h
              injection h with h
              exact hch (by rw [hr, h])
            | ok r =>
              obtain ⟨b, res⟩ := r
              cases b <;> simp

theorem group_loop_cases
    (step : PGroupExpression → Option CExpression → Except Err (Option CExpression)) :
    ∀ (rest : List PGroupExpression) (p : PGroupExpression) (start : Option CExpression),
      PexprExtractGroup.loop step p start rest = .ok none ∨
        PexprExtractGroup.loop step p start rest = step p start ∨
        ∃ q ∈ rest, PexprExtractGroup.loop step p start rest = step q none
  | [], p, start => by
    simp only [PexprExtractGroup.loop]
    cases hs : step p start with
    | error err => exact Or.inr (Or.inl rfl)
    | ok r =>
      cases r with
      | none => exact Or.inl rfl
      | some x => exact Or.inr (Or.inl rfl)
  | q :: rest, p, start => by
    simp only [PexprExtractGroup.loop]
    cases hs : step p start with
    | error err => exact Or.inr (Or.inl rfl)
    | ok r =>
      cases r with
      | some x => exact Or.inr (Or.inl rfl)
      | none =>
        simp only
        rcases group_loop_cases step rest q none with h | h | ⟨q', hq', h⟩
        · exact Or.inl h
        · exact Or.inr (Or.inr ⟨q, by simp, h⟩)
        · exact Or.inr (Or.inr ⟨q', by simp [hq'], h⟩)

theorem step_cases (FMatchPattern : CExpression → CGroupExpression → Bool) (memo : CMemo)
    (extract : GroupCursor) (P : CExpression) (q : PGroupExpression)
    (start : Option CExpression) :
    PexprExtractGroup.step FMatchPattern memo extract P q start = .ok none ∨
      PexprExtractGroup.step FMatchPattern memo extract P q start
        = PexprExtractRoot FMatchPattern memo extract q P start := by
  unfold PexprExtractGroup.step
  cases hd : memo.deref q with
  | none =>
    right
    simp [PexprExtractRoot, hd]
  | some gexpr =>
    simp only
    split
    · exact Or.inr rfl
    · exact Or.inl rfl

/-- The outcome of the group-level `PexprExtract` is undefined behaviour, end,
or the outcome of `PexprExtract` at a group expression of the group: at the
root of the previous result with the previous result, or at a group expression
of the cursor with no previous result. -/
theorem group_cases (FMatchPattern : CExpression → CGroupExpression → Bool) (memo : CMemo)
    (fuel g : Nat) (P : CExpression) (last : Option CExpression) :
    PexprExtractGroup FMatchPattern memo (fuel + 1) g P last = .error .undefined ∨
      PexprExtractGroup FMatchPattern memo (fuel + 1) g P last = .ok none ∨
      ∃ q st, PexprExtractGroup FMatchPattern memo (fuel + 1) g P last
          = PexprExtractRoot FMatchPattern memo (PexprExtractGroup FMatchPattern memo fuel)
              q P st ∧
        (st = last ∨ st = none) ∧ (last = none → q.Pgroup = g) ∧
        (∀ l, last = some l → ∃ p, l.Pgexpr = some p ∧ q.Pgroup = p.Pgroup ∧
          (st = last → q = p)) := by
  have hloop : ∀ p, (last = none → PgexprNext memo g none = some p) →
      (∀ l, last = some l → l.Pgexpr = some p) →
      PexprExtractGroup.loop
          (PexprExtractGroup.step FMatchPattern memo
            (PexprExtractGroup FMatchPattern memo fuel) P)
          p last (cursorAfter memo g (some p)) = .ok none ∨
        ∃ q st, PexprExtractGroup.loop
            (PexprExtractGroup.step FMatchPattern memo
              (PexprExtractGroup FMatchPattern memo fuel) P)
            p last (cursorAfter memo g (some p))
            = PexprExtractRoot FMatchPattern memo (PexprExtractGroup FMatchPattern memo fuel)
                q P st ∧
          (st = last ∨ st = none) ∧ (last = none → q.Pgroup = g) ∧
          (∀ l, last = some l → ∃ p, l.Pgexpr = some p ∧ q.Pgroup = p.Pgroup ∧
            (st = last → q = p)) := by
    intro p hp0 hp1
    rcases group_loop_cases (PexprExtractGroup.step FMatchPattern memo
        (PexprExtractGroup FMatchPattern memo fuel) P) (cursorAfter memo g (some p)) p last
      with h | h | ⟨q, hq, h⟩
    · exact Or.inl h
    · rcases step_cases FMatchPattern memo (PexprExtractGroup FMatchPattern memo fuel) P p last
        with hs | hs
      · exact Or.inl (h.trans hs)
      · exact Or.inr ⟨p, last, h.trans hs, Or.inl rfl,
          fun hn => pgexprNext_pgroup memo g p (hp0 hn),
          fun l hl => ⟨p, hp1 l hl, rfl, fun _ => rfl⟩⟩
    · have hqg := cursorAfter_pgroup memo g p q hq
      rcases step_cases FMatchPattern memo (PexprExtractGroup FMatchPattern memo fuel) P q none
        with hs | hs
      · exact Or.inl (h.trans hs)
      · refine Or.inr ⟨q, none, h.trans hs, Or.inr rfl, ?_, ?_⟩
        · intro hn
          rw [hqg]
          exact pgexprNext_pgroup memo g p (hp0 hn)
        · intro l hl
          refine ⟨p, hp1 l hl, hqg, ?_⟩
          intro hst
          rw [hl] at hst
          cases hst
  cases last with
  | none =>
    cases hn : PgexprNext memo g none with
    | none =>
      left
      simp only [PexprExtractGroup, hn]
      split <;> simp
    | some p =>
      cases hleaf : P.FLeafPattern with
      | true =>
        have key : PexprExtractGroup FMatchPattern memo (fuel + 1) g P none
            = PexprExtractRoot FMatchPattern memo (PexprExtractGroup FMatchPattern memo fuel)
                p P none := by
          simp [PexprExtractGroup, hn, hleaf]
        exact Or.inr (Or.inr ⟨p, none, key, Or.inl rfl,
          fun _ => pgexprNext_pgroup memo g p hn, fun l hl => by cases hl⟩)
      | false =>
        have key : PexprExtractGroup FMatchPattern memo (fuel + 1) g P none
            = PexprExtractGroup.loop
                (PexprExtractGroup.step FMatchPattern memo
                  (PexprExtractGroup FMatchPattern memo fuel) P)
                p none (cursorAfter memo g (some p)) := by
          simp [PexprExtractGroup, hn, hleaf]
        rw [key]
        exact Or.inr (hloop p (fun _ => hn) (fun l hl => by cases hl))
  | some l =>
    cases hleaf : P.FLeafPattern with
    | true =>
      right; left
      simp [PexprExtractGroup, hleaf]
    | false =>
      cases hp : l.Pgexpr with
      | none =>
        left
        simp [PexprExtractGroup, hleaf, hp]
      | some p =>
        have key : PexprExtractGroup FMatchPattern memo (fuel + 1) g P (some l)
            = PexprExtractGroup.loop
                (PexprExtractGroup.step FMatchPattern memo
                  (PexprExtractGroup FMatchPattern memo fuel) P)
                p (some l) (cursorAfter memo g (some p)) := by
          simp [PexprExtractGroup, hp, hleaf]
        rw [key]
        exact Or.inr (hloop p (fun hn => by cases hn)
          (fun l' hl' => by injection hl' with hl'; subst hl'; exact hp))

/-! ## The parts of a binding -/

theorem isBinding_inv (FMatchPattern : CExpression → CGroupExpression → Bool) (memo : CMemo)
    (g : Nat) (P l : CExpression) (h : IsBinding FMatchPattern memo g P l) :
    ∃ q gexpr, l.Pgexpr = some q ∧ q.Pgroup = g ∧ memo.deref q = some gexpr ∧
      FMatchPattern P gexpr = true ∧ l.Pop = gexpr.Pop ∧
      (P.FLeafPattern = false → P.Arity ≤ gexpr.Arity ∧ l.Arity = gexpr.Arity ∧
        ∀ (j : Nat) (c : CExpression) (cg : Nat) (P' : CExpression), l.child j = .ok c →
          gexpr.m_pdrgpgroup[j]? = some cg → PexprExpandPattern P j gexpr.Arity = .ok P' →
          IsBinding FMatchPattern memo cg P' c) := by
  cases h with
  | leaf _ _ q gexpr hq hd hm hleaf =>
    exact ⟨q, gexpr, rfl, hq, hd, hm, rfl, fun hf => by rw [hleaf] at hf; cases hf⟩
  | node _ _ q gexpr cs hq hd hm hleaf har hlen hexp hch =>
    refine ⟨q, gexpr, rfl, hq, hd, hm, rfl, fun _ => ⟨har, hlen, ?_⟩⟩
    intro j c cg P' hc hg hx
    exact hch j c cg P' ((child_iff _ j c).1 hc) hg hx

theorem deref_mem (memo : CMemo) (q : PGroupExpression) (gexpr : CGroupExpression)
    (h : memo.deref q = some gexpr) : gexpr ∈ (memo q.Pgroup).m_listGExprs := by
  unfold CMemo.deref at h
  rw [List.get?_eq_getElem?] at h
  exact List.getElem?_mem h

/-! ## Extraction terminates -/

theorem group_terminates (FMatchPattern : CExpression → CGroupExpression → Bool)
    (memo : CMemo) (rank : Nat → Nat) (hacyc : Acyclic memo rank) :
    ∀ (fuel g : Nat) (P : CExpression) (last : Option CExpression), rank g < fuel →
      (∀ l, last = some l → IsBinding FMatchPattern memo g P l) →
      PexprExtractGroup FMatchPattern memo fuel g P last ≠ .error .outOfFuel
  | 0, g, P, last, hr, _ => absurd hr (Nat.not_lt_zero _)
  | fuel + 1, g, P, last, hr, hlast => by
    rcases group_cases FMatchPattern memo fuel g P last with h | h | ⟨q, st, h, hst, hq0, hq1⟩
    · rw [h]; simp
    · rw [h]; simp
    · rw [h]
      apply root_noerr FMatchPattern memo _ q P st .outOfFuel (by simp)
      intro gexpr hd hm hleaf j cg P' hg hexp
      have hqg : q.Pgroup = g := by
        cases last with
        | none => exact hq0 rfl
        | some l =>
          obtain ⟨p, hp, hqp, _⟩ := hq1 l rfl
          obtain ⟨p', _, hp', hpg, _⟩ := isBinding_inv FMatchPattern memo g P l (hlast l rfl)
          rw [hp] at hp'
          injection hp' with hp'
          subst hp'
          rw [hqp, hpg]
      have hrank : rank cg < fuel := by
        have h1 := hacyc q.Pgroup gexpr (deref_mem memo q gexpr hd) cg (List.getElem?_mem hg)
        rw [hqg] at h1
        omega
      refine ⟨group_terminates FMatchPattern memo rank hacyc fuel cg P' none hrank
        (fun l hl => by cases hl), ?_⟩
      intro l c hl hc
      refine ⟨?_, fun h => by cases h⟩
      have hstl : st = last := by
        rcases hst with h1 | h1
        · exact h1
        · rw [h1] at hl; cases hl
      rw [hstl] at hl
      obtain ⟨p, hp, _, hqp⟩ := hq1 l hl
      have hqp' := hqp hstl
      subst hqp'
      obtain ⟨p', gexpr', hp', _, hd', _, _, hch⟩ :=
        isBinding_inv FMatchPattern memo g P l (hlast l hl)
      rw [hp] at hp'
      injection hp' with hp'
      subst hp'
      rw [hd] at hd'
      injection hd' with hd'
      subst hd'
      exact group_terminates FMatchPattern memo rank hacyc fuel cg P' (some c) hrank
        (fun l' hl' => by
          injection hl' with hl'
          subst hl'
          exact (hch hleaf).2.2 j c cg P' hc hg hexp)

theorem root_terminates (FMatchPattern : CExpression → CGroupExpression → Bool)
    (memo : CMemo) (rank : Nat → Nat) (hacyc : Acyclic memo rank)
    (fuel : Nat) (q : PGroupExpression) (P : CExpression) (last : Option CExpression)
    (hr : rank q.Pgroup ≤ fuel)
    (hlast : ∀ l, last = some l →
      IsBinding FMatchPattern memo q.Pgroup P l ∧ l.Pgexpr = some q) :
    PexprExtract FMatchPattern memo fuel q P last ≠ .error .outOfFuel := by
  unfold PexprExtract
  apply root_noerr FMatchPattern memo _ q P last .outOfFuel (by simp)
  intro gexpr hd hm hleaf j cg P' hg hexp
  have hrank : rank cg < fuel := by
    have h1 := hacyc q.Pgroup gexpr (deref_mem memo q gexpr hd) cg (List.getElem?_mem hg)
    omega
  refine ⟨group_terminates FMatchPattern memo rank hacyc fuel cg P' none hrank
    (fun l hl => by cases hl), ?_⟩
  intro l c hl hc
  refine ⟨?_, fun h => by cases h⟩
  obtain ⟨hb, hp⟩ := hlast l hl
  obtain ⟨p', gexpr', hp', _, hd', _, _, hch⟩ :=
    isBinding_inv FMatchPattern memo q.Pgroup P l hb
  rw [hp] at hp'
  injection hp' with hp'
  subst hp'
  rw [hd] at hd'
  injection hd' with hd'
  subst hd'
  exact group_terminates FMatchPattern memo rank hacyc fuel cg P' (some c) hrank
    (fun l' hl' => by
      injection hl' with hl'
      subst hl'
      exact (hch hleaf).2.2 j c cg P' hc hg hexp)

/-! ## Extraction depends on the child cursors only through the calls it makes -/

theorem init_loop_congr (e₁ e₂ : GroupCursor) (P : CExpression) (arity : Nat) :
    ∀ (gs : List Nat) (ul : Nat) (acc : List CExpression),
      (∀ (j : Nat) (cg : Nat) (P' : CExpression), gs[j]? = some cg →
        PexprExpandPattern P (ul + j) arity = .ok P' → e₁ cg P' none = e₂ cg P' none) →
      FInitChildCursors.loop e₁ P arity gs ul acc = FInitChildCursors.loop e₂ P arity gs ul acc
  | [], ul, acc, _ => by simp [FInitChildCursors.loop]
  | g :: gs, ul, acc, hx => by
    have hx' : ∀ (j : Nat) (cg : Nat) (P' : CExpression), gs[j]? = some cg →
        PexprExpandPattern P (ul + 1 + j) arity = .ok P' → e₁ cg P' none = e₂ cg P' none := by
      intro j cg P' hg hexp
      have e1 : ul + 1 + j = ul + (j + 1) := by omega
      rw [e1] at hexp
      exact hx (j + 1) cg P' (by simpa using hg) hexp
    simp only [FInitChildCursors.loop]
    cases hexp : PexprExpandPattern P ul arity with
    | error e' => rfl
    | ok P' =>
      simp only
      rw [hx 0 g P' (by simp) (by simpa using hexp)]
      cases hr : e₂ g P' none with
      | error e' => rfl
      | ok r =>
        cases r with
        | none => rfl
        | some c => exact init_loop_congr e₁ e₂ P arity gs (ul + 1) _ hx'

theorem advance_loop_congr (e₁ e₂ : GroupCursor) (P last : CExpression) (arity : Nat) :
    ∀ (gs : List Nat) (ul : Nat) (b : Bool) (ex : Nat) (acc : List CExpression),
      (∀ (j : Nat) (cg : Nat) (P' : CExpression), gs[j]? = some cg →
        PexprExpandPattern P (ul + j) arity = .ok P' →
        e₁ cg P' none = e₂ cg P' none ∧
          ∀ c, last.child (ul + j) = .ok c → e₁ cg P' (some c) = e₂ cg P' (some c)) →
      FAdvanceChildCursors.loop e₁ P last arity gs ul b ex acc
        = FAdvanceChildCursors.loop e₂ P last arity gs ul b ex acc
  | [], ul, b, ex, acc, _ => by simp [FAdvanceChildCursors.loop]
  | g :: gs, ul, b, ex, acc, hx => by
    have hx' : ∀ (j : Nat) (cg : Nat) (P' : CExpression), gs[j]? = some cg →
        PexprExpandPattern P (ul + 1 + j) arity = .ok P' →
        e₁ cg P' none = e₂ cg P' none ∧
          ∀ c, last.child (ul + 1 + j) = .ok c → e₁ cg P' (some c) = e₂ cg P' (some c) := by
      intro j cg P' hg hexp
      have e1 : ul + 1 + j = ul + (j + 1) := by omega
      rw [e1] at hexp ⊢
      exact hx (j + 1) cg P' (by simpa using hg) hexp
    have ih := fun b' ex' acc' =>
      advance_loop_congr e₁ e₂ P last arity gs (ul + 1) b' ex' acc' hx'
    simp only [FAdvanceChildCursors.loop]
    cases hexp : PexprExpandPattern P ul arity with
    | error e' => rfl
    | ok P' =>
      simp only
      obtain ⟨h0, hc⟩ := hx 0 g P' (by simp) (by simpa using hexp)
      cases hch : last.child ul with
      | error e' => rfl
      | ok lc =>
        simp only
        rw [hc lc (by simpa using hch), h0]
        cases b with
        | true => simpa using ih _ _ _
        | false =>
          simp only [Bool.false_eq_true, if_false]
          cases hr : e₂ g P' (some lc) with
          | error e' => rfl
          | ok r =>
            cases r with
            | some c => exact ih _ _ _
            | none =>
              simp only
              cases hr0 : e₂ g P' none with
              | error e' => rfl
              | ok r0 =>
                cases r0 with
                | some c => exact ih _ _ _
                | none => rfl

theorem root_congr (FMatchPattern : CExpression → CGroupExpression → Bool) (memo : CMemo)
    (e₁ e₂ : GroupCursor) (q : PGroupExpression) (P : CExpression)
    (last : Option CExpression)
    (hx : ∀ gexpr, memo.deref q = some gexpr → FMatchPattern P gexpr = true →
      P.FLeafPattern = false →
      ∀ (j : Nat) (cg : Nat) (P' : CExpression), gexpr.m_pdrgpgroup[j]? = some cg →
        PexprExpandPattern P j gexpr.Arity = .ok P' →
        e₁ cg P' none = e₂ cg P' none ∧
          ∀ l c, last = some l → l.child j = .ok c →
            e₁ cg P' (some c) = e₂ cg P' (some c)) :
    PexprExtractRoot FMatchPattern memo e₁ q P last
      = PexprExtractRoot FMatchPattern memo e₂ q P last := by
  unfold PexprExtractRoot
  cases hd : memo.deref q with
  | none => rfl
  | some gexpr =>
    simp only
    cases hm : FMatchPattern P gexpr with
    | false => rfl
    | true =>
      simp only [Bool.not_true, Bool.false_eq_true, if_false]
      cases hleaf : P.FLeafPattern with
      | true => rfl
      | false =>
        simp only [Bool.false_eq_true, if_false]
        have hx' := hx gexpr hd hm hleaf
        have hch : FExtractChildren e₁ gexpr P last [] = FExtractChildren e₂ gexpr P last [] := by
          unfold FExtractChildren FAdvanceChildCursors
          cases last with
          | none =>
            simp only [FInitChildCursors]
            rw [init_loop_congr e₁ e₂ P gexpr.Arity gexpr.m_pdrgpgroup 0 []
              (by
                intro j cg P' hg hexp
                simp only [Nat.zero_add] at hexp
                exact (hx' j cg P' hg hexp).1)]
          | some l =>
            simp only
            rw [advance_loop_congr e₁ e₂ P l gexpr.Arity gexpr.m_pdrgpgroup 0 false 0 []
              (by
                intro j cg P' hg hexp
                simp only [Nat.zero_add] at hexp ⊢
                obtain ⟨h1, h2⟩ := hx' j cg P' hg hexp
                exact ⟨h1, fun c hc => h2 l c rfl hc⟩)]
        rw [hch]

theorem group_loop_congr
    (s₁ s₂ : PGroupExpression → Option CExpression → Except Err (Option CExpression)) :
    ∀ (rest : List PGroupExpression) (p : PGroupExpression) (start : Option CExpression),
      s₁ p start = s₂ p start → (∀ q ∈ rest, s₁ q none = s₂ q none) →
      PexprExtractGroup.loop s₁ p start rest = PexprExtractGroup.loop s₂ p start rest
  | [], p, start, h, _ => by simp [PexprExtractGroup.loop, h]
  | q :: rest, p, start, h, hr => by
    simp only [PexprExtractGroup.loop, h]
    rw [group_loop_congr s₁ s₂ rest q none (hr q (by simp))
      (fun q' hq' => hr q' (by simp [hq']))]

theorem step_congr (FMatchPattern : CExpression → CGroupExpression → Bool) (memo : CMemo)
    (e₁ e₂ : GroupCursor) (P : CExpression) (q : PGroupExpression)
    (start : Option CExpression)
    (h : PexprExtractRoot FMatchPattern memo e₁ q P start
      = PexprExtractRoot FMatchPattern memo e₂ q P start) :
    PexprExtractGroup.step FMatchPattern memo e₁ P q start
      = PexprExtractGroup.step FMatchPattern memo e₂ P q start := by
  unfold PexprExtractGroup.step
  cases hd : memo.deref q with
  | none => rfl
  | some gexpr =>
    simp only
    split
    · exact h
    · rfl

/-- The group-level `PexprExtract` with two bounds on the depth of the
recursion returns the same when the cursors over the child groups agree on
the calls that are made. -/
theorem group_congr (FMatchPattern : CExpression → CGroupExpression → Bool) (memo : CMemo)
    (f₁ f₂ g : Nat) (P : CExpression) (last : Option CExpression)
    (hx : ∀ q gexpr, memo.deref q = some gexpr → FMatchPattern P gexpr = true →
      P.FLeafPattern = false → (last = none → q.Pgroup = g) →
      (∀ l, last = some l → ∃ p, l.Pgexpr = some p ∧ q.Pgroup = p.Pgroup) →
      ∀ (j : Nat) (cg : Nat) (P' : CExpression), gexpr.m_pdrgpgroup[j]? = some cg →
        PexprExpandPattern P j gexpr.Arity = .ok P' →
        PexprExtractGroup FMatchPattern memo f₁ cg P' none
            = PexprExtractGroup FMatchPattern memo f₂ cg P' none ∧
          ∀ l c, last = some l → l.Pgexpr = some q → l.child j = .ok c →
            PexprExtractGroup FMatchPattern memo f₁ cg P' (some c)
              = PexprExtractGroup FMatchPattern memo f₂ cg P' (some c)) :
    PexprExtractGroup FMatchPattern memo (f₁ + 1) g P last
      = PexprExtractGroup FMatchPattern memo (f₂ + 1) g P last := by
  have hroot : ∀ (q : PGroupExpression) (st : Option CExpression),
      (last = none → q.Pgroup = g) →
      (∀ l, last = some l → ∃ p, l.Pgexpr = some p ∧ q.Pgroup = p.Pgroup) →
      (∀ l, st = some l → last = some l ∧ l.Pgexpr = some q) →
      PexprExtractRoot FMatchPattern memo (PexprExtractGroup FMatchPattern memo f₁) q P st
        = PexprExtractRoot FMatchPattern memo (PexprExtractGroup FMatchPattern memo f₂) q P st := by
    intro q st hq0 hq1 hst
    apply root_congr
    intro gexpr hd hm hleaf j cg P' hg hexp
    obtain ⟨h1, h2⟩ := hx q gexpr hd hm hleaf hq0 hq1 j cg P' hg hexp
    exact ⟨h1, fun l c hl hc => h2 l c (hst l hl).1 (hst l hl).2 hc⟩
  have hloop : ∀ p, (last = none → PgexprNext memo g none = some p) →
      (∀ l, last = some l → l.Pgexpr = some p) →
      PexprExtractGroup.loop
          (PexprExtractGroup.step FMatchPattern memo
            (PexprExtractGroup FMatchPattern memo f₁) P)
          p last (cursorAfter memo g (some p))
        = PexprExtractGroup.loop
          (PexprExtractGroup.step FMatchPattern memo
            (PexprExtractGroup FMatchPattern memo f₂) P)
          p last (cursorAfter memo g (some p)) := by
    intro p hp0 hp1
    apply group_loop_congr
    · apply step_congr
      exact hroot p last (fun hn => pgexprNext_pgroup memo g p (hp0 hn))
        (fun l hl => ⟨p, hp1 l hl, rfl⟩) (fun l hl => ⟨hl, hp1 l hl⟩)
    · intro q hq
      have hqg := cursorAfter_pgroup memo g p q hq
      apply step_congr
      exact hroot q none (fun hn => by rw [hqg]; exact pgexprNext_pgroup memo g p (hp0 hn))
        (fun l hl => ⟨p, hp1 l hl, hqg⟩) (fun l hl => by cases hl)
  cases last with
  | none =>
    cases hn : PgexprNext memo g none with
    | none => simp [PexprExtractGroup, hn]
    | some p =>
      cases hleaf : P.FLeafPattern with
      | true =>
        simp only [PexprExtractGroup, hn, hleaf, if_true, Option.isSome_none,
          Bool.false_eq_true, if_false]
        exact hroot p none (fun _ => pgexprNext_pgroup memo g p hn) (fun l hl => by cases hl)
          (fun l hl => by cases hl)
      | false =>
        simp only [PexprExtractGroup, hn, hleaf, Bool.false_eq_true, if_false]
        exact hloop p (fun _ => hn) (fun l hl => by cases hl)
  | some l =>
    cases hleaf : P.FLeafPattern with
    | true => simp [PexprExtractGroup, hleaf]
    | false =>
      cases hp : l.Pgexpr with
      | none => simp [PexprExtractGroup, hleaf, hp]
      | some p =>
        simp only [PexprExtractGroup, hp, hleaf, Bool.false_eq_true, if_false]
        exact hloop p (fun hn => by cases hn)
          (fun l' hl' => by injection hl' with hl'; subst hl'; exact hp)

theorem group_fuel_succ (FMatchPattern : CExpression → CGroupExpression → Bool)
    (memo : CMemo) (rank : Nat → Nat) (hacyc : Acyclic memo rank) :
    ∀ (fuel g : Nat) (P : CExpression) (last : Option CExpression), rank g < fuel →
      (∀ l, last = some l → IsBinding FMatchPattern memo g P l) →
      PexprExtractGroup FMatchPattern memo (fuel + 1) g P last
        = PexprExtractGroup FMatchPattern memo fuel g P last
  | 0, g, P, last, hr, _ => absurd hr (Nat.not_lt_zero _)
  | fuel + 1, g, P, last, hr, hlast => by
    apply group_congr
    intro q gexpr hd hm hleaf hq0 hq1 j cg P' hg hexp
    have hqg : q.Pgroup = g := by
      cases last with
      | none => exact hq0 rfl
      | some l =>
        obtain ⟨p, hp, hqp⟩ := hq1 l rfl
        obtain ⟨p', _, hp', hpg, _⟩ := isBinding_inv FMatchPattern memo g P l (hlast l rfl)
        rw [hp] at hp'
        injection hp' with hp'
        subst hp'
        rw [hqp, hpg]
    have hrank : rank cg < fuel := by
      have h1 := hacyc q.Pgroup gexpr (deref_mem memo q gexpr hd) cg (List.getElem?_mem hg)
      rw [hqg] at h1
      omega
    refine ⟨group_fuel_succ FMatchPattern memo rank hacyc fuel cg P' none hrank
      (fun l hl => by cases hl), ?_⟩
    intro l c hl hp hc
    obtain ⟨p', gexpr', hp', _, hd', _, _, hch⟩ :=
      isBinding_inv FMatchPattern memo g P l (hlast l hl)
    rw [hp] at hp'
    injection hp' with hp'
    subst hp'
    rw [hd] at hd'
    injection hd' with hd'
    subst hd'
    exact group_fuel_succ FMatchPattern memo rank hacyc fuel cg P' (some c) hrank
      (fun l' hl' => by
        injection hl' with hl'
        subst hl'
        exact (hch hleaf).2.2 j c cg P' hc hg hexp)

theorem group_fuel_add (FMatchPattern : CExpression → CGroupExpression → Bool)
    (memo : CMemo) (rank : Nat → Nat) (hacyc : Acyclic memo rank)
    (fuel g : Nat) (P : CExpression) (last : Option CExpression) (hr : rank g < fuel)
    (hlast : ∀ l, last = some l → IsBinding FMatchPattern memo g P l) :
    ∀ k, PexprExtractGroup FMatchPattern memo (fuel + k) g P last
      = PexprExtractGroup FMatchPattern memo fuel g P last
  | 0 => rfl
  | k + 1 => by
    rw [← Nat.add_assoc, group_fuel_succ FMatchPattern memo rank hacyc (fuel + k) g P last
      (by omega) hlast]
    exact group_fuel_add FMatchPattern memo rank hacyc fuel g P last hr hlast k

theorem group_fuel_irrelevant (FMatchPattern : CExpression → CGroupExpression → Bool)
    (memo : CMemo) (rank : Nat → Nat) (hacyc : Acyclic memo rank)
    (f₁ f₂ g : Nat) (P : CExpression) (last : Option CExpression)
    (h₁ : rank g < f₁) (h₂ : rank g < f₂)
    (hlast : ∀ l, last = some l → IsBinding FMatchPattern memo g P l) :
    PexprExtractGroup FMatchPattern memo f₁ g P last
      = PexprExtractGroup FMatchPattern memo f₂ g P last := by
  rcases Nat.le_total f₁ f₂ with h | h
  · obtain ⟨k, hk⟩ := Nat.exists_eq_add_of_le h
    rw [hk]
    exact (group_fuel_add FMatchPattern memo rank hacyc f₁ g P last h₁ hlast k).symm
  · obtain ⟨k, hk⟩ := Nat.exists_eq_add_of_le h
    rw [hk]
    exact group_fuel_add FMatchPattern memo rank hacyc f₂ g P last h₂ hlast k

theorem root_fuel_irrelevant (FMatchPattern : CExpression → CGroupExpression → Bool)
    (memo : CMemo) (rank : Nat → Nat) (hacyc : Acyclic memo rank)
    (f₁ f₂ : Nat) (q : PGroupExpression) (P : CExpression) (last : Option CExpression)
    (h₁ : rank q.Pgroup ≤ f₁) (h₂ : rank q.Pgroup ≤ f₂)
    (hlast : ∀ l, last = some l →
      IsBinding FMatchPattern memo q.Pgroup P l ∧ l.Pgexpr = some q) :
    PexprExtract FMatchPattern memo f₁ q P last = PexprExtract FMatchPattern memo f₂ q P last := by
  unfold PexprExtract
  apply root_congr
  intro gexpr hd hm hleaf j cg P' hg hexp
  have hrank : rank cg < rank q.Pgroup :=
    hacyc q.Pgroup gexpr (deref_mem memo q gexpr hd) cg (List.getElem?_mem hg)
  refine ⟨group_fuel_irrelevant FMatchPattern memo rank hacyc f₁ f₂ cg P' none (by omega)
    (by omega) (fun l hl => by cases hl), ?_⟩
  intro l c hl hc
  obtain ⟨hb, hp⟩ := hlast l hl
  obtain ⟨p', gexpr', hp', _, hd', _, _, hch⟩ :=
    isBinding_inv FMatchPattern memo q.Pgroup P l hb
  rw [hp] at hp'
  injection hp' with hp'
  subst hp'
  rw [hd] at hd'
  injection hd' with hd'
  subst hd'
  exact group_fuel_irrelevant FMatchPattern memo rank hacyc f₁ f₂ cg P' (some c) (by omega)
    (by omega) (fun l' hl' => by
      injection hl' with hl'
      subst hl'
      exact (hch hleaf).2.2 j c cg P' hc hg hexp)

theorem child_sizeOf (l : CExpression) (j : Nat) (c : CExpression) (h : l.child j = .ok c) :
    sizeOf c < sizeOf l := by
  have hc := (child_iff l j c).1 h
  cases l with
  | mk pop pg cs =>
    simp only [CExpression.m_pdrgpexpr] at hc
    have h1 := List.sizeOf_lt_of_mem (List.getElem?_mem hc)
    simp only [CExpression.mk.sizeOf_spec]
    omega

theorem group_terminates_any (FMatchPattern : CExpression → CGroupExpression → Bool)
    (memo : CMemo) (rank : Nat → Nat) (hacyc : Acyclic memo rank) (R : Nat)
    (hR : ∀ g, rank g ≤ R) :
    ∀ (fuel g : Nat) (P : CExpression) (last : Option CExpression),
      (last = none → R < fuel) → (∀ l, last = some l → R + sizeOf l < fuel) →
      PexprExtractGroup FMatchPattern memo fuel g P last ≠ .error .outOfFuel
  | 0, g, P, last, h0, h1 => by
    cases last with
    | none => exact absurd (h0 rfl) (Nat.not_lt_zero _)
    | some l => exact absurd (h1 l rfl) (Nat.not_lt_zero _)
  | fuel + 1, g, P, last, h0, h1 => by
    rcases group_cases FMatchPattern memo fuel g P last with h | h | ⟨q, st, h, hst, _, _⟩
    · rw [h]; simp
    · rw [h]; simp
    · rw [h]
      apply root_noerr FMatchPattern memo _ q P st .outOfFuel (by simp)
      intro gexpr hd hm hleaf j cg P' hg hexp
      have hrank : rank cg < rank q.Pgroup :=
        hacyc q.Pgroup gexpr (deref_mem memo q gexpr hd) cg (List.getElem?_mem hg)
      have hRq := hR q.Pgroup
      have hfuel : R ≤ fuel := by
        cases last with
        | none => have := h0 rfl; omega
        | some l => have := h1 l rfl; omega
      refine ⟨group_terminates FMatchPattern memo rank hacyc fuel cg P' none (by omega)
        (fun l hl => by cases hl), ?_⟩
      intro l c hl hc
      refine ⟨?_, fun h => by cases h⟩
      have hstl : st = last := by
        rcases hst with h2 | h2
        · exact h2
        · rw [h2] at hl; cases hl
      rw [hstl] at hl
      have hsz := child_sizeOf l j c hc
      have hl1 := h1 l hl
      exact group_terminates_any FMatchPattern memo rank hacyc R hR fuel cg P' (some c)
        (fun h => by cases h)
        (fun l' hl' => by injection hl' with hl'; subst hl'; omega)

theorem root_terminates_any (FMatchPattern : CExpression → CGroupExpression → Bool)
    (memo : CMemo) (rank : Nat → Nat) (hacyc : Acyclic memo rank) (R : Nat)
    (hR : ∀ g, rank g ≤ R) (fuel : Nat) (q : PGroupExpression) (P : CExpression)
    (last : Option CExpression)
    (h0 : R ≤ fuel) (h1 : ∀ l, last = some l → R + sizeOf l ≤ fuel) :
    PexprExtract FMatchPattern memo fuel q P last ≠ .error .outOfFuel := by
  unfold PexprExtract
  apply root_noerr FMatchPattern memo _ q P last .outOfFuel (by simp)
  intro gexpr hd hm hleaf j cg P' hg hexp
  have hrank : rank cg < rank q.Pgroup :=
    hacyc q.Pgroup gexpr (deref_mem memo q gexpr hd) cg (List.getElem?_mem hg)
  have hRq := hR q.Pgroup
  refine ⟨group_terminates FMatchPattern memo rank hacyc fuel cg P' none (by omega)
    (fun l hl => by cases hl), ?_⟩
  intro l c hl hc
  refine ⟨?_, fun h => by cases h⟩
  have hsz := child_sizeOf l j c hc
  have hl1 := h1 l hl
  exact group_terminates_any FMatchPattern memo rank hacyc R hR fuel cg P' (some c)
    (fun h => by cases h)
    (fun l' hl' => by injection hl' with hl'; subst hl'; omega)

/-! ## The assertions on the previous result -/

theorem group_no_assertion (FMatchPattern : CExpression → CGroupExpression → Bool)
    (memo : CMemo) :
    ∀ (fuel g : Nat) (P : CExpression) (last : Option CExpression),
      PexprExtractGroup FMatchPattern memo fuel g P last ≠ .error .assertion
  | 0, g, P, last => by simp [PexprExtractGroup]
  | fuel + 1, g, P, last => by
    rcases group_cases FMatchPattern memo fuel g P last with h | h | ⟨q, st, h, _⟩
    · rw [h]; simp
    · rw [h]; simp
    · rw [h]
      apply root_noerr FMatchPattern memo _ q P st .assertion (by simp)
      intro gexpr _ _ _ j cg P' _ _
      exact ⟨group_no_assertion FMatchPattern memo fuel cg P' none,
        fun l c _ _ => ⟨group_no_assertion FMatchPattern memo fuel cg P' (some c),
          fun h => by cases h⟩⟩

theorem root_no_assertion (FMatchPattern : CExpression → CGroupExpression → Bool)
    (memo : CMemo) (fuel : Nat) (q : PGroupExpression) (P : CExpression)
    (last : Option CExpression) :
    PexprExtract FMatchPattern memo fuel q P last ≠ .error .assertion := by
  unfold PexprExtract
  apply root_noerr FMatchPattern memo _ q P last .assertion (by simp)
  intro gexpr _ _ _ j cg P' _ _
  exact ⟨group_no_assertion FMatchPattern memo fuel cg P' none,
    fun l c _ _ => ⟨group_no_assertion FMatchPattern memo fuel cg P' (some c),
      fun h => by cases h⟩⟩

theorem assertChildGroup_binding (FMatchPattern : CExpression → CGroupExpression → Bool)
    (memo : CMemo) (extract : GroupCursor) (cg : Nat) (P' c : CExpression)
    (h : IsBinding FMatchPattern memo cg P' c) :
    assertChildGroup extract cg P' (some c) = extract cg P' (some c) := by
  obtain ⟨q, _, hp, hq, _⟩ := isBinding_inv FMatchPattern memo cg P' c h
  simp [assertChildGroup, hp, hq]

/-- At a group expression, the debug build returns what the release build
returns when the previous result, if any, is a binding rooted at the group
expression and the debug and release cursors over the child groups agree on
bindings. -/
theorem root_debug_eq (FMatchPattern : CExpression → CGroupExpression → Bool) (memo : CMemo)
    (extractD extract : GroupCursor)
    (hagree : ∀ cg P' (x : Option CExpression),
      (∀ c, x = some c → IsBinding FMatchPattern memo cg P' c) →
      extractD cg P' x = extract cg P' x)
    (q : PGroupExpression) (P : CExpression) (st : Option CExpression)
    (hst : ∀ l, st = some l → IsBinding FMatchPattern memo q.Pgroup P l ∧ l.Pgexpr = some q) :
    PexprExtractRootDebug FMatchPattern memo extractD q P st
      = PexprExtractRoot FMatchPattern memo extract q P st := by
  have hcongr : PexprExtractRoot FMatchPattern memo (assertChildGroup extractD) q P st
      = PexprExtractRoot FMatchPattern memo extract q P st := by
    apply root_congr
    intro gexpr hd hm hleaf j cg P' hg hexp
    refine ⟨hagree cg P' none (fun c hc => by cases hc), ?_⟩
    intro l c hl hc
    obtain ⟨hb, hp⟩ := hst l hl
    obtain ⟨p', gexpr', hp', _, hd', _, _, hch⟩ :=
      isBinding_inv FMatchPattern memo q.Pgroup P l hb
    rw [hp] at hp'
    injection hp' with hp'
    subst hp'
    rw [hd] at hd'
    injection hd' with hd'
    subst hd'
    have hcb := (hch hleaf).2.2 j c cg P' hc hg hexp
    rw [assertChildGroup_binding FMatchPattern memo extractD cg P' c hcb]
    exact hagree cg P' (some c) (fun c' hc' => by injection hc' with hc'; subst hc'; exact hcb)
  unfold PexprExtractRootDebug
  cases hd : memo.deref q with
  | none => simp [PexprExtractRoot, hd]
  | some gexpr =>
    simp only
    cases hm : FMatchPattern P gexpr with
    | false => simp [PexprExtractRoot, hd, hm]
    | true =>
      simp only [Bool.not_true, Bool.false_eq_true, if_false]
      cases st with
      | none => exact hcongr
      | some l =>
        simp only [(hst l rfl).2, if_true]
        exact hcongr

theorem group_debug_eq (FMatchPattern : CExpression → CGroupExpression → Bool)
    (memo : CMemo) :
    ∀ (fuel g : Nat) (P : CExpression) (last : Option CExpression),
      (∀ l, last = some l → IsBinding FMatchPattern memo g P l) →
      PexprExtractGroupDebug FMatchPattern memo fuel g P last
        = PexprExtractGroup FMatchPattern memo fuel g P last
  | 0, g, P, last, _ => rfl
  | fuel + 1, g, P, last, hlast => by
    have hroot : ∀ (q : PGroupExpression) (st : Option CExpression), q.Pgroup = g →
        (∀ l, st = some l → last = some l ∧ l.Pgexpr = some q) →
        PexprExtractRootDebug FMatchPattern memo (PexprExtractGroupDebug FMatchPattern memo fuel)
            q P st
          = PexprExtractRoot FMatchPattern memo (PexprExtractGroup FMatchPattern memo fuel)
            q P st := by
      intro q st hq hst
      apply root_debug_eq FMatchPattern memo _ _
        (fun cg P' x hx => group_debug_eq FMatchPattern memo fuel cg P' x hx)
      intro l hl
      obtain ⟨h1, h2⟩ := hst l hl
      rw [hq]
      exact ⟨hlast l h1, h2⟩
    have hstep : ∀ (q : PGroupExpression) (st : Option CExpression), q.Pgroup = g →
        (∀ l, st = some l → last = some l ∧ l.Pgexpr = some q) →
        PexprExtractGroup.stepDebug FMatchPattern memo
            (PexprExtractGroupDebug FMatchPattern memo fuel) P q st
          = PexprExtractGroup.step FMatchPattern memo
            (PexprExtractGroup FMatchPattern memo fuel) P q st := by
      intro q st hq hst
      unfold PexprExtractGroup.stepDebug PexprExtractGroup.step
      cases hd : memo.deref q with
      | none => rfl
      | some gexpr =>
        simp only
        split
        · exact hroot q st hq hst
        · rfl
    have hloop : ∀ p, p.Pgroup = g → (∀ l, last = some l → l.Pgexpr = some p) →
        PexprExtractGroup.loop
            (PexprExtractGroup.stepDebug FMatchPattern memo
              (PexprExtractGroupDebug FMatchPattern memo fuel) P)
            p last (cursorAfter memo g (some p))
          = PexprExtractGroup.loop
            (PexprExtractGroup.step FMatchPattern memo
              (PexprExtractGroup FMatchPattern memo fuel) P)
            p last (cursorAfter memo g (some p)) := by
      intro p hpg hp1
      apply group_loop_congr
      · exact hstep p last hpg (fun l hl => ⟨hl, hp1 l hl⟩)
      · intro q hq
        exact hstep q none (by rw [cursorAfter_pgroup memo g p q hq, hpg])
          (fun l hl => by cases hl)
    cases last with
    | none =>
      cases hn : PgexprNext memo g none with
      | none => simp [PexprExtractGroupDebug, PexprExtractGroup, hn]
      | some p =>
        have hpg := pgexprNext_pgroup memo g p hn
        cases hleaf : P.FLeafPattern with
        | true =>
          simp only [PexprExtractGroupDebug, PexprExtractGroup, hn, hleaf, if_true,
            Option.isSome_none, Bool.false_eq_true, if_false]
          exact hroot p none hpg (fun l hl => by cases hl)
        | false =>
          simp only [PexprExtractGroupDebug, PexprExtractGroup, hn, hleaf, Bool.false_eq_true,
            if_false]
          exact hloop p hpg (fun l hl => by cases hl)
    | some l =>
      cases hleaf : P.FLeafPattern with
      | true => simp [PexprExtractGroupDebug, PexprExtractGroup, hleaf]
      | false =>
        obtain ⟨p, _, hp, hpg, _⟩ := isBinding_inv FMatchPattern memo g P l (hlast l rfl)
        simp only [PexprExtractGroupDebug, PexprExtractGroup, hp, hleaf, Bool.false_eq_true,
          if_false]
        exact hloop p hpg (fun l' hl' => by injection hl' with hl'; subst hl'; exact hp)

/-! ## Resetting a cursor -/

theorem extracted_first (FMatchPattern : CExpression → CGroupExpression → Bool)
    (memo : CMemo) (fuel g : Nat) (P c : CExpression)
    (h : Extracted FMatchPattern memo fuel g P c) :
    ∃ c₀, PexprExtractGroup FMatchPattern memo fuel g P none = .ok (some c₀) := by
  induction h with
  | first e hx => exact ⟨e, hx⟩
  | next last e _ _ ih => exact ih

theorem boundAt_child (FMatchPattern : CExpression → CGroupExpression → Bool) (memo : CMemo)
    (G : Nat → CExpression → CExpression → Prop) (q : PGroupExpression) (P l : CExpression)
    (gexpr : CGroupExpression) (hb : BoundAt FMatchPattern memo G q P l)
    (hd : memo.deref q = some gexpr) (hleaf : P.FLeafPattern = false)
    (j : Nat) (c : CExpression) (cg : Nat) (P' : CExpression) (hc : l.child j = .ok c)
    (hg : gexpr.m_pdrgpgroup[j]? = some cg)
    (hexp : PexprExpandPattern P j gexpr.Arity = .ok P') : G cg P' c := by
  obtain ⟨gexpr', hd', _, _, _, _, hnl⟩ := hb
  rw [hd] at hd'
  injection hd' with hd'
  subst hd'
  obtain ⟨P₂, h1, h2⟩ := (hnl hleaf).2.2 j c cg ((child_iff l j c).1 hc) hg
  rw [hexp] at h1
  injection h1 with h1
  subst h1
  exact h2

theorem root_no_nullChild (FMatchPattern : CExpression → CGroupExpression → Bool)
    (memo : CMemo) (fuel : Nat)
    (ih : ∀ (g : Nat) (P : CExpression) (last : Option CExpression),
      (∀ l, last = some l → Extracted FMatchPattern memo fuel g P l) →
      PexprExtractGroup FMatchPattern memo fuel g P last ≠ .error .nullChild)
    (q : PGroupExpression) (P : CExpression) (st : Option CExpression)
    (hst : ∀ l, st = some l →
      BoundAt FMatchPattern memo (Extracted FMatchPattern memo fuel) q P l) :
    PexprExtractRoot FMatchPattern memo (PexprExtractGroup FMatchPattern memo fuel) q P st
      ≠ .error .nullChild := by
  apply root_noerr FMatchPattern memo _ q P st .nullChild (by simp)
  intro gexpr hd hm hleaf j cg P' hg hexp
  refine ⟨ih cg P' none (fun l hl => by cases hl), ?_⟩
  intro l c hl hc
  have hce : Extracted FMatchPattern memo fuel cg P' c :=
    boundAt_child FMatchPattern memo _ q P l gexpr (hst l hl) hd hleaf j c cg P' hc hg hexp
  refine ⟨ih cg P' (some c) (fun l' hl' => by injection hl' with hl'; subst hl'; exact hce), ?_⟩
  intro _ _ hnone
  obtain ⟨c₀, h0⟩ := extracted_first FMatchPattern memo fuel cg P' c hce
  rw [h0] at hnone
  cases hnone

theorem group_no_nullChild (FMatchPattern : CExpression → CGroupExpression → Bool)
    (memo : CMemo) :
    ∀ (fuel g : Nat) (P : CExpression) (last : Option CExpression),
      (∀ l, last = some l → Extracted FMatchPattern memo fuel g P l) →
      PexprExtractGroup FMatchPattern memo fuel g P last ≠ .error .nullChild
  | 0, g, P, last, _ => by simp [PexprExtractGroup]
  | fuel + 1, g, P, last, hlast => by
    rcases group_cases FMatchPattern memo fuel g P last with h | h | ⟨q, st, h, hst, _, hq1⟩
    · rw [h]; simp
    · rw [h]; simp
    · rw [h]
      apply root_no_nullChild FMatchPattern memo fuel
        (fun g P last => group_no_nullChild FMatchPattern memo fuel g P last)
      intro l hl
      have hstl : st = last := by
        rcases hst with h1 | h1
        · exact h1
        · rw [h1] at hl; cases hl
      rw [hstl] at hl
      obtain ⟨p, hp, _, hqp⟩ := hq1 l hl
      have hqp' := hqp hstl
      subst hqp'
      obtain ⟨q₀, _, hb⟩ := group_result FMatchPattern memo fuel g P l (hlast l hl)
      have hq₀ : q₀ = q := by
        obtain ⟨_, _, _, hp₀, _⟩ := hb
        rw [hp] at hp₀
        injection hp₀ with hp₀
        exact hp₀.symm
      rw [← hq₀]
      exact hb

end CBinding
end gpopt

namespace gpopt
namespace CBinding

/-! ## C21: a scalar group expression is bound once -/

/-- C21.  For a group expression of a scalar group that passes the shallow
match against a pattern whose root is not a leaf wildcard, `PexprExtract` on
the group expression called with a previous result returns end, whatever the
cursor over the child groups does: no child binding is extracted (the result
is end also for a child cursor that always fails, and with no fuel left for
the child groups). -/
theorem C21_scalar_previous_returns_end
    (FMatchPattern : CExpression → CGroupExpression → Bool) (memo : CMemo)
    (p : PGroupExpression) (P last : CExpression) (gexpr : CGroupExpression)
    (hd : memo.deref p = some gexpr) (hs : (memo p.Pgroup).FScalar = true)
    (hm : FMatchPattern P gexpr = true) (hleaf : P.FLeafPattern = false) :
    (∀ extract : GroupCursor,
        PexprExtractRoot FMatchPattern memo extract p P (some last) = .ok none) ∧
      (∀ fuel, PexprExtract FMatchPattern memo fuel p P (some last) = .ok none) ∧
      PexprExtractRoot FMatchPattern memo (fun _ _ _ => .error .undefined) p P (some last)
        = .ok none := by
  have h : ∀ extract : GroupCursor,
      PexprExtractRoot FMatchPattern memo extract p P (some last) = .ok none := by
    intro extract
    simp [PexprExtractRoot, hd, hm, hleaf, hs]
  exact ⟨h, fun fuel => h _, h _⟩

/-- C21, witness: the first group expression of the scalar group 7 of the
example memo, the pattern of its operator, and the expression extracted
before. -/
theorem C21_scalar_previous_returns_end_witness :
    (∀ extract : GroupCursor,
        PexprExtractRoot FMatchPatternSpec exampleMemo extract ⟨7, 0⟩ (patScalar 0)
          (some (.mk (opScalar 0) (some ⟨7, 0⟩) [])) = .ok none) ∧
      (∀ fuel, PexprExtract FMatchPatternSpec exampleMemo fuel ⟨7, 0⟩ (patScalar 0)
          (some (.mk (opScalar 0) (some ⟨7, 0⟩) [])) = .ok none) ∧
      PexprExtractRoot FMatchPatternSpec exampleMemo (fun _ _ _ => .error .undefined) ⟨7, 0⟩
          (patScalar 0) (some (.mk (opScalar 0) (some ⟨7, 0⟩) [])) = .ok none :=
  C21_scalar_previous_returns_end FMatchPatternSpec exampleMemo ⟨7, 0⟩ (patScalar 0)
    (.mk (opScalar 0) (some ⟨7, 0⟩) []) ⟨opScalar 0, []⟩ rfl rfl rfl rfl

/-! ## The mixed memo, and enumerations that are determined -/

theorem exampleMemoMixed_wellFormed : WellFormed exampleMemoMixed id := by
  intro g gexpr hmem c hc
  unfold exampleMemoMixed at hmem
  split at hmem <;> simp at hmem <;> (try rcases hmem with rfl | rfl | rfl | rfl | rfl | rfl) <;>
    simp at hc <;> (try rcases hc with rfl | rfl) <;> exact ⟨by decide, by decide⟩

theorem enumerate_unique (next : Option CExpression → Except Err (Option CExpression))
    (L L' : List CExpression)
    (h : ∀ n, L.length < n → enumerate next n none = .ok L)
    (h' : ∀ n, L'.length < n → enumerate next n none = .ok L') : L = L' := by
  have e1 := h (L.length + L'.length + 1) (by omega)
  have e2 := h' (L.length + L'.length + 1) (by omega)
  rw [e1] at e2
  exact Except.ok.inj e2

theorem root_enumerate (FMatchPattern : CExpression → CGroupExpression → Bool) (memo : CMemo)
    (fuel : Nat) (q : PGroupExpression) (P : CExpression) (L : List CExpression)
    (hleaf : P.FLeafPattern = false)
    (h : bindingsRoot FMatchPattern memo (bindingsGroup FMatchPattern memo fuel) q P = .ok L) :
    ∀ n, L.length < n → enumerate (PexprExtract FMatchPattern memo fuel q P) n none = .ok L :=
  enumerate_of_isCursorOf _ L
    (step_isCursorOf FMatchPattern memo _ _
      (fun g P' L' => group_isCursorOf FMatchPattern memo fuel g P' L') P hleaf q L h).2.1

/-! ## C22: the order of the bindings of a group -/

/-- C22.  In a well-formed memo and for a non-leaf pattern that can be
expanded, repeated group-level extraction returns the list `L` that is the
concatenation, over the group expressions `q` of the cursor of the group in
cursor order, of the lists `Lq`, where `Lq` is what repeated extraction at the
group expression `q`, started with no previous result, returns: its
expressions are rooted at `q`, and it is empty when `q` fails the shallow
match.  Hence an expression returned before another one is rooted at the same
or at an earlier position of the group; and in a non-scalar group every
expression returned is rooted at a logical group expression. -/
theorem C22_group_cursor_order
    (FMatchPattern : CExpression → CGroupExpression → Bool) (memo : CMemo)
    (rank : Nat → Nat) (S : CExpression → Prop) (fuel pgroup : Nat) (P : CExpression)
    (hwf : WellFormed memo rank) (hS : PatternsClosed FMatchPattern S) (hP : S P)
    (hleaf : P.FLeafPattern = false)
    (hfuel : rank pgroup < fuel + 1) (hne : cursorAfter memo pgroup none ≠ []) :
    ∃ (L : List CExpression) (Ls : List (List CExpression)),
      (∀ n, L.length < n →
        enumerate (PexprExtractGroup FMatchPattern memo (fuel + 1) pgroup P) n none = .ok L) ∧
      L = Ls.flatten ∧
      List.Forall₂
        (fun q Lq =>
          (∀ n, Lq.length < n →
            enumerate (PexprExtract FMatchPattern memo fuel q P) n none = .ok Lq) ∧
          (∀ e ∈ Lq, e.Pgexpr = some q) ∧
          (∀ gexpr, memo.deref q = some gexpr → FMatchPattern P gexpr = false → Lq = []))
        (cursorAfter memo pgroup none) Ls ∧
      (∀ l₁ e l₂ e', L = l₁ ++ e :: l₂ → e' ∈ l₂ →
        ∃ q q', e.Pgexpr = some q ∧ e'.Pgexpr = some q' ∧ q.Pgroup = pgroup ∧
          q'.Pgroup = pgroup ∧ q.idx ≤ q'.idx) ∧
      ((memo pgroup).FScalar = false →
        ∀ e ∈ L, ∃ q gexpr, e.Pgexpr = some q ∧ memo.deref q = some gexpr ∧
          gexpr.Pop.FLogical = true) := by
  obtain ⟨L, h⟩ := bindingsGroup_defined FMatchPattern memo rank S hwf hS (fuel + 1) pgroup P hP
    hfuel hne
  have hc := group_isCursorOf FMatchPattern memo (fuel + 1) pgroup P L h
  have ih : ∀ g P' L', bindingsGroup FMatchPattern memo fuel g P' = .ok L' →
      IsCursorOf (PexprExtractGroup FMatchPattern memo fuel g P') L' :=
    fun g P' L' => group_isCursorOf FMatchPattern memo fuel g P' L'
  have hroot : ∀ q Lq, bindingsRoot FMatchPattern memo (bindingsGroup FMatchPattern memo fuel)
      q P = .ok Lq →
      IsCursorOf (PexprExtract FMatchPattern memo fuel q P) Lq ∧ ∀ e ∈ Lq, e.Pgexpr = some q :=
    fun q Lq hq => (step_isCursorOf FMatchPattern memo _ _ ih P hleaf q Lq hq).2
  simp only [bindingsGroup] at h
  cases hcur : cursorAfter memo pgroup none with
  | nil => exact absurd hcur hne
  | cons p rest =>
    simp only [hcur] at h
    rw [hleaf, if_neg Bool.false_ne_true] at h
    obtain ⟨Ls, hLs, hflat⟩ := bindingsOver_lists _ (p :: rest) L h
    have hmemg : ∀ q ∈ p :: rest, q.Pgroup = pgroup := by
      intro q hq
      rw [← hcur] at hq
      exact visited_pgroup pgroup _ _ 0 q hq
    refine ⟨L, Ls, fun n hn => enumerate_of_isCursorOf _ L hc n hn, hflat, ?_, ?_, ?_⟩
    · refine hLs.imp ?_
      intro q Lq hq
      obtain ⟨h1, h2⟩ := hroot q Lq hq
      refine ⟨fun n hn => enumerate_of_isCursorOf _ Lq h1 n hn, h2, ?_⟩
      intro gexpr hd hm
      have h3 := h1.1
      simp only [PexprExtract, PexprExtractRoot, hd, hm] at h3
      cases Lq with
      | nil => rfl
      | cons e l => simp at h3
    · intro l₁ e l₂ e' hL he'
      obtain ⟨X₁, q, X₂, a, b, rest', h1, h2, h3, h4⟩ :=
        bindingsOver_split _ (p :: rest) L h l₁ e l₂ hL
      have hq := (hroot q _ h2).2
      have hqmem : q ∈ p :: rest := by simp [h1]
      rw [h4, List.mem_append] at he'
      rcases he' with he' | he'
      · exact ⟨q, q, hq e (by simp), hq e' (by simp [he']), hmemg q hqmem, hmemg q hqmem,
          Nat.le_refl _⟩
      · obtain ⟨q', Lq', hq'mem, hq'root, he'q⟩ := bindingsOver_mem _ X₂ rest' h3 e' he'
        have hlt : q.idx < q'.idx := by
          have hc' : CGroupProxy.visited pgroup (memo pgroup).FScalar 0
              (memo pgroup).m_listGExprs = X₁ ++ q :: X₂ := by
            have := hcur
            simp only [cursorAfter] at this
            rw [this, h1]
          exact visited_later pgroup _ _ 0 X₁ X₂ q q' hc' hq'mem
        exact ⟨q, q', hq e (by simp), (hroot q' _ hq'root).2 e' he'q, hmemg q hqmem,
          hmemg q' (by simp [h1, hq'mem]), Nat.le_of_lt hlt⟩
    · intro hs e he
      obtain ⟨q, Lq, hqmem, hqroot, heq⟩ := bindingsOver_mem _ (p :: rest) L h e he
      obtain ⟨gexpr, hd, hl⟩ := cursor_logical memo pgroup q hs (by rw [hcur]; exact hqmem)
      exact ⟨q, gexpr, (hroot q _ hqroot).2 e heq, hd, hl⟩

/-- C22, witness: group 8 of the mixed memo.  Its cursor visits the scan at
position 0, which fails the shallow match of `Join(tree, tree)` and is
skipped, and the joins at positions 1, 3, 4 and 5, the last with two
bindings; the physical join at position 2 is not visited, although the tree
wildcard would match it.  The bindings come grouped by root group expression,
in the order of the positions. -/
theorem C22_group_cursor_order_witness :
    cursorAfter exampleMemoMixed 8 none = [⟨8, 0⟩, ⟨8, 1⟩, ⟨8, 3⟩, ⟨8, 4⟩, ⟨8, 5⟩] ∧
    exampleMemoMixed.deref ⟨8, 0⟩ = some ⟨opScan 7, []⟩ ∧
    FMatchPatternSpec patJoinTrees ⟨opScan 7, []⟩ = false ∧
    exampleMemoMixed.deref ⟨8, 2⟩ = some ⟨opPhysicalJoin, [3, 2]⟩ ∧
    FMatchPatternSpec patTree ⟨opPhysicalJoin, [3, 2]⟩ = true ∧
    (∀ n, 5 < n →
      enumerate (PexprExtractGroup FMatchPatternSpec exampleMemoMixed (8 + 1) 8 patJoinTrees) n
          none
        = .ok [exprJoin8 1 exprJoin3 (exprScan 1 2 0),
            exprJoin8 3 (exprScan 0 1 0) (exprScan 1 2 0),
            exprJoin8 4 exprJoin3 (exprScan 0 1 0),
            exprJoin8 5 (exprScan 2 4 0) (exprScan 1 2 0),
            exprJoin8 5 (exprScan 3 4 1) (exprScan 1 2 0)]) ∧
    List.Forall₂
      (fun q Lq =>
        (∀ n, Lq.length < n →
          enumerate (PexprExtract FMatchPatternSpec exampleMemoMixed 8 q patJoinTrees) n none
            = .ok Lq) ∧
        (∀ e ∈ Lq, e.Pgexpr = some q) ∧
        (∀ gexpr, exampleMemoMixed.deref q = some gexpr →
          FMatchPatternSpec patJoinTrees gexpr = false → Lq = []))
      [⟨8, 0⟩, ⟨8, 1⟩, ⟨8, 3⟩, ⟨8, 4⟩, ⟨8, 5⟩]
      [[], [exprJoin8 1 exprJoin3 (exprScan 1 2 0)],
        [exprJoin8 3 (exprScan 0 1 0) (exprScan 1 2 0)],
        [exprJoin8 4 exprJoin3 (exprScan 0 1 0)],
        [exprJoin8 5 (exprScan 2 4 0) (exprScan 1 2 0),
          exprJoin8 5 (exprScan 3 4 1) (exprScan 1 2 0)]] ∧
    (∀ l₁ e l₂ e',
      [exprJoin8 1 exprJoin3 (exprScan 1 2 0), exprJoin8 3 (exprScan 0 1 0) (exprScan 1 2 0),
          exprJoin8 4 exprJoin3 (exprScan 0 1 0), exprJoin8 5 (exprScan 2 4 0) (exprScan 1 2 0),
          exprJoin8 5 (exprScan 3 4 1) (exprScan 1 2 0)] = l₁ ++ e :: l₂ →
      e' ∈ l₂ →
      ∃ q q', e.Pgexpr = some q ∧ e'.Pgexpr = some q' ∧ q.Pgroup = 8 ∧ q'.Pgroup = 8 ∧
        q.idx ≤ q'.idx) ∧
    (∀ n, 6 < n →
      enumerate (PexprExtractGroup FMatchPatternSpec exampleMemoMixed (8 + 1) 8 patTree) n none
        = .ok [exprScan 7 8 0, exprJoin8 1 exprJoin3 (exprScan 1 2 0),
            exprJoin8 3 (exprScan 0 1 0) (exprScan 1 2 0),
            exprJoin8 4 exprJoin3 (exprScan 0 1 0),
            exprJoin8 5 (exprScan 2 4 0) (exprScan 1 2 0),
            exprJoin8 5 (exprScan 3 4 1) (exprScan 1 2 0)]) ∧
    (∀ e ∈ [exprScan 7 8 0, exprJoin8 1 exprJoin3 (exprScan 1 2 0),
            exprJoin8 3 (exprScan 0 1 0) (exprScan 1 2 0),
            exprJoin8 4 exprJoin3 (exprScan 0 1 0),
            exprJoin8 5 (exprScan 2 4 0) (exprScan 1 2 0),
            exprJoin8 5 (exprScan 3 4 1) (exprScan 1 2 0)],
      ∃ q gexpr, e.Pgexpr = some q ∧ exampleMemoMixed.deref q = some gexpr ∧
        gexpr.Pop.FLogical = true) := by
  obtain ⟨L, Ls, h1, _, h3, h4, _⟩ :=
    C22_group_cursor_order FMatchPatternSpec exampleMemoMixed id examplePatterns 8 8
      patJoinTrees exampleMemoMixed_wellFormed examplePatterns_closed (Or.inl rfl) rfl
      (by decide) (by decide)
  obtain ⟨Lt, _, t1, _, _, _, t5⟩ :=
    C22_group_cursor_order FMatchPatternSpec exampleMemoMixed id examplePatterns 8 8
      patTree exampleMemoMixed_wellFormed examplePatterns_closed (Or.inr rfl) rfl
      (by decide) (by decide)
  have hL := enumerate_unique _ L _ h1
    (enumerate_of_isCursorOf _ _
      (group_isCursorOf FMatchPatternSpec exampleMemoMixed 9 8 patJoinTrees
        [exprJoin8 1 exprJoin3 (exprScan 1 2 0), exprJoin8 3 (exprScan 0 1 0) (exprScan 1 2 0),
          exprJoin8 4 exprJoin3 (exprScan 0 1 0), exprJoin8 5 (exprScan 2 4 0) (exprScan 1 2 0),
          exprJoin8 5 (exprScan 3 4 1) (exprScan 1 2 0)] rfl))
  have hLt := enumerate_unique _ Lt _ t1
    (enumerate_of_isCursorOf _ _
      (group_isCursorOf FMatchPatternSpec exampleMemoMixed 9 8 patTree
        [exprScan 7 8 0, exprJoin8 1 exprJoin3 (exprScan 1 2 0),
          exprJoin8 3 (exprScan 0 1 0) (exprScan 1 2 0),
          exprJoin8 4 exprJoin3 (exprScan 0 1 0), exprJoin8 5 (exprScan 2 4 0) (exprScan 1 2 0),
          exprJoin8 5 (exprScan 3 4 1) (exprScan 1 2 0)] rfl))
  subst hL
  subst hLt
  have hcur : cursorAfter exampleMemoMixed 8 none
      = [⟨8, 0⟩, ⟨8, 1⟩, ⟨8, 3⟩, ⟨8, 4⟩, ⟨8, 5⟩] := rfl
  rw [hcur] at h3
  obtain ⟨A0, r0, hA0, g0, -⟩ := List.forall₂_cons_left_iff.mp h3
  obtain ⟨A1, r1, hA1, g1, -⟩ := List.forall₂_cons_left_iff.mp g0
  obtain ⟨A3, r3, hA3, g3, -⟩ := List.forall₂_cons_left_iff.mp g1
  obtain ⟨A4, r4, hA4, g4, -⟩ := List.forall₂_cons_left_iff.mp g3
  obtain ⟨A5, r5, hA5, -, -⟩ := List.forall₂_cons_left_iff.mp g4
  have e0 : A0 = [] := hA0.2.2 _ rfl rfl
  have e1 := enumerate_unique _ A1 _ hA1.1
    (root_enumerate FMatchPatternSpec exampleMemoMixed 8 ⟨8, 1⟩ patJoinTrees
      [exprJoin8 1 exprJoin3 (exprScan 1 2 0)] rfl rfl)
  have e3 := enumerate_unique _ A3 _ hA3.1
    (root_enumerate FMatchPatternSpec exampleMemoMixed 8 ⟨8, 3⟩ patJoinTrees
      [exprJoin8 3 (exprScan 0 1 0) (exprScan 1 2 0)] rfl rfl)
  have e4 := enumerate_unique _ A4 _ hA4.1
    (root_enumerate FMatchPatternSpec exampleMemoMixed 8 ⟨8, 4⟩ patJoinTrees
      [exprJoin8 4 exprJoin3 (exprScan 0 1 0)] rfl rfl)
  have e5 := enumerate_unique _ A5 _ hA5.1
    (root_enumerate FMatchPatternSpec exampleMemoMixed 8 ⟨8, 5⟩ patJoinTrees
      [exprJoin8 5 (exprScan 2 4 0) (exprScan 1 2 0),
        exprJoin8 5 (exprScan 3 4 1) (exprScan 1 2 0)] rfl rfl)
  subst e0 e1 e3 e4 e5
  exact ⟨rfl, rfl, rfl, rfl, rfl, h1, .cons hA0 (.cons hA1 (.cons hA3 (.cons hA4 (.cons hA5 .nil)))),
    h4, t1, t5 rfl⟩

/-! ## C23: extraction terminates -/

/-- C23.  In a memo whose group-reference graph is acyclic (`rank` decreases
from a group to the child groups of its group expressions), for every pattern
and for a previous result that is null or a binding of the pattern:
the group-level `PexprExtract` on a group `g` returns within `rank g + 1`
nested entries of the group-level function (it never runs out of a bound
`fuel > rank g` on the depth of the recursion, and what it returns does not
depend on the bound), and `PexprExtract` on a group expression of `g` returns
within `rank g` nested entries.  In a finite memo (`rank` bounded), extraction
terminates for any expression whatsoever passed as the previous result. -/
theorem C23_extraction_terminates
    (FMatchPattern : CExpression → CGroupExpression → Bool) (memo : CMemo)
    (rank : Nat → Nat) (hacyc : Acyclic memo rank) :
    (∀ (fuel g : Nat) (P : CExpression) (last : Option CExpression), rank g < fuel →
        (∀ l, last = some l → IsBinding FMatchPattern memo g P l) →
        PexprExtractGroup FMatchPattern memo fuel g P last ≠ .error .outOfFuel ∧
          ∀ fuel', rank g < fuel' →
            PexprExtractGroup FMatchPattern memo fuel' g P last
              = PexprExtractGroup FMatchPattern memo fuel g P last) ∧
      (∀ (fuel : Nat) (q : PGroupExpression) (P : CExpression) (last : Option CExpression),
        rank q.Pgroup ≤ fuel →
        (∀ l, last = some l →
          IsBinding FMatchPattern memo q.Pgroup P l ∧ l.Pgexpr = some q) →
        PexprExtract FMatchPattern memo fuel q P last ≠ .error .outOfFuel ∧
          ∀ fuel', rank q.Pgroup ≤ fuel' →
            PexprExtract FMatchPattern memo fuel' q P last
              = PexprExtract FMatchPattern memo fuel q P last) ∧
      (∀ R, (∀ g, rank g ≤ R) →
        ∀ (g : Nat) (q : PGroupExpression) (P : CExpression) (last : Option CExpression),
          ∃ n, ∀ fuel, n ≤ fuel →
            PexprExtractGroup FMatchPattern memo fuel g P last ≠ .error .outOfFuel ∧
              PexprExtract FMatchPattern memo fuel q P last ≠ .error .outOfFuel) := by
  refine ⟨?_, ?_, ?_⟩
  · intro fuel g P last hr hlast
    exact ⟨group_terminates FMatchPattern memo rank hacyc fuel g P last hr hlast,
      fun fuel' hr' =>
        group_fuel_irrelevant FMatchPattern memo rank hacyc fuel' fuel g P last hr' hr hlast⟩
  · intro fuel q P last hr hlast
    exact ⟨root_terminates FMatchPattern memo rank hacyc fuel q P last hr hlast,
      fun fuel' hr' =>
        root_fuel_irrelevant FMatchPattern memo rank hacyc fuel' fuel q P last hr' hr hlast⟩
  · intro R hR g q P last
    cases last with
    | none =>
      refine ⟨R + 1, fun fuel hf => ⟨?_, ?_⟩⟩
      · exact group_terminates_any FMatchPattern memo rank hacyc R hR fuel g P none
          (fun _ => by omega) (fun l hl => by cases hl)
      · exact root_terminates_any FMatchPattern memo rank hacyc R hR fuel q P none
          (by omega) (fun l hl => by cases hl)
    | some l =>
      refine ⟨R + sizeOf l + 1, fun fuel hf => ⟨?_, ?_⟩⟩
      · exact group_terminates_any FMatchPattern memo rank hacyc R hR fuel g P (some l)
          (fun h => by cases h)
          (fun l' hl' => by injection hl' with hl'; subst hl'; omega)
      · exact root_terminates_any FMatchPattern memo rank hacyc R hR fuel q P (some l)
          (by omega) (fun l' hl' => by injection hl' with hl'; subst hl'; omega)

/-- C23, witness: the example memo is acyclic, and extraction of
`Join(tree, tree)` from its group 6 (of rank 6) returns with any bound above 6
what it returns with the bound 7. -/
theorem C23_extraction_terminates_witness :
    PexprExtractGroup FMatchPatternSpec exampleMemo 7 6 patJoinTrees none ≠ .error .outOfFuel ∧
      ∀ fuel', id 6 < fuel' →
        PexprExtractGroup FMatchPatternSpec exampleMemo fuel' 6 patJoinTrees none
          = PexprExtractGroup FMatchPatternSpec exampleMemo 7 6 patJoinTrees none :=
  (C23_extraction_terminates FMatchPatternSpec exampleMemo id
    (fun g gexpr hg c hc => (exampleMemo_wellFormed g gexpr hg c hc).1)).1 7 6 patJoinTrees none
    (by decide) (fun l hl => by cases hl)

end CBinding
end gpopt

namespace gpopt
namespace CConstraintDisjunction

/-! ## C24: whether a disjunction constrains a column -/

theorem Phmcolconstr_length {C : Type} (ops : CConstraintOps C) (l : List C)
    (colref : CColRef) (entry : List C) (h : Phmcolconstr ops l colref = some entry) :
    entry = l.filter (fun pcnstr => (ops.PcrsUsed pcnstr).contains colref) ∧ entry ≠ [] := by
  unfold Phmcolconstr at h
  cases hf : l.filter (fun pcnstr => (ops.PcrsUsed pcnstr).contains colref) with
  | nil =>
    rw [hf] at h
    cases h
  | cons c rest =>
    rw [hf] at h
    injection h with h
    subst h
    exact ⟨rfl, by simp⟩

/-- C24.  For a disjunction built by its constructor, with children
`m_pdrgpcnstr`: `FConstraint(col)` is true if and only if the column index has
an entry for `col` whose length is the number of children, that is, if and
only if the disjunction has a child and every child mentions `col`; and
whenever `FConstraint(col)` is false, `Pcnstr(mp, col)` returns the null
pointer or the unbounded interval on `col` that includes null, and so never a
disjunction built from the children. -/
theorem C24_constraint_on_column {C : Type} (ops : CConstraintOps C)
    (pdrgpcnstr : List C) (colref : CColRef) :
    (FConstraint (ctor ops pdrgpcnstr) colref = true ↔
        ∃ entry, (ctor ops pdrgpcnstr).m_phmcolconstr colref = some entry ∧
          entry.length = (ctor ops pdrgpcnstr).m_pdrgpcnstr.length) ∧
      (FConstraint (ctor ops pdrgpcnstr) colref = true ↔
        (ctor ops pdrgpcnstr).m_pdrgpcnstr ≠ [] ∧
          ∀ c ∈ (ctor ops pdrgpcnstr).m_pdrgpcnstr, (ops.PcrsUsed c).contains colref = true) ∧
      (FConstraint (ctor ops pdrgpcnstr) colref = false →
        Pcnstr ops (ctor ops pdrgpcnstr) colref = none ∨
          Pcnstr ops (ctor ops pdrgpcnstr) colref = some (ops.PciUnbounded colref true)) := by
  have h1 : FConstraint (ctor ops pdrgpcnstr) colref = true ↔
      ∃ entry, (ctor ops pdrgpcnstr).m_phmcolconstr colref = some entry ∧
        entry.length = (ctor ops pdrgpcnstr).m_pdrgpcnstr.length := by
    unfold FConstraint
    cases hf : (ctor ops pdrgpcnstr).m_phmcolconstr colref with
    | none => simp
    | some entry =>
      simp only [beq_iff_eq, Option.some.injEq, exists_eq_left']
      exact ⟨fun h => h.symm, fun h => h.symm⟩
  refine ⟨h1, ?_, ?_⟩
  · rw [h1]
    simp only [ctor]
    constructor
    · rintro ⟨entry, he, hlen⟩
      obtain ⟨hf, hne⟩ := Phmcolconstr_length ops _ colref entry he
      have hall := List.filter_eq_self.mp
        ((List.filter_sublist _).eq_of_length (by rw [← hf]; exact hlen))
      refine ⟨?_, hall⟩
      intro h0
      rw [h0] at hf
      exact hne (by simpa using hf)
    · rintro ⟨hne, hall⟩
      exact ⟨_, Phmcolconstr_all ops _ colref hne hall, rfl⟩
  · intro hfalse
    unfold FConstraint at hfalse
    unfold Pcnstr
    cases hf : (ctor ops pdrgpcnstr).m_phmcolconstr colref with
    | none => exact Or.inl rfl
    | some entry =>
      right
      rw [hf] at hfalse
      have hne : entry.length ≠ (ctor ops pdrgpcnstr).m_pdrgpcnstr.length := by
        intro h
        simp [h] at hfalse
      simp only [if_pos hne]

/-- C24, witness: of three disjuncts only two mention column 1, so
`FConstraint` is false for column 1 and `Pcnstr` returns the unbounded
interval; all three mention column 2 or none mentions column 3. -/
theorem C24_constraint_on_column_witness :
    FConstraint (ctor ExampleConstraint.ops
        [.interval [1, 2] false false false, .interval [2] false false false,
          .interval [1, 2] false false false]) 1 = false ∧
      (Pcnstr ExampleConstraint.ops (ctor ExampleConstraint.ops
          [.interval [1, 2] false false false, .interval [2] false false false,
            .interval [1, 2] false false false]) 1 = none ∨
        Pcnstr ExampleConstraint.ops (ctor ExampleConstraint.ops
          [.interval [1, 2] false false false, .interval [2] false false false,
            .interval [1, 2] false false false]) 1
          = some (ExampleConstraint.ops.PciUnbounded 1 true)) ∧
      FConstraint (ctor ExampleConstraint.ops
        [.interval [1, 2] false false false, .interval [2] false false false,
          .interval [1, 2] false false false]) 2 = true :=
  ⟨rfl,
    (C24_constraint_on_column ExampleConstraint.ops
      [.interval [1, 2] false false false, .interval [2] false false false,
        .interval [1, 2] false false false] 1).2.2 rfl,
    rfl⟩

end CConstraintDisjunction
end gpopt

namespace gpopt
namespace CBinding

/-! ## C25: soundness of the bindings -/

/-- C25.  Every expression that repeated extraction returns, from a group or
at a group expression (called with no previous result, or with a previous
result of the same repeated extraction), matches the pattern it was extracted
for: its root is a group expression that passes the shallow match against the
root of the pattern, and, unless the pattern is a leaf wildcard, it has one
child per child group, the child at position `ul` being a result of repeated
extraction from the child group at position `ul` against the expanded pattern
`PexprExpandPattern(pattern, ul, arity)`, which it matches in turn
(`IsBinding` is the recursive statement). -/
theorem C25_binding_soundness
    (FMatchPattern : CExpression → CGroupExpression → Bool) (memo : CMemo) (fuel : Nat) :
    (∀ g P e, Extracted FMatchPattern memo fuel g P e →
        IsBinding FMatchPattern memo g P e ∧
          ∃ q, q.Pgroup = g ∧
            BoundAt FMatchPattern memo (Extracted FMatchPattern memo (fuel - 1)) q P e) ∧
      (∀ q P e, ExtractedRoot FMatchPattern memo fuel q P e →
        IsBinding FMatchPattern memo q.Pgroup P e ∧
          BoundAt FMatchPattern memo (Extracted FMatchPattern memo fuel) q P e) := by
  constructor
  · intro g P e h
    refine ⟨extracted_isBinding FMatchPattern memo fuel g P e h, ?_⟩
    cases fuel with
    | zero => exact absurd h (extracted_zero FMatchPattern memo g P e)
    | succ fuel => exact group_result FMatchPattern memo fuel g P e h
  · intro q P e h
    have hb := extractedRoot_result FMatchPattern memo fuel q P e h
    exact ⟨boundAt_isBinding FMatchPattern memo _
      (fun cg P' c hc => extracted_isBinding FMatchPattern memo fuel cg P' c hc) q P e hb, hb⟩

/-- C25, witness: the second expression that repeated extraction of
`Join(tree, tree)` from group 6 of the example memo returns matches the
pattern. -/
theorem C25_binding_soundness_witness :
    IsBinding FMatchPatternSpec exampleMemo 6 patJoinTrees
        (exprJoin6 (exprScan 3 4 1) (exprScan 4 5 0)) ∧
      ∃ q, q.Pgroup = 6 ∧
        BoundAt FMatchPatternSpec exampleMemo (Extracted FMatchPatternSpec exampleMemo (3 - 1)) q
          patJoinTrees (exprJoin6 (exprScan 3 4 1) (exprScan 4 5 0)) :=
  (C25_binding_soundness FMatchPatternSpec exampleMemo 3).1 6 patJoinTrees
    (exprJoin6 (exprScan 3 4 1) (exprScan 4 5 0))
    (.next 6 patJoinTrees (exprJoin6 (exprScan 2 4 0) (exprScan 4 5 0)) _
      (.first 6 patJoinTrees _ rfl) rfl)

/-! ## C26: the assertions on the previous result hold -/

/-- C26.  Every expression that repeated extraction at a group expression
returns has that group expression as its root and carries its operator, and
for a non-leaf pattern it has exactly as many children as the group expression
has child groups, the child at position `ul` being rooted at a group
expression of the child group at position `ul` (so `(*pexprLast)[ul]` is in
bounds for every `ul < arity`, at every depth: the expression is a binding).
Therefore, called with no previous result or with a previous result of the
same repeated extraction, the debug build, in which the two assertions on the
previous result are checked in every call, returns what the release build
returns and no assertion fails; the same holds for repeated extraction from a
group. -/
theorem C26_resumption_assertions
    (FMatchPattern : CExpression → CGroupExpression → Bool) (memo : CMemo) (fuel : Nat)
    (P : CExpression) :
    (∀ (q : PGroupExpression) (e : CExpression), ExtractedRoot FMatchPattern memo fuel q P e →
        IsBinding FMatchPattern memo q.Pgroup P e ∧
        ∃ gexpr, memo.deref q = some gexpr ∧ e.Pgexpr = some q ∧ e.Pop = gexpr.Pop ∧
          (P.FLeafPattern = false → e.Arity = gexpr.Arity ∧
            ∀ ul, ul < gexpr.Arity →
              ∃ c cg q' gexpr', e.child ul = .ok c ∧ gexpr.m_pdrgpgroup[ul]? = some cg ∧
                c.Pgexpr = some q' ∧ q'.Pgroup = cg ∧ memo.deref q' = some gexpr')) ∧
      (∀ (q : PGroupExpression) (last : Option CExpression),
        (∀ l, last = some l → ExtractedRoot FMatchPattern memo fuel q P l) →
        PexprExtractDebug FMatchPattern memo fuel q P last
            = PexprExtract FMatchPattern memo fuel q P last ∧
          PexprExtractDebug FMatchPattern memo fuel q P last ≠ .error .assertion) ∧
      (∀ (g : Nat) (last : Option CExpression),
        (∀ l, last = some l → Extracted FMatchPattern memo fuel g P l) →
        PexprExtractGroupDebug FMatchPattern memo fuel g P last
            = PexprExtractGroup FMatchPattern memo fuel g P last ∧
          PexprExtractGroupDebug FMatchPattern memo fuel g P last ≠ .error .assertion) := by
  have hroot : ∀ (q : PGroupExpression) (e : CExpression),
      ExtractedRoot FMatchPattern memo fuel q P e →
      IsBinding FMatchPattern memo q.Pgroup P e ∧ e.Pgexpr = some q := by
    intro q e h
    have hb := extractedRoot_result FMatchPattern memo fuel q P e h
    refine ⟨boundAt_isBinding FMatchPattern memo _
      (fun cg P' c hc => extracted_isBinding FMatchPattern memo fuel cg P' c hc) q P e hb, ?_⟩
    obtain ⟨_, _, _, hp, _⟩ := hb
    exact hp
  refine ⟨?_, ?_, ?_⟩
  · intro q e h
    refine ⟨(hroot q e h).1, ?_⟩
    obtain ⟨gexpr, hd, _, hp, hop, _, hnl⟩ := extractedRoot_result FMatchPattern memo fuel q P e h
    refine ⟨gexpr, hd, hp, hop, ?_⟩
    intro hleaf
    obtain ⟨_, har, hch⟩ := hnl hleaf
    refine ⟨har, ?_⟩
    intro ul hul
    have h1 : ul < e.m_pdrgpexpr.length := by
      have : e.Arity = e.m_pdrgpexpr.length := rfl
      omega
    have h2 : ul < gexpr.m_pdrgpgroup.length := hul
    obtain ⟨P', _, hce⟩ := hch ul e.m_pdrgpexpr[ul] gexpr.m_pdrgpgroup[ul]
      (List.getElem?_eq_getElem h1) (List.getElem?_eq_getElem h2)
    obtain ⟨q', gexpr', hp', hq', hd', _⟩ := isBinding_inv FMatchPattern memo _ P' _
      (extracted_isBinding FMatchPattern memo fuel _ P' _ hce)
    exact ⟨e.m_pdrgpexpr[ul], gexpr.m_pdrgpgroup[ul], q', gexpr',
      (child_iff e ul _).2 (List.getElem?_eq_getElem h1), List.getElem?_eq_getElem h2,
      hp', hq', hd'⟩
  · intro q last hlast
    have heq : PexprExtractDebug FMatchPattern memo fuel q P last
        = PexprExtract FMatchPattern memo fuel q P last := by
      unfold PexprExtractDebug PexprExtract
      exact root_debug_eq FMatchPattern memo _ _
        (fun cg P' x hx => group_debug_eq FMatchPattern memo fuel cg P' x hx) q P last
        (fun l hl => hroot q l (hlast l hl))
    refine ⟨heq, ?_⟩
    rw [heq]
    exact root_no_assertion FMatchPattern memo fuel q P last
  · intro g last hlast
    have heq := group_debug_eq FMatchPattern memo fuel g P last
      (fun l hl => extracted_isBinding FMatchPattern memo fuel g P l (hlast l hl))
    refine ⟨heq, ?_⟩
    rw [heq]
    exact group_no_assertion FMatchPattern memo fuel g P last

/-- C26, witness: extraction of `Join(tree, tree)` at the join of group 6 of
the example memo, resumed from the first expression it returns: no assertion
fails.  The assertions do fail for a previous result that was not extracted
there: one rooted at another group expression, and one whose first child is
rooted in the second child group. -/
theorem C26_resumption_assertions_witness :
    (PexprExtractDebug FMatchPatternSpec exampleMemo 3 ⟨6, 0⟩ patJoinTrees
          (some (exprJoin6 (exprScan 2 4 0) (exprScan 4 5 0)))
        = PexprExtract FMatchPatternSpec exampleMemo 3 ⟨6, 0⟩ patJoinTrees
          (some (exprJoin6 (exprScan 2 4 0) (exprScan 4 5 0))) ∧
      PexprExtractDebug FMatchPatternSpec exampleMemo 3 ⟨6, 0⟩ patJoinTrees
          (some (exprJoin6 (exprScan 2 4 0) (exprScan 4 5 0))) ≠ .error .assertion) ∧
      PexprExtractDebug FMatchPatternSpec exampleMemo 3 ⟨6, 0⟩ patJoinTrees
          (some (exprScan 2 4 0)) = .error .assertion ∧
      PexprExtractDebug FMatchPatternSpec exampleMemo 3 ⟨6, 0⟩ patJoinTrees
          (some (exprJoin6 (exprScan 4 5 0) (exprScan 4 5 0))) = .error .assertion :=
  ⟨(C26_resumption_assertions FMatchPatternSpec exampleMemo 3 patJoinTrees).2.1 ⟨6, 0⟩
      (some (exprJoin6 (exprScan 2 4 0) (exprScan 4 5 0)))
      (fun l hl => by
        injection hl with hl
        subst hl
        exact .first ⟨6, 0⟩ patJoinTrees _ rfl),
    rfl, rfl⟩

/-! ## C27: resetting a cursor never fails -/

/-- C27.  A child cursor that has returned an expression before returns an
expression when it is reset: if `c` is a result of repeated extraction from a
group against a pattern, extraction from that group against that pattern with
no previous result returns an expression.  Therefore, with a previous result
of repeated extraction at the group expression, `FAdvanceChildCursors` never
fails the assertion `nullptr != pexprNewChild` (at no depth of the recursion),
and the array it fills receives exactly one child per child group. -/
theorem C27_cursor_reset_never_fails
    (FMatchPattern : CExpression → CGroupExpression → Bool) (memo : CMemo) (fuel : Nat)
    (P : CExpression) :
    (∀ (g : Nat) (c : CExpression), Extracted FMatchPattern memo fuel g P c →
        ∃ c₀, PexprExtractGroup FMatchPattern memo fuel g P none = .ok (some c₀)) ∧
      (∀ (q : PGroupExpression) (gexpr : CGroupExpression) (l : CExpression),
        ExtractedRoot FMatchPattern memo fuel q P l → memo.deref q = some gexpr →
        P.FLeafPattern = false →
        (∀ (ul : Nat) (c : CExpression) (cg : Nat) (P' : CExpression),
          l.child ul = .ok c → gexpr.m_pdrgpgroup[ul]? = some cg →
          PexprExpandPattern P ul gexpr.Arity = .ok P' →
          ∃ c₀, PexprExtractGroup FMatchPattern memo fuel cg P' none = .ok (some c₀)) ∧
        FAdvanceChildCursors (PexprExtractGroup FMatchPattern memo fuel) gexpr P (some l) []
          ≠ .error .nullChild ∧
        ∀ b res,
          FAdvanceChildCursors (PexprExtractGroup FMatchPattern memo fuel) gexpr P (some l) []
            = .ok (b, res) → res.length = gexpr.Arity) ∧
      (∀ (q : PGroupExpression) (last : Option CExpression),
        (∀ l, last = some l → ExtractedRoot FMatchPattern memo fuel q P l) →
        PexprExtract FMatchPattern memo fuel q P last ≠ .error .nullChild) ∧
      (∀ (g : Nat) (last : Option CExpression),
        (∀ l, last = some l → Extracted FMatchPattern memo fuel g P l) →
        PexprExtractGroup FMatchPattern memo fuel g P last ≠ .error .nullChild) := by
  refine ⟨fun g c h => extracted_first FMatchPattern memo fuel g P c h, ?_, ?_, ?_⟩
  · intro q gexpr l hl hd hleaf
    have hb := extractedRoot_result FMatchPattern memo fuel q P l hl
    have hchild : ∀ (ul : Nat) (c : CExpression) (cg : Nat) (P' : CExpression),
        l.child ul = .ok c → gexpr.m_pdrgpgroup[ul]? = some cg →
        PexprExpandPattern P ul gexpr.Arity = .ok P' →
        Extracted FMatchPattern memo fuel cg P' c :=
      fun ul c cg P' hc hg hexp =>
        boundAt_child FMatchPattern memo _ q P l gexpr hb hd hleaf ul c cg P' hc hg hexp
    refine ⟨fun ul c cg P' hc hg hexp =>
      extracted_first FMatchPattern memo fuel cg P' c (hchild ul c cg P' hc hg hexp), ?_, ?_⟩
    · have hloop := advance_loop_noerr (PexprExtractGroup FMatchPattern memo fuel) P l
        gexpr.Arity .nullChild (by simp) gexpr.m_pdrgpgroup 0 false 0 []
        (by
          intro j cg P' hg hexp
          simp only [Nat.zero_add] at hexp ⊢
          refine ⟨group_no_nullChild FMatchPattern memo fuel cg P' none
            (fun l' hl' => by cases hl'), ?_⟩
          intro c hc
          have hce := hchild j c cg P' hc hg hexp
          refine ⟨group_no_nullChild FMatchPattern memo fuel cg P' (some c)
            (fun l' hl' => by injection hl' with hl'; subst hl'; exact hce), ?_⟩
          intro _ _ hnone
          obtain ⟨c₀, h0⟩ := extracted_first FMatchPattern memo fuel cg P' c hce
          rw [h0] at hnone
          cases hnone)
      unfold FAdvanceChildCursors
      simp only
      cases hr : FAdvanceChildCursors.loop (PexprExtractGroup FMatchPattern memo fuel) P l
          gexpr.Arity gexpr.m_pdrgpgroup 0 false 0 [] with
      | error err =>
        simp only
        intro h
        injection h with h
        exact hloop (by rw [hr, h])
      | ok r => simp
    · intro b res h
      unfold FAdvanceChildCursors at h
      simp only at h
      cases hr : FAdvanceChildCursors.loop (PexprExtractGroup FMatchPattern memo fuel) P l
          gexpr.Arity gexpr.m_pdrgpgroup 0 false 0 [] with
      | error err => simp [hr] at h
      | ok r =>
        obtain ⟨n, res'⟩ := r
        simp only [hr] at h
        injection h with h
        injection h with _ h
        subst h
        obtain ⟨t, ht, hlen, _⟩ := advance_loop_result
          (PexprExtractGroup FMatchPattern memo fuel) P l gexpr.Arity (fun _ _ _ => True)
          (fun _ _ _ _ => trivial) (fun _ _ _ _ _ _ => trivial) gexpr.m_pdrgpgroup 0 false 0 []
          n res' (fun _ _ _ _ _ _ _ => trivial) hr
        simp only [List.nil_append] at ht
        rw [ht, hlen]
        rfl
  · intro q last hlast
    unfold PexprExtract
    exact root_no_nullChild FMatchPattern memo fuel
      (fun g P last => group_no_nullChild FMatchPattern memo fuel g P last) q P last
      (fun l hl => extractedRoot_result FMatchPattern memo fuel q P l (hlast l hl))
  · intro g last hlast
    exact group_no_nullChild FMatchPattern memo fuel g P last hlast

/-- C27, witness: at the join of group 6 of the example memo, resumed from the
second expression it returns, the cursor of the first child is exhausted and
reset, and the array receives two children. -/
theorem C27_cursor_reset_never_fails_witness :
    (∀ (ul : Nat) (c : CExpression) (cg : Nat) (P' : CExpression),
        (exprJoin6 (exprScan 3 4 1) (exprScan 4 5 0)).child ul = .ok c →
        (⟨opJoin, [4, 5]⟩ : CGroupExpression).m_pdrgpgroup[ul]? = some cg →
        PexprExpandPattern patJoinTrees ul (⟨opJoin, [4, 5]⟩ : CGroupExpression).Arity = .ok P' →
        ∃ c₀, PexprExtractGroup FMatchPatternSpec exampleMemo 3 cg P' none = .ok (some c₀)) ∧
      FAdvanceChildCursors (PexprExtractGroup FMatchPatternSpec exampleMemo 3) ⟨opJoin, [4, 5]⟩
          patJoinTrees (some (exprJoin6 (exprScan 3 4 1) (exprScan 4 5 0))) []
        ≠ .error .nullChild ∧
      ∀ b res,
        FAdvanceChildCursors (PexprExtractGroup FMatchPatternSpec exampleMemo 3)
            ⟨opJoin, [4, 5]⟩ patJoinTrees
            (some (exprJoin6 (exprScan 3 4 1) (exprScan 4 5 0))) []
          = .ok (b, res) → res.length = (⟨opJoin, [4, 5]⟩ : CGroupExpression).Arity :=
  (C27_cursor_reset_never_fails FMatchPatternSpec exampleMemo 3 patJoinTrees).2.1 ⟨6, 0⟩
    ⟨opJoin, [4, 5]⟩ (exprJoin6 (exprScan 3 4 1) (exprScan 4 5 0))
    (.next ⟨6, 0⟩ patJoinTrees (exprJoin6 (exprScan 2 4 0) (exprScan 4 5 0)) _
      (.first ⟨6, 0⟩ patJoinTrees _ rfl) rfl)
    rfl rfl

end CBinding
end gpopt
